import Mathlib

/-
  Verification of the iquavis_task_copy change-tracking / reconciliation
  pipeline against its natural-language specification.

  The Python sources (excel_writer.py, import_tasks_cli.py) are shallowly
  embedded below.  Python values are modelled by the mutual inductive
  `PyVal` / `PyList` / `PyDict`: floats are exact rationals plus the IEEE
  specials (every IEEE double is an exact rational, and the only float
  operations the code performs — equality, `math.isfinite`, `int()`
  truncation — are exact on doubles); dicts are association lists in
  insertion order with unique keys (the invariant CPython dicts maintain);
  datetimes are a seven-field record.  Standard-library calls
  (`json.loads`, `json.dumps`, `str()`, `os.path.*`) are modelled by
  executable Lean functions written against the CPython documentation.
-/

namespace Iq

/-- Model of a Python float: an exact finite rational or an IEEE special. -/
inductive PyFloat where
  | finite (q : Rat)
  | inf
  | neginf
  | nan
deriving DecidableEq, Repr

/-- Model of `datetime.datetime` (naive): the seven constructor fields. -/
structure PyDateTime where
  year : Nat
  month : Nat
  day : Nat
  hour : Nat
  minute : Nat
  second : Nat
  microsecond : Nat
deriving DecidableEq, Repr

mutual

/-- Model of the Python values flowing through the pipeline: `None`,
booleans, ints, floats, strings, datetimes, lists and string-keyed dicts
(association lists in insertion order). -/
inductive PyVal where
  | none
  | bool (b : Bool)
  | int (n : Int)
  | float (f : PyFloat)
  | str (s : String)
  | dt (d : PyDateTime)
  | list (xs : PyList)
  | dict (fields : PyDict)

/-- A Python list of modelled values. -/
inductive PyList where
  | nil
  | cons (hd : PyVal) (tl : PyList)

/-- A Python dict with string keys, kept in insertion order. -/
inductive PyDict where
  | nil
  | cons (key : String) (val : PyVal) (tl : PyDict)

end

/-- Build a `PyList` from a Lean list (for writing concrete values). -/
def PyList.ofList : List PyVal → PyList
  | [] => .nil
  | x :: xs => .cons x (PyList.ofList xs)

/-- Build a `PyDict` from a Lean association list. -/
def PyDict.ofList : List (String × PyVal) → PyDict
  | [] => .nil
  | (k, v) :: rest => .cons k v (PyDict.ofList rest)

/-- View a `PyDict` as a Lean association list (for statements). -/
def PyDict.toList : PyDict → List (String × PyVal)
  | .nil => []
  | .cons k v rest => (k, v) :: rest.toList

/-- Number of entries of a `PyDict` (`len(d)`). -/
def PyDict.length : PyDict → Nat
  | .nil => 0
  | .cons _ _ rest => rest.length + 1

/-- Number of elements of a `PyList` (`len(l)`). -/
def PyList.length : PyList → Nat
  | .nil => 0
  | .cons _ rest => rest.length + 1

/-- `d[key]` lookup: first match in insertion order (keys are unique in
any dict CPython can build, so "first" is the only occurrence). -/
def PyDict.find : PyDict → String → Option PyVal
  | .nil, _ => Option.none
  | .cons k v rest, key => if k = key then some v else rest.find key

/-- `d[key] = val`: replace in place if the key is present (CPython dicts
keep the original insertion position), else append at the end. -/
def PyDict.set : PyDict → String → PyVal → PyDict
  | .nil, key, val => .cons key val .nil
  | .cons k v rest, key, val =>
    if k = key then .cons k val rest else .cons k v (rest.set key val)

/-- Concatenation of dict entry sequences (used to model end-insertion). -/
def PyDict.append : PyDict → PyDict → PyDict
  | .nil, ds => ds
  | .cons k v rest, ds => .cons k v (rest.append ds)

/-- The keys of a dict, in order. -/
def PyDict.keysOf : PyDict → List String
  | .nil => []
  | .cons k _ rest => k :: rest.keysOf

/-- `dict(items)`: later duplicates overwrite earlier ones, the first
insertion position wins — i.e. a left fold of `PyDict.set`. -/
def dictOfItems (items : List (String × PyVal)) : PyDict :=
  items.foldl (fun acc kv => acc.set kv.1 kv.2) .nil

mutual

/-- Nesting depth of a value (an executable bound for fuelled helpers). -/
def pyDepth : PyVal → Nat
  | .list xs => 1 + pyDepthL xs
  | .dict fs => 1 + pyDepthD fs
  | _ => 1

/-- Maximal depth over a list's elements. -/
def pyDepthL : PyList → Nat
  | .nil => 0
  | .cons x xs => max (pyDepth x) (pyDepthL xs)

/-- Maximal depth over a dict's values. -/
def pyDepthD : PyDict → Nat
  | .nil => 0
  | .cons _ v fs => max (pyDepth v) (pyDepthD fs)

end

/-- Numeric view used by Python `==`: bools and ints coerce to floats
(`True == 1`, `1 == 1.0`). -/
def pyNum : PyVal → Option PyFloat
  | .bool b => some (.finite (if b then 1 else 0))
  | .int n => some (.finite n)
  | .float f => some f
  | _ => Option.none

/-- Equality of float models; `nan` is not equal to anything, itself
included, matching IEEE `==`. -/
def pyFloatEq : PyFloat → PyFloat → Bool
  | .finite a, .finite b => a == b
  | .inf, .inf => true
  | .neginf, .neginf => true
  | _, _ => false

mutual

/-- Fuelled Python `==` on values.  Numbers compare numerically across
bool/int/float; lists compare pointwise; dicts compare as key→value maps
(equal length plus per-key lookup, as CPython does).  The fuel only bounds
the dict-lookup nesting and is taken larger than the depth at call sites. -/
def pyEqF : Nat → PyVal → PyVal → Bool
  | 0, _, _ => false
  | fuel+1, x, y =>
    match pyNum x, pyNum y with
    | some a, some b => pyFloatEq a b
    | _, _ =>
      match x, y with
      | .none, .none => true
      | .str a, .str b => a == b
      | .dt a, .dt b => a == b
      | .list xs, .list ys => pyEqLF (fuel+1) xs ys
      | .dict fs, .dict gs =>
        fs.length == gs.length && pyEqDF fuel fs gs
      | _, _ => false

/-- Pointwise fuelled `==` on lists (false on length mismatch). -/
def pyEqLF : Nat → PyList → PyList → Bool
  | _, .nil, .nil => true
  | 0, _, _ => false
  | fuel+1, .cons x xs, .cons y ys => pyEqF (fuel+1) x y && pyEqLF fuel xs ys
  | _, _, _ => false

/-- For each entry of the first dict, look its key up in the second and
compare the values. -/
def pyEqDF (fuel : Nat) : PyDict → PyDict → Bool
  | .nil, _ => true
  | .cons k v rest, gs =>
    (match gs.find k with
     | some w => pyEqF fuel v w
     | Option.none => false) && pyEqDF fuel rest gs

end

/-- Python `==` on modelled values (fuel: one more than the nesting depth,
so the fuel never runs out). -/
def pyEq (x y : PyVal) : Bool := pyEqF (pyDepth x + 1) x y

/-- Python truthiness (`bool(v)`): `None`, `False`, zero, empty string,
empty list and empty dict are falsy. -/
def pyTruthy : PyVal → Bool
  | .none => false
  | .bool b => b
  | .int n => n != 0
  | .float f =>
    match f with
    | .finite q => q != 0
    | _ => true
  | .str s => s ≠ ""
  | .dt _ => true
  | .list xs =>
    match xs with
    | .nil => false
    | _ => true
  | .dict fs =>
    match fs with
    | .nil => false
    | _ => true

/-- The whitespace characters `str.strip()` removes (the ASCII ones; the
pipeline never sees the exotic unicode spaces). -/
def wsChar (c : Char) : Bool :=
  c = ' ' || c = '\t' || c = '\n' || c = '\r' || c.toNat = 11 || c.toNat = 12

/-- `s.strip()`: drop leading and trailing whitespace. -/
def pyStrip (s : String) : String :=
  ⟨((s.data.dropWhile wsChar).reverse.dropWhile wsChar).reverse⟩

/-- `s.lower()` (ASCII case mapping). -/
def pyLower (s : String) : String :=
  ⟨s.data.map fun c =>
    if 'A' ≤ c ∧ c ≤ 'Z' then Char.ofNat (c.toNat + 32) else c⟩

/-- `s.upper()` (ASCII case mapping). -/
def pyUpper (s : String) : String :=
  ⟨s.data.map fun c =>
    if 'a' ≤ c ∧ c ≤ 'z' then Char.ofNat (c.toNat - 32) else c⟩

/-- Zero-pad a natural to a fixed width, as `datetime` formatting does. -/
def padZ (w n : Nat) : String :=
  let s := toString n
  String.mk (List.replicate (w - s.length) '0') ++ s

/-- `datetime.isoformat()`: `YYYY-MM-DDTHH:MM:SS`, with `.ffffff` appended
only when the microsecond field is nonzero. -/
def PyDateTime.isoformat (d : PyDateTime) : String :=
  padZ 4 d.year ++ "-" ++ padZ 2 d.month ++ "-" ++ padZ 2 d.day ++ "T" ++
    padZ 2 d.hour ++ ":" ++ padZ 2 d.minute ++ ":" ++ padZ 2 d.second ++
    (if d.microsecond = 0 then "" else "." ++ padZ 6 d.microsecond)

/-- `str(datetime)`: same as `isoformat` but with a space separator. -/
def PyDateTime.strFormat (d : PyDateTime) : String :=
  padZ 4 d.year ++ "-" ++ padZ 2 d.month ++ "-" ++ padZ 2 d.day ++ " " ++
    padZ 2 d.hour ++ ":" ++ padZ 2 d.minute ++ ":" ++ padZ 2 d.second ++
    (if d.microsecond = 0 then "" else "." ++ padZ 6 d.microsecond)

/-- Decimal digits of a rational in `[0,1)`, most significant first; the
fuel bounds the number of digits (floats are binary rationals, so the
expansion of any value the code can see terminates). -/
def fracDigitStr : Nat → Rat → String
  | 0, _ => ""
  | f+1, q =>
    if q = 0 then ""
    else
      let q10 := 10 * q
      let d := q10.floor
      (Char.ofNat (48 + d.toNat)).toString ++ fracDigitStr f (q10 - d)

/-- `str()` of a float: sign, integer part, point, decimal expansion of the
fractional part (CPython prints the shortest round-tripping decimal; on the
exact-rational model the terminating expansion is that decimal). -/
def floatRepr : PyFloat → String
  | .finite q =>
    let neg := q < 0
    let aq := |q|
    let ip := aq.floor
    let fp := aq - ip
    let ds := fracDigitStr 64 fp
    (if neg then "-" else "") ++ toString ip.toNat ++ "." ++
      (if ds = "" then "0" else ds)
  | .inf => "inf"
  | .neginf => "-inf"
  | .nan => "nan"

/-- Intercalate for building display strings. -/
def joinSep (sep : String) : List String → String
  | [] => ""
  | [s] => s
  | s :: rest => s ++ sep ++ joinSep sep rest

mutual

/-- `repr()` on modelled values (strings are shown between single quotes;
exact for the quote-free, escape-free strings the pipeline produces). -/
def pyRepr : PyVal → String
  | .none => "None"
  | .bool b => if b then "True" else "False"
  | .int n => toString n
  | .float fl => floatRepr fl
  | .str s => "'" ++ s ++ "'"
  | .dt d =>
    "datetime.datetime(" ++
      joinSep ", " [toString d.year, toString d.month, toString d.day,
        toString d.hour, toString d.minute, toString d.second] ++ ")"
  | .list xs => "[" ++ joinSep ", " (pyReprL xs) ++ "]"
  | .dict fs => "\x7b" ++ joinSep ", " (pyReprD fs) ++ "\x7d"

/-- `repr` of each list element. -/
def pyReprL : PyList → List String
  | .nil => []
  | .cons x xs => pyRepr x :: pyReprL xs

/-- `repr` of each dict entry (`'key': value`). -/
def pyReprD : PyDict → List String
  | .nil => []
  | .cons k v rest => ("'" ++ k ++ "': " ++ pyRepr v) :: pyReprD rest

end

/-- `str()` on modelled values: identity on strings, `None`/`True`/`False`
keywords, decimal ints, float repr, space-separated datetimes, `repr` for
containers. -/
def pyStr : PyVal → String
  | .str s => s
  | .none => "None"
  | .bool b => if b then "True" else "False"
  | .int n => toString n
  | .float f => floatRepr f
  | .dt d => d.strFormat
  | .list xs => pyRepr (.list xs)
  | .dict fs => pyRepr (.dict fs)

mutual

/-- Whether `json.dumps` accepts the value: everything in the model except
datetimes (which raise `TypeError`); `nan`/`inf` are accepted because the
default `allow_nan=True` is in force. -/
def jsonSerializable : PyVal → Bool
  | .dt _ => false
  | .list xs => jsonSerializableL xs
  | .dict fs => jsonSerializableD fs
  | _ => true

/-- Serializability of every list element. -/
def jsonSerializableL : PyList → Bool
  | .nil => true
  | .cons x xs => jsonSerializable x && jsonSerializableL xs

/-- Serializability of every dict value. -/
def jsonSerializableD : PyDict → Bool
  | .nil => true
  | .cons _ v fs => jsonSerializable v && jsonSerializableD fs

end

/-- JSON string escaping with `ensure_ascii=False`: quote, backslash and
control characters are escaped, everything else is passed through. -/
def jsonEscape (s : String) : String :=
  String.join <| s.data.map fun c =>
    if c = '"' then "\\\""
    else if c = '\\' then "\\\\"
    else if c = '\n' then "\\n"
    else if c = '\r' then "\\r"
    else if c = '\t' then "\\t"
    else if c.toNat < 32 then
      "\\u00" ++ (Char.ofNat (if c.toNat / 16 < 10 then 48 + c.toNat / 16
        else 87 + c.toNat / 16)).toString ++
        (Char.ofNat (if c.toNat % 16 < 10 then 48 + c.toNat % 16
          else 87 + c.toNat % 16)).toString
    else c.toString

mutual

/-- `json.dumps(v, ensure_ascii=False)` with the default separators
`", "` and `": "`, on serializable values. -/
def jsonDumps : PyVal → String
  | .none => "null"
  | .bool b => if b then "true" else "false"
  | .int n => toString n
  | .float f =>
    match f with
    | .finite q => floatRepr (.finite q)
    | .inf => "Infinity"
    | .neginf => "-Infinity"
    | .nan => "NaN"
  | .str s => "\"" ++ jsonEscape s ++ "\""
  | .dt _ => ""
  | .list xs => "[" ++ joinSep ", " (jsonDumpsL xs) ++ "]"
  | .dict fs => "\x7b" ++ joinSep ", " (jsonDumpsD fs) ++ "\x7d"

/-- Serialization of each list element. -/
def jsonDumpsL : PyList → List String
  | .nil => []
  | .cons x xs => jsonDumps x :: jsonDumpsL xs

/-- Serialization of each dict entry. -/
def jsonDumpsD : PyDict → List String
  | .nil => []
  | .cons k v fs => ("\"" ++ jsonEscape k ++ "\": " ++ jsonDumps v) :: jsonDumpsD fs

end

/-! ### A model of `json.loads`

A recursive-descent reading of CPython's `json` decoder: optional
whitespace, the literals `null`/`true`/`false`/`NaN`/`Infinity`/
`-Infinity`, numbers (ints without fraction/exponent, floats otherwise,
no leading zeros), strings with the standard escapes, arrays, and objects
(duplicate keys: last value wins).  The recursion is fuelled; the fuel is
taken as the input length plus one, which exceeds the nesting depth plus
the element count of any parse, so it never runs out on accepted input. -/

/-- JSON whitespace. -/
def jsonWs (c : Char) : Bool := c = ' ' || c = '\t' || c = '\n' || c = '\r'

/-- Skip leading JSON whitespace. -/
def skipWs : List Char → List Char
  | [] => []
  | c :: rest => if jsonWs c then skipWs rest else c :: rest

/-- Consume an expected literal tail. -/
def takeLit : List Char → List Char → Option (List Char)
  | [], input => some input
  | _ :: _, [] => Option.none
  | c :: cs, d :: rest => if c = d then takeLit cs rest else Option.none

/-- Value of a digit run, most significant first. -/
def digitsVal (ds : List Char) : Nat :=
  ds.foldl (fun a c => 10 * a + (c.toNat - 48)) 0

/-- Exponent tail of a number: optional sign then at least one digit;
returns `(matched, negative, digits, rest)` and leaves the input untouched
when the tail does not match (the regex group is optional). -/
def parseExpTail (r orig : List Char) : Bool × Bool × List Char × List Char :=
  let (esign, r1) :=
    match r with
    | '+' :: t => (false, t)
    | '-' :: t => (true, t)
    | _ => (false, r)
  let (ds, r2) := r1.span Char.isDigit
  if ds.isEmpty then (false, false, [], orig) else (true, esign, ds, r2)

/-- Number scanner: `(-?(?:0|[1-9]\d*))(\.\d+)?([eE][-+]?\d+)?`.  An
integer literal yields a Python int, anything with a fraction or exponent
a float. -/
def parseNumber (input : List Char) : Option (PyVal × List Char) :=
  let (neg, s1) :=
    match input with
    | '-' :: rest => (true, rest)
    | _ => (false, input)
  let (intDs, s2) := s1.span Char.isDigit
  if intDs.isEmpty then Option.none
  else if intDs.length > 1 && intDs.headI = '0' then Option.none
  else
    let (hasFrac, fracDs, s3) :=
      match s2 with
      | '.' :: r =>
        let (ds, r2) := r.span Char.isDigit
        if ds.isEmpty then (false, [], s2) else (true, ds, r2)
      | _ => (false, ([] : List Char), s2)
    let (hasExp, expNeg, expDs, s4) := parseExpTail (s3.drop 1) s3
    let (hasExp, expNeg, expDs, s4) :=
      match s3 with
      | 'e' :: _ => (hasExp, expNeg, expDs, s4)
      | 'E' :: _ => (hasExp, expNeg, expDs, s4)
      | _ => (false, false, ([] : List Char), s3)
    if !hasFrac && !hasExp then
      let n : Int := digitsVal intDs
      some (.int (if neg then -n else n), s2)
    else
      let base : Rat :=
        (digitsVal intDs : Rat) + (digitsVal fracDs : Rat) / (10 : Rat) ^ fracDs.length
      let scaled : Rat :=
        if hasExp then
          if expNeg then base / (10 : Rat) ^ digitsVal expDs
          else base * (10 : Rat) ^ digitsVal expDs
        else base
      some (.float (.finite (if neg then -scaled else scaled)), s4)

/-- Hex digit value. -/
def hexVal (c : Char) : Option Nat :=
  if c.isDigit then some (c.toNat - 48)
  else if 'a' ≤ c ∧ c ≤ 'f' then some (c.toNat - 87)
  else if 'A' ≤ c ∧ c ≤ 'F' then some (c.toNat - 55)
  else Option.none

/-- Body of a JSON string after the opening quote, with the standard
escapes; unescaped control characters are rejected (strict mode).  A
`\uXXXX` escape becomes the corresponding code point (surrogate-pair
recombination is not modelled; the pipeline never produces surrogates). -/
def parseStringBody : Nat → List Char → Option (List Char × List Char)
  | 0, _ => Option.none
  | f+1, input =>
    match input with
    | [] => Option.none
    | '"' :: rest => some ([], rest)
    | '\\' :: rest =>
      (match rest with
       | '"' :: r => (parseStringBody f r).map fun p => ('"' :: p.1, p.2)
       | '\\' :: r => (parseStringBody f r).map fun p => ('\\' :: p.1, p.2)
       | '/' :: r => (parseStringBody f r).map fun p => ('/' :: p.1, p.2)
       | 'b' :: r => (parseStringBody f r).map fun p => (Char.ofNat 8 :: p.1, p.2)
       | 'f' :: r => (parseStringBody f r).map fun p => (Char.ofNat 12 :: p.1, p.2)
       | 'n' :: r => (parseStringBody f r).map fun p => ('\n' :: p.1, p.2)
       | 'r' :: r => (parseStringBody f r).map fun p => ('\r' :: p.1, p.2)
       | 't' :: r => (parseStringBody f r).map fun p => ('\t' :: p.1, p.2)
       | 'u' :: a :: b :: c :: d :: r =>
         match hexVal a, hexVal b, hexVal c, hexVal d with
         | some ha, some hb, some hc, some hd =>
           (parseStringBody f r).map fun p =>
             (Char.ofNat (((ha * 16 + hb) * 16 + hc) * 16 + hd) :: p.1, p.2)
         | _, _, _, _ => Option.none
       | _ => Option.none)
    | c :: rest =>
      if c.toNat < 32 then Option.none
      else (parseStringBody f rest).map fun p => (c :: p.1, p.2)

mutual

/-- Fuelled JSON value: skip whitespace, dispatch on the first character. -/
def parseVal : Nat → List Char → Option (PyVal × List Char)
  | 0, _ => Option.none
  | f+1, input =>
    match skipWs input with
    | [] => Option.none
    | c :: rest =>
      if c = 'n' then (takeLit ['u', 'l', 'l'] rest).map ((PyVal.none, ·))
      else if c = 't' then (takeLit ['r', 'u', 'e'] rest).map ((PyVal.bool true, ·))
      else if c = 'f' then (takeLit ['a', 'l', 's', 'e'] rest).map ((PyVal.bool false, ·))
      else if c = 'N' then (takeLit ['a', 'N'] rest).map ((PyVal.float .nan, ·))
      else if c = 'I' then
        (takeLit ['n', 'f', 'i', 'n', 'i', 't', 'y'] rest).map ((PyVal.float .inf, ·))
      else if c = '"' then
        (parseStringBody (rest.length + 1) rest).map fun p => (.str (String.mk p.1), p.2)
      else if c = '[' then
        match skipWs rest with
        | ']' :: r => some (.list .nil, r)
        | r => (parseElems f r).map fun p => (.list (PyList.ofList p.1), p.2)
      else if c = '\x7b' then
        match skipWs rest with
        | '\x7d' :: r => some (.dict .nil, r)
        | r => (parseMembers f r).map fun p => (.dict (dictOfItems p.1), p.2)
      else if c = '-' then
        match rest with
        | 'I' :: r2 =>
          (takeLit ['n', 'f', 'i', 'n', 'i', 't', 'y'] r2).map ((PyVal.float .neginf, ·))
        | _ => parseNumber (c :: rest)
      else parseNumber (c :: rest)

/-- Comma-separated array elements up to the closing bracket. -/
def parseElems : Nat → List Char → Option (List PyVal × List Char)
  | 0, _ => Option.none
  | f+1, input =>
    match parseVal f input with
    | Option.none => Option.none
    | some (v, r1) =>
      match skipWs r1 with
      | ',' :: r2 => (parseElems f r2).map fun p => (v :: p.1, p.2)
      | ']' :: r2 => some ([v], r2)
      | _ => Option.none

/-- Comma-separated object members up to the closing brace. -/
def parseMembers : Nat → List Char → Option (List (String × PyVal) × List Char)
  | 0, _ => Option.none
  | f+1, input =>
    match skipWs input with
    | '"' :: r =>
      match parseStringBody (r.length + 1) r with
      | Option.none => Option.none
      | some (ks, r1) =>
        match skipWs r1 with
        | ':' :: r2 =>
          match parseVal f r2 with
          | Option.none => Option.none
          | some (v, r3) =>
            match skipWs r3 with
            | ',' :: r4 => (parseMembers f r4).map fun p => ((String.mk ks, v) :: p.1, p.2)
            | '\x7d' :: r4 => some ([(String.mk ks, v)], r4)
            | _ => Option.none
        | _ => Option.none
    | _ => Option.none

end

/-- `json.loads(s)`: parse one value and require only whitespace after it;
`Option.none` models `json.JSONDecodeError`. -/
def jsonLoads (s : String) : Option PyVal :=
  match parseVal (s.data.length + 1) s.data with
  | some (v, rest) => if (skipWs rest).isEmpty then some v else Option.none
  | Option.none => Option.none

/-! ### normalize_value (import_tasks_cli.py lines 66-93) -/

/-- `_normalize_numeric`: a finite float that equals its own truncation
collapses to an int (on exact rationals: denominator one), everything else
is returned unchanged. -/
def normalize_numeric (f : PyFloat) : PyVal :=
  match f with
  | .finite q => if q.den = 1 then .int q.num else .float (.finite q)
  | g => .float g

/-- The `isinstance(parsed, (dict, list, int, float, bool))` test applied
to a `json.loads` result: parsed strings and `null` fail it. -/
def jsonReplaceable : PyVal → Bool
  | .dict _ => true
  | .list _ => true
  | .int _ => true
  | .float _ => true
  | .bool _ => true
  | _ => false

/-- `normalize_value`: `None` passes through; floats collapse integral
values; datetimes become their ISO string; strings are stripped (modelled
by `String.trim`), empty becomes `None`, case-insensitive `true`/`false`
become bools, then a `json.loads` attempt whose dict/list/int/float/bool
results substitute for the text; all other values pass through. -/
def normalize_value (v : PyVal) : PyVal :=
  match v with
  | .none => .none
  | .float f => normalize_numeric f
  | .dt d => .str d.isoformat
  | .str s =>
    let stripped := pyStrip s
    if stripped = "" then .none
    else
      let lowered := pyLower stripped
      if lowered = "true" then .bool true
      else if lowered = "false" then .bool false
      else
        match jsonLoads stripped with
        | some parsed => if jsonReplaceable parsed then parsed else .str stripped
        | Option.none => .str stripped
  | v => v

/-! ### flatten_dict (excel_writer.py lines 17-36) -/

/-- The item list accumulated by `flatten_dict` before the final `dict()`:
nested dicts recurse with a dot-joined key, lists become their compact
JSON text (or their display string when not serializable), every other
value is kept as is. -/
def flattenItems (sep : String) : PyDict → String → List (String × PyVal)
  | .nil, _ => []
  | .cons k v rest, parent =>
    let newKey := if parent = "" then k else parent ++ sep ++ k
    (match v with
     | .dict gs => flattenItems sep gs newKey
     | .list xs =>
       [(newKey, .str (if jsonSerializable (.list xs) then jsonDumps (.list xs)
         else pyStr (.list xs)))]
     | w => [(newKey, w)]) ++ flattenItems sep rest parent

/-- `flatten_dict(obj, parent_key, sep)` — the item list passed through
`dict()` (later duplicates overwrite, first position wins).  The inner
recursive calls in the source also pass through `dict()`, which only
matters when dotted keys collide across levels; the resulting mapping and
order are the same either way. -/
def flatten_dict (obj : PyDict) (parent : String := "") (sep : String := ".") :
    List (String × PyVal) :=
  (dictOfItems (flattenItems sep obj parent)).toList

/-! ### unflatten (import_tasks_cli.py lines 96-108) -/

/-- The Python exceptions the walk in `unflatten` can raise: assigning
into a non-dict raises `TypeError`, calling `.setdefault` on a non-dict
raises `AttributeError`. -/
inductive PyErr where
  | typeError
  | attributeError
deriving DecidableEq, Repr

/-- `key.split(sep)` for the default single-character separator `"."`
(the only separator the repository ever passes). -/
def splitD : List Char → List (List Char)
  | [] => [[]]
  | c :: rest =>
    let r := splitD rest
    if c = '.' then [] :: r
    else (c :: r.headI) :: r.tail

/-- `key.split(".")` on strings. -/
def pySplitDot (s : String) : List String := (splitD s.data).map String.mk

/-- The cursor walk of `unflatten` for one key: `setdefault` down the
leading parts, then assign at the last part.  A non-dict met at the final
step raises `TypeError` (item assignment), one met earlier raises
`AttributeError` (`setdefault` on a non-dict). -/
def setPath : PyDict → List String → PyVal → Except PyErr PyDict
  | fields, [last], v => .ok (fields.set last v)
  | fields, part :: r1 :: rs, v =>
    match fields.find part with
    | some (.dict gs) =>
      match setPath gs (r1 :: rs) v with
      | .ok gs2 => .ok (fields.set part (.dict gs2))
      | .error e => .error e
    | some _ =>
      match rs with
      | [] => .error .typeError
      | _ => .error .attributeError
    | Option.none =>
      match setPath .nil (r1 :: rs) v with
      | .ok gs2 => .ok (fields.append (.cons part (.dict gs2) .nil))
      | .error e => .error e
  | fields, [], _ => .ok fields

/-- One iteration of the `unflatten` loop: `None` values are skipped, the
key is split on the separator and empty parts are dropped, a key with no
parts is skipped, otherwise the cursor walk runs. -/
def unflattenStep (result : PyDict) (kv : String × PyVal) : Except PyErr PyDict :=
  match kv.2 with
  | .none => .ok result
  | v =>
    match (pySplitDot kv.1).filter (· ≠ "") with
    | [] => .ok result
    | parts => setPath result parts v

/-- `unflatten(flat)`: fold the loop body over the flat items in order. -/
def unflatten (flat : List (String × PyVal)) : Except PyErr PyDict :=
  flat.foldlM unflattenStep .nil

/-! ### Leaves of a record (for the round-trip property) -/

/-- The leaf paths of a record with their values: a non-dict value under
key `k` is the leaf `([k], v)`; a dict value contributes its own leaves
with `k` prepended.  (An empty dict value contributes no leaves.) -/
def leavesOf : PyDict → List (List String × PyVal)
  | .nil => []
  | .cons k v rest =>
    (match v with
     | .dict gs => (leavesOf gs).map fun pv => (k :: pv.1, pv.2)
     | w => [([k], w)]) ++ leavesOf rest

/-- Whether a value is Python `None`. -/
def PyVal.isNone : PyVal → Bool
  | .none => true
  | _ => false

/-- The non-null leaves of a record. -/
def nonNullLeaves (fs : PyDict) : List (List String × PyVal) :=
  (leavesOf fs).filter fun pv => !pv.2.isNone

/-! ### The Change Detector (import_tasks_cli.py lines 14-17, 111-181)

Worksheets are modelled positionally: `iter_rows` yields the rows in
order, and a cell in the `i`-th yielded row (1-based) at 0-based offset
`idx` has `cell.row = i` and `cell.column = idx + 1`, exactly as openpyxl
reports them for its rectangular row tuples. -/

/-- The recognized "edited" RGB encodings (module constant `YELLOW_RGBS`). -/
def YELLOW_RGBS : List String := ["FFFFFF00", "FFFF00", "00FFFF00"]

/-- The recognized "edited" indexed palette values (`YELLOW_INDEXED`). -/
def YELLOW_INDEXED : List Nat := [5, 6, 44]

/-- Success fill written by the Reconciler (`BLUE_RGB`). -/
def BLUE_RGB : String := "FF00B0F0"

/-- Failure fill written by the Reconciler (`RED_RGB`). -/
def RED_RGB : String := "FFFF0000"

/-- An openpyxl color object: its `.type` discriminator and whatever the
`.rgb` / `.indexed` attributes hold. -/
structure PyColor where
  ctype : Option String
  rgb : Option String
  indexed : Option Nat
deriving DecidableEq, Repr

/-- An openpyxl pattern fill: pattern type and start color. -/
structure PyFill where
  patternType : Option String
  start_color : Option PyColor
deriving DecidableEq, Repr

/-- A live-sheet cell: its value and its fill (`Option.none` models a
falsy `cell.fill`). -/
structure Cell where
  value : PyVal
  fill : Option PyFill

/-- A plain-valued cell with no fill. -/
def plainCell (v : PyVal) : Cell := ⟨v, Option.none⟩

/-- The trailing branch of `_cell_rgb`: `getattr(color, "rgb", None)`,
upper-cased and returned only when it is one of the yellow encodings. -/
def rgbFallback (color : PyColor) : Option String :=
  match color.rgb with
  | some r => if YELLOW_RGBS.contains (pyUpper r) then some (pyUpper r) else Option.none
  | Option.none => Option.none

/-- `_cell_rgb`: `None` unless the fill is solid; an `rgb`-typed color
yields its (possibly empty) upper-cased RGB text; an `indexed`-typed color
with a recognized palette value yields the marker `"INDEXED_YELLOW"`;
otherwise the `.rgb` attribute is consulted against the yellow set. -/
def cell_rgb (cell : Cell) : Option String :=
  match cell.fill with
  | Option.none => Option.none
  | some f =>
    if f.patternType ≠ some "solid" then Option.none
    else
      match f.start_color with
      | Option.none => Option.none
      | some color =>
        if color.ctype = some "rgb" then some (pyUpper (color.rgb.getD ""))
        else if color.ctype = some "indexed" then
          match color.indexed with
          | some idx =>
            if YELLOW_INDEXED.contains idx then some "INDEXED_YELLOW"
            else rgbFallback color
          | Option.none => rgbFallback color
        else rgbFallback color

/-- The detector's color test: `rgb and (rgb in YELLOW_RGBS or rgb ==
"INDEXED_YELLOW")`. -/
def markedYellow (r : Option String) : Bool :=
  match r with
  | some s => s ≠ "" && (YELLOW_RGBS.contains s || s == "INDEXED_YELLOW")
  | Option.none => false

/-- `d.get(key)` on the per-row flattened values. -/
def aFind : List (String × PyVal) → String → Option PyVal
  | [], _ => Option.none
  | (k, v) :: rest, key => if k = key then some v else aFind rest key

/-- `d[key] = val` on the per-row flattened values: replace in place or
append. -/
def aSet : List (String × PyVal) → String → PyVal → List (String × PyVal)
  | [], key, val => [(key, val)]
  | (k, v) :: rest, key, val =>
    if k = key then (k, val) :: rest else (k, v) :: aSet rest key val

/-- One reconciliation unit: the dataclass `TaskRow`. -/
structure TaskRow where
  row_index : Nat
  task_id : String
  project_id : String
  flat_values : List (String × PyVal)
  yellow_cells : List (Nat × Nat)

/-- `original_ws.cell(row, column).value` on the shadow sheet model:
1-based coordinates, `None` outside the stored range (openpyxl creates an
empty cell there). -/
def gridVal (g : List (List PyVal)) (r c : Nat) : PyVal :=
  (g.getD (r - 1) []).getD (c - 1) .none

/-- A header entry: `str(cell.value).strip() if cell.value is not None
else ""`. -/
def headerOf (c : Cell) : String :=
  match c.value with
  | .none => ""
  | v => pyStrip (pyStr v)

/-- Per-row scan state: the flattened values, the changed-cell coordinate
list and the row's non-emptiness flag. -/
structure ScanSt where
  values : List (String × PyVal)
  yellow : List (Nat × Nat)
  hasValue : Bool

/-- `cell_value not in (None, "")`: the detector's non-empty test. -/
def cellNonEmpty (cell : Cell) : Bool :=
  match cell.value with
  | .none => false
  | .str s => s ≠ ""
  | _ => true

/-- The body of the detector's per-cell loop: cells under an empty header
are skipped entirely; a non-`None`, non-`""` value marks the row
non-empty; a recognized color appends the coordinate; the normalized value
is recorded under the header; with a shadow sheet, a normalized mismatch
appends the coordinate too unless it is already present. -/
def scanCell (shadow : Option (List (List PyVal))) (headers : List String)
    (rowIdx idx : Nat) (cell : Cell) (st : ScanSt) : ScanSt :=
  let header := headers.getD idx ""
  if header = "" then st
  else
    let cellValue := cell.value
    let hasValue := st.hasValue || cellNonEmpty cell
    let rgb := cell_rgb cell
    let coord := (rowIdx, idx + 1)
    let yellow := if markedYellow rgb then st.yellow ++ [coord] else st.yellow
    let normalized := normalize_value cellValue
    let values := aSet st.values header normalized
    let yellow :=
      match shadow with
      | some grid =>
        let originalValue := normalize_value (gridVal grid rowIdx (idx + 1))
        if !pyEq normalized originalValue && !yellow.contains coord then
          yellow ++ [coord]
        else yellow
      | Option.none => yellow
    ⟨values, yellow, hasValue⟩

/-- Scan a data row's cells left to right (`idx` is the 0-based column). -/
def scanRow (shadow : Option (List (List PyVal))) (headers : List String)
    (rowIdx : Nat) : Nat → List Cell → ScanSt → ScanSt
  | _, [], st => st
  | idx, cell :: rest, st =>
    scanRow shadow headers rowIdx (idx + 1) rest
      (scanCell shadow headers rowIdx idx cell st)

/-- `values.get(k)` with the dict's `None` default. -/
def dGet (values : List (String × PyVal)) (k : String) : PyVal :=
  (aFind values k).getD .none

/-- Python `a or b`: the left operand when truthy, else the right. -/
def pyOrV (a b : PyVal) : PyVal := if pyTruthy a then a else b

/-- `str(values.get("Id") or values.get("ID") or values.get("TaskId") or
"").strip()`. -/
def resolveTaskId (values : List (String × PyVal)) : String :=
  pyStrip (pyStr (pyOrV (dGet values "Id")
    (pyOrV (dGet values "ID") (pyOrV (dGet values "TaskId") (.str "")))))

/-- `str(values.get("ProjectId") or values.get("project_id") or
"").strip()`. -/
def resolveProjectId (values : List (String × PyVal)) : String :=
  pyStrip (pyStr (pyOrV (dGet values "ProjectId")
    (pyOrV (dGet values "project_id") (.str ""))))

/-- The loop over the data rows (`p` counts rows already consumed, so the
scanned row is worksheet row `p + 2`): scan each row and keep a `TaskRow`
exactly when the row has a value and a non-empty changed-cell list. -/
def collectRows (shadow : Option (List (List PyVal))) (headers : List String) :
    Nat → List (List Cell) → List TaskRow
  | _, [] => []
  | p, cells :: rest =>
    let rowIdx := p + 2
    let st := scanRow shadow headers rowIdx 0 cells ⟨[], [], false⟩
    (if st.hasValue && !st.yellow.isEmpty then
      [⟨rowIdx, resolveTaskId st.values, resolveProjectId st.values,
        st.values, st.yellow⟩]
     else []) ++ collectRows shadow headers (p + 1) rest

/-- `collect_task_rows(ws, original_ws)`: the first yielded row sets the
headers (empty headers end the scan before any data row); the data rows
are then scanned in order. -/
def collect_task_rows (rows : List (List Cell))
    (original_ws : Option (List (List PyVal))) : List TaskRow :=
  match rows with
  | [] => []
  | headerRow :: dataRows =>
    let headers := headerRow.map headerOf
    if headers.isEmpty then []
    else collectRows original_ws headers 0 dataRows

/-! ### The Reconciler loop (import_tasks_cli.py lines 184-190, 247-279)

The workbook side effects of `set_fill` are modelled as an append-only log
of `(coordinates, color)` fill operations; network calls are modelled by a
response oracle mapping the 0-based call number to the outcome of
`client.update_task` (`Except.error msg` for a raised exception whose text
is `msg`). -/

/-- The state threaded through the per-row loop of `main`. -/
structure RunState where
  success : Nat
  failures : List (TaskRow × String)
  fills : List (List (Nat × Nat) × String)
  calls : List (String × String × PyDict)

/-- One iteration of the loop: empty `Id`, then empty `ProjectId`, are
local failures filled red with no network call; `unflatten` runs OUTSIDE
any try block, so its exception aborts the whole run; a non-serializable
payload is a local failure; then the network call is made and the row is
filled red on a raised exception or blue on success. -/
def processStep (responses : Nat → Except String Unit) (st : RunState)
    (tr : TaskRow) : Except PyErr RunState :=
  if tr.task_id = "" then
    .ok { st with failures := st.failures ++ [(tr, "Task Id is missing.")],
                  fills := st.fills ++ [(tr.yellow_cells, RED_RGB)] }
  else if tr.project_id = "" then
    .ok { st with failures := st.failures ++ [(tr, "Project Id is missing.")],
                  fills := st.fills ++ [(tr.yellow_cells, RED_RGB)] }
  else
    match unflatten tr.flat_values with
    | .error e => .error e
    | .ok payload =>
      if !jsonSerializableD payload then
        .ok { st with
          failures := st.failures ++ [(tr, "Payload contains non-serializable values.")],
          fills := st.fills ++ [(tr.yellow_cells, RED_RGB)] }
      else
        match responses st.calls.length with
        | .error msg =>
          .ok { st with calls := st.calls ++ [(tr.project_id, tr.task_id, payload)],
                        failures := st.failures ++ [(tr, msg)],
                        fills := st.fills ++ [(tr.yellow_cells, RED_RGB)] }
        | .ok _ =>
          .ok { st with calls := st.calls ++ [(tr.project_id, tr.task_id, payload)],
                        success := st.success + 1,
                        fills := st.fills ++ [(tr.yellow_cells, BLUE_RGB)] }

/-- The whole per-row loop of `main` over the collected task rows. -/
def processTaskRows (responses : Nat → Except String Unit)
    (rows : List TaskRow) : Except PyErr RunState :=
  rows.foldlM (processStep responses) ⟨0, [], [], []⟩

/-! ### os.path model (posixpath semantics) and the output-path logic -/

/-- Split a path after its last slash: `(p[:i], p[i:])` with
`i = p.rfind('/') + 1`; the tail contains no slash. -/
def splitPos (p : List Char) : List Char × List Char :=
  let tailRev := p.reverse.takeWhile (· ≠ '/')
  (p.take (p.length - tailRev.length), tailRev.reverse)

/-- Drop trailing slashes. -/
def rstripSlash (l : List Char) : List Char :=
  (l.reverse.dropWhile (· = '/')).reverse

/-- `os.path.dirname`: the head before the last slash, with trailing
slashes stripped unless the head is nothing but slashes. -/
def pyDirname (p : String) : String :=
  let head := (splitPos p.data).1
  if head ≠ [] ∧ ¬ head.all (· = '/') then ⟨rstripSlash head⟩ else ⟨head⟩

/-- `os.path.basename`: everything after the last slash. -/
def pyBasename (p : String) : String := ⟨(splitPos p.data).2⟩

/-- `os.path.join(a, b)` for one extra component. -/
def pyJoin (a b : String) : String :=
  if b.data.headI = '/' ∧ b ≠ "" then b
  else if a = "" ∨ a.data.getLast? = some '/' then a ++ b
  else a ++ "/" ++ b

/-- `os.path.splitext`: split at the last dot that lies after the last
slash, unless every character of the final component before that dot is
itself a dot (leading dots never start an extension). -/
def pySplitext (p : String) : String × String :=
  let cs := p.data
  let tail := (splitPos cs).2
  let extRevLen := (tail.reverse.takeWhile (· ≠ '.')).length
  if extRevLen = tail.length then (p, "")
  else
    let dotPos := tail.length - extRevLen - 1
    if (tail.take dotPos).all (· = '.') then (p, "")
    else (⟨cs.take (cs.length - (extRevLen + 1))⟩, ⟨tail.drop dotPos⟩)

/-- The output path of `save_with_suffix`: directory plus
`stem + suffix + ext` of the input's basename (the `wb.save` side effect
writes to this path and is otherwise out of model). -/
def save_with_suffix_path (original_path : String)
    (suffix : String := "_result") : String :=
  let directory := pyDirname original_path
  let base := pyBasename original_path
  let se := pySplitext base
  let new_name := se.1 ++ suffix ++ se.2
  pyJoin directory new_name

/-- The `while os.path.exists(candidate)` loop of `next_available_path`,
with the filesystem modelled as the fixed list of existing paths; the fuel
is `existing.length + 1`, which the loop never exhausts because `n`
candidate names with distinct `n` are distinct strings. -/
def navLoop (existing : List String) (mk : Nat → String) : Nat → Nat → String
  | 0, n => mk n
  | fuel+1, n =>
    if existing.contains (mk n) then navLoop existing mk fuel (n + 1) else mk n

/-- `next_available_path(base_dir, base_name)`: the unsuffixed candidate
if free, else the first `root (n)ext` candidate that is free, for
`n = 1, 2, …`. -/
def next_available_path (existing : List String) (base_dir base_name : String) :
    String :=
  let se := pySplitext base_name
  let candidate0 := pyJoin base_dir (se.1 ++ se.2)
  if existing.contains candidate0 then
    navLoop existing
      (fun n => pyJoin base_dir (se.1 ++ " (" ++ toString n ++ ")" ++ se.2))
      (existing.length + 1) 1
  else candidate0

/-! ### Shadow Export (excel_writer.py lines 6, 39-73, 89-219) -/

/-- The character class of `ILLEGAL_CHARACTERS_RE`:
`[\x00-\x08\x0B-\x0C\x0E-\x1F]`. -/
def illegalChar (c : Char) : Bool :=
  c.toNat ≤ 8 || c.toNat = 11 || c.toNat = 12 ||
    (14 ≤ c.toNat && c.toNat ≤ 31)

/-- `_sanitize`: strip the illegal characters out of strings, pass every
other value through. -/
def sanitizeVal (v : PyVal) : PyVal :=
  match v with
  | .str s => .str ⟨s.data.filter (fun c => !illegalChar c)⟩
  | w => w

/-- The fixed preferred header order of `collect_headers`. -/
def preferredHeaders : List String :=
  ["Id", "Name", "Type", "StartDate", "EndDate", "ProjectId", "TaskDomainId"]

/-- First-occurrence deduplication (the model of building a Python set
from a traversal; only membership and the final sort are observable). -/
def dedupFirst (l : List String) : List String :=
  l.foldl (fun acc x => if acc.contains x then acc else acc ++ [x]) []

/-- Stable insertion into a sorted list (code-point order, as Python
`sorted` on strings). -/
def insertSorted (x : String) : List String → List String
  | [] => [x]
  | y :: rest => if x ≤ y then x :: y :: rest else y :: insertSorted x rest

/-- Insertion sort in code-point order. -/
def sortStr : List String → List String
  | [] => []
  | x :: rest => insertSorted x (sortStr rest)

/-- `collect_headers(rows, extra_headers)`: the preferred keys that occur,
in their fixed order, then the remaining keys sorted. -/
def collect_headers (rows : List (List (String × PyVal)))
    (extra_headers : List String := []) : List String :=
  let seen := dedupFirst (extra_headers ++ rows.flatMap (fun r => r.map Prod.fst))
  let fromPreferred := preferredHeaders.filter (fun k => seen.contains k)
  let remaining := seen.filter (fun k => !preferredHeaders.contains k)
  fromPreferred ++ sortStr remaining

/-- `sanitize_filename`: strip, replace Windows-forbidden characters with
underscores, strip trailing spaces and dots, default to `"project"`. -/
def sanitize_filename (name : String) : String :=
  let n1 := pyStrip name
  let n2 : String :=
    ⟨n1.data.map fun c =>
      if c ∈ ['\\', '/', ':', '*', '?', '"', '<', '>', '|'] then '_' else c⟩
  let n3 : String := ⟨(n2.data.reverse.dropWhile fun c => c = ' ' ∨ c = '.').reverse⟩
  if n3 = "" then "project" else n3

/-- A worksheet model for the export side: the value grid (row-major,
values only — the export writes no cell fills) and the visibility flag. -/
structure Sheet where
  grid : List (List PyVal)
  hidden : Bool

/-- A workbook: named sheets in order. -/
structure Workbook where
  sheets : List (String × Sheet)

/-- Sheet lookup by name (`name in wb.sheetnames` / `wb[name]`). -/
def wbFind (wb : Workbook) : String → Option Sheet :=
  fun name => lk wb.sheets name
where
  lk : List (String × Sheet) → String → Option Sheet
    | [], _ => Option.none
    | (k, s) :: rest, name => if k = name then some s else lk rest name

/-- Replace a named sheet's record in place. -/
def wbSet (wb : Workbook) (name : String) (s : Sheet) : Workbook :=
  ⟨st wb.sheets name s⟩
where
  st : List (String × Sheet) → String → Sheet → List (String × Sheet)
    | [], n, sh => [(n, sh)]
    | (k, old) :: rest, n, sh =>
      if k = n then (k, sh) :: rest else (k, old) :: st rest n sh

/-- `_ensure_sheet`: reuse an existing sheet or append a fresh one. -/
def wbEnsure (wb : Workbook) (name : String) : Workbook :=
  match wbFind wb name with
  | some _ => wb
  | Option.none => ⟨wb.sheets ++ [(name, ⟨[], false⟩)]⟩

/-- Overwrite a sheet's grid (clear-then-write: a cleared cell holds
`None`, which the grid model reads for any coordinate it does not
store). -/
def wbSetGrid (wb : Workbook) (name : String) (grid : List (List PyVal)) :
    Workbook :=
  match wbFind wb name with
  | some s => wbSet wb name ⟨grid, s.hidden⟩
  | Option.none => wbSet wb name ⟨grid, false⟩

/-- Set a sheet's visibility (`sheet_state = "hidden"`). -/
def wbSetHidden (wb : Workbook) (name : String) (h : Bool) : Workbook :=
  match wbFind wb name with
  | some s => wbSet wb name ⟨s.grid, h⟩
  | Option.none => wb

/-- The header row plus one row per flattened record, every written value
passed through `_sanitize`; a key absent from a row writes `None`. -/
def tasksGrid (headers : List String) (flat_rows : List (List (String × PyVal))) :
    List (List PyVal) :=
  (headers.map fun h => sanitizeVal (.str h)) ::
    flat_rows.map fun row => headers.map fun h => sanitizeVal (dGet row h)

/-- `write_tasks_xlsx` on the sheet model: flatten the records, resolve
headers, populate the `project` sheet from `project_sheet_rows` when
given, write header+rows into `tasks`, write the identical copy into
`_original` and hide it, then compute the collision-avoided output path
(`tasks_<sanitized project> + .xlsm/.xlsx`).  The conditional-formatting
rule and the sheet protection flags are presentation-only and carry no
values, so they are not part of the sheet model. -/
def write_tasks_xlsx_model (template : Workbook) (tasks : List PyDict)
    (project_name : String) (existing : List String) (out_dir : String)
    (extra_headers : List String := []) (project_rows : List (List PyVal) := [])
    (keep_vba : Bool := false) : Workbook × String :=
  let flat_rows := tasks.map fun t => flatten_dict t
  let headers := collect_headers flat_rows extra_headers
  let wb1 := wbEnsure template "project"
  let wb2 :=
    if project_rows.isEmpty then wb1
    else wbSetGrid wb1 "project" (project_rows.map fun r => r.map sanitizeVal)
  let wb3 := wbEnsure wb2 "tasks"
  let wb4 := wbSetGrid wb3 "tasks" (tasksGrid headers flat_rows)
  let wb5 := wbEnsure wb4 "_original"
  let wb6 := wbSetGrid wb5 "_original" (tasksGrid headers flat_rows)
  let wb7 := wbSetHidden wb6 "_original" true
  let safe_name := sanitize_filename project_name
  let output_ext := if keep_vba then ".xlsm" else ".xlsx"
  let file_name := "tasks_" ++ safe_name ++ output_ext
  (wb7, next_available_path existing out_dir file_name)

/-! ### The import entry point's sheet resolution (import_tasks_cli.py
lines 228-237) -/

/-- The live sheet name the importer expects. -/
def tasks_sheet_name : String := "tasks"

/-- The shadow sheet name the importer looks up:
`f"{tasks_sheet_name}_original"`. -/
def original_sheet_name : String := tasks_sheet_name ++ "_original"

/-- Set one value in a grid (1-based coordinates) — a human edit. -/
def setGridVal (g : List (List PyVal)) (r c : Nat) (v : PyVal) :
    List (List PyVal) :=
  g.set (r - 1) ((g.getD (r - 1) []).set (c - 1) v)

/-- The detection phase of the import `main`: fail if no `tasks` sheet,
else run the detector with the `tasks_original` sheet as shadow when
present (cells are value-only: a re-opened exported workbook whose editor
applied no fills).  -/
def mainDetect (wb : Workbook) : Option (List TaskRow) :=
  match wbFind wb tasks_sheet_name with
  | Option.none => Option.none
  | some ws =>
    let shadow := (wbFind wb original_sheet_name).map Sheet.grid
    some (collect_task_rows (ws.grid.map fun r => r.map plainCell) shadow)

/-! ### Notions for the flatten/unflatten round trip -/

mutual

/-- Structural size of a value (for strong induction over records). -/
def pySizeV : PyVal → Nat
  | .list xs => 1 + pySizeL xs
  | .dict fs => 1 + pySizeD fs
  | _ => 1

/-- Structural size of a list. -/
def pySizeL : PyList → Nat
  | .nil => 0
  | .cons x xs => 1 + pySizeV x + pySizeL xs

/-- Structural size of a dict. -/
def pySizeD : PyDict → Nat
  | .nil => 0
  | .cons _ v fs => 1 + pySizeV v + pySizeD fs

end

/-- Recursion on the entry list of a dict alone (no descent into the
values), packaged as an eliminator usable by `induction … using`. -/
def PyDict.tailRec {motive : PyDict → Sort u} (nil : motive .nil)
    (cons : ∀ k v rest, motive rest → motive (.cons k v rest)) :
    ∀ d, motive d
  | .nil => nil
  | .cons k v rest => cons k v rest (PyDict.tailRec nil cons rest)

/-- A scalar leaf: null, boolean, int, float or string. -/
def scalarVal : PyVal → Bool
  | .none => true
  | .bool _ => true
  | .int _ => true
  | .float _ => true
  | .str _ => true
  | _ => false

mutual

/-- A record whose keys (at every level) are non-empty, dot-free and
unique — the shape under which dotted-path flattening is faithful — and
whose leaves are all scalars. -/
def goodRecord : PyDict → Bool
  | .nil => true
  | .cons k v rest =>
    decide (k ≠ "") && !k.data.contains '.' && !rest.keysOf.contains k &&
      goodEntry v && goodRecord rest

/-- A good entry value: a nested good record, or a scalar leaf. -/
def goodEntry : PyVal → Bool
  | .dict gs => goodRecord gs
  | w => scalarVal w

end

/-- Join a path's components with dots (the key `flatten_dict` builds). -/
def joinDot : List String → String
  | [] => ""
  | [k] => k
  | k :: rest => k ++ "." ++ joinDot rest

/-- The part list `unflatten` computes for a key. -/
def partsOf (key : String) : List String :=
  (pySplitDot key).filter (· ≠ "")

mutual

/-- The record `unflatten ∘ flatten_dict` rebuilds: null leaves are
dropped, and a nested record none of whose leaves survive disappears
entirely. -/
def pruneD : PyDict → PyDict
  | .nil => .nil
  | .cons k v rest =>
    match pruneEntry v with
    | Option.none => pruneD rest
    | some w => .cons k w (pruneD rest)

/-- What survives of one entry value: null vanishes, a nested dict keeps
its pruned form unless empty, everything else stays. -/
def pruneEntry : PyVal → Option PyVal
  | .none => Option.none
  | .dict gs =>
    match pruneD gs with
    | .nil => Option.none
    | gs2 => some (.dict gs2)
  | w => some w

end

/-- The fill operations a run of valid rows performs, one per row in
order: blue on a successful call, red on a failed one (call numbers start
at `c0`). -/
def rowOutcomeFill (responses : Nat → Except String Unit) :
    Nat → List TaskRow → List (List (Nat × Nat) × String)
  | _, [] => []
  | c0, tr :: rest =>
    (tr.yellow_cells,
      match responses c0 with
      | .ok _ => BLUE_RGB
      | .error _ => RED_RGB) :: rowOutcomeFill responses (c0 + 1) rest

/-- The failure entries a run of valid rows records, in order. -/
def rowFailuresFrom (responses : Nat → Except String Unit) :
    Nat → List TaskRow → List (TaskRow × String)
  | _, [] => []
  | c0, tr :: rest =>
    (match responses c0 with
     | .error msg => [(tr, msg)]
     | .ok _ => []) ++ rowFailuresFrom responses (c0 + 1) rest

/-- The number of successful calls a run of valid rows counts. -/
def successCountFrom (responses : Nat → Except String Unit) :
    Nat → List TaskRow → Nat
  | _, [] => 0
  | c0, _ :: rest =>
    (match responses c0 with
     | .ok _ => 1
     | .error _ => 0) + successCountFrom responses (c0 + 1) rest

/-- A placeholder row for `getD` on row lists. -/
def emptyTaskRow : TaskRow := ⟨0, "", "", [], []⟩

/-! ## Theorems -/

/-- C1: the claim asserts that a workbook produced by `write_tasks_xlsx`,
re-opened and passed to the import `main`, has its export-time hidden
shadow sheet found and used as the diff baseline.  The code contradicts
this: the export writes the shadow under the sheet name `"_original"`,
while the importer looks up `f"{tasks_sheet_name}_original"` =
`"tasks_original"`.  On a concrete export of one task, the hidden
`_original` sheet is present, the `tasks_original` lookup fails, and an
uncolored human edit to the `Name` cell produces no `TaskRow` — whereas
the same workbook with the shadow stored under the expected name yields
the edited cell as changed.  The shadow-diff intent is explicit in both
modules (the export's conditional-formatting baseline, the importer's
fallback path), so the name mismatch is a defect of the code. -/
theorem shadow_sheet_name_mismatch :
    let template : Workbook := ⟨[("project", ⟨[], false⟩), ("tasks", ⟨[], false⟩)]⟩
    let task : PyDict := PyDict.ofList [("Id", .int 1), ("Name", .str "A")]
    let wb := (write_tasks_xlsx_model template [task] "Foo" [] "/out").1
    let edited := wbSetGrid wb "tasks"
      (setGridVal (((wbFind wb "tasks").map Sheet.grid).getD []) 2 2 (.str "B"))
    wbFind wb "_original" =
      some ⟨[[.str "Id", .str "Name"], [.int 1, .str "A"]], true⟩ ∧
    original_sheet_name = "tasks_original" ∧
    wbFind wb original_sheet_name = Option.none ∧
    mainDetect edited = some [] ∧
    mainDetect ⟨edited.sheets ++
        [("tasks_original", ⟨[[.str "Id", .str "Name"], [.int 1, .str "A"]], true⟩)]⟩ =
      some [⟨2, "1", "", [("Id", .int 1), ("Name", .str "B")], [(2, 2)]⟩] :=
  ⟨rfl, rfl, rfl, rfl, rfl⟩

/-- C5 counterexample: the claim says any string that parses as a JSON
scalar is replaced by the parsed value.  `"null"` parses to `None`, yet
`normalize_value` returns the text `"null"` unchanged, because the
`isinstance` filter excludes `NoneType` (and `str`) from substitution. -/
theorem normalize_value_json_null_counterexample :
    jsonLoads "null" = some PyVal.none ∧
    normalize_value (.str "null") = .str "null" ∧
    PyVal.str "null" ≠ PyVal.none :=
  ⟨rfl, rfl, fun h => PyVal.noConfusion h⟩

/-- C5 (amended): `normalize_value` maps `None` to `None`, collapses a
finite float with integral value to the integer, turns a datetime into its
ISO-8601 string, and on strings: strips, maps empty to null, maps the
case-insensitive tokens `true`/`false` to booleans, substitutes a
`json.loads` result only when it is a dict, list, int, float or bool
(JSON string and `null` results are NOT substituted), and otherwise
returns the stripped text. -/
theorem normalize_value_spec :
    normalize_value .none = .none ∧
    (∀ q : Rat, q.den = 1 → normalize_value (.float (.finite q)) = .int q.num) ∧
    (∀ d : PyDateTime, normalize_value (.dt d) = .str d.isoformat) ∧
    (∀ s, pyStrip s = "" → normalize_value (.str s) = .none) ∧
    (∀ s, pyLower (pyStrip s) = "true" → normalize_value (.str s) = .bool true) ∧
    (∀ s, pyLower (pyStrip s) = "false" → normalize_value (.str s) = .bool false) ∧
    (∀ s v, pyLower (pyStrip s) ≠ "true" → pyLower (pyStrip s) ≠ "false" →
      jsonLoads (pyStrip s) = some v → jsonReplaceable v = true →
      normalize_value (.str s) = v) ∧
    (∀ s v, pyStrip s ≠ "" → pyLower (pyStrip s) ≠ "true" →
      pyLower (pyStrip s) ≠ "false" → jsonLoads (pyStrip s) = some v →
      jsonReplaceable v = false → normalize_value (.str s) = .str (pyStrip s)) ∧
    (∀ s, pyStrip s ≠ "" → pyLower (pyStrip s) ≠ "true" →
      pyLower (pyStrip s) ≠ "false" → jsonLoads (pyStrip s) = Option.none →
      normalize_value (.str s) = .str (pyStrip s)) := by
  refine ⟨rfl, ?_, fun d => rfl, ?_, ?_, ?_, ?_, ?_, ?_⟩
  · intro q h
    simp [normalize_value, normalize_numeric, h]
  · intro s h
    simp [normalize_value, h]
  · intro s h
    have hne : pyStrip s ≠ "" := by
      intro e
      rw [e] at h
      exact absurd h (by decide)
    simp [normalize_value, hne, h]
  · intro s h
    have hne : pyStrip s ≠ "" := by
      intro e
      rw [e] at h
      exact absurd h (by decide)
    simp [normalize_value, hne, h]
  · intro s v ht hf hj hr
    have hne : pyStrip s ≠ "" := by
      intro e
      rw [e] at hj
      exact Option.noConfusion hj
    simp [normalize_value, hne, ht, hf, hj, hr]
  · intro s v hne ht hf hj hr
    simp [normalize_value, hne, ht, hf, hj, hr]
  · intro s hne ht hf hj
    simp [normalize_value, hne, ht, hf, hj]

/-- C5 witness: the clauses of `normalize_value_spec` instantiated at
concrete inputs. -/
theorem normalize_value_spec_witness :
    normalize_value (.float (.finite 5)) = .int 5 ∧
    normalize_value (.str "   ") = .none ∧
    normalize_value (.str " TRUE ") = .bool true ∧
    normalize_value (.str "False") = .bool false ∧
    normalize_value (.str " [1] ") = .list (.cons (.int 1) .nil) ∧
    normalize_value (.str "\"a\"") = .str "\"a\"" ∧
    normalize_value (.str "hello") = .str "hello" := by
  obtain ⟨_, h2, _, h4, h5, h6, h7, h8, h9⟩ := normalize_value_spec
  refine ⟨h2 5 rfl, h4 "   " rfl, h5 " TRUE " rfl, h6 "False" rfl, ?_, ?_, ?_⟩
  · exact h7 " [1] " (.list (.cons (.int 1) .nil)) (by decide) (by decide) rfl rfl
  · exact h8 "\"a\"" (.str "a") (by decide) (by decide) (by decide) rfl rfl
  · exact h9 "hello" (by decide) (by decide) (by decide) rfl

/-- C9: `unflatten` is not total: on `{"a": 1, "a.b": 2}` — a key that is
a strict dotted prefix of another, both non-null — the cursor walk
assigns into the int `1` and raises `TypeError`; and the import loop runs
`unflatten` outside its per-row try blocks, so one such row aborts the
whole batch (the run ends in the propagated exception; no summary state
exists, hence no local-failure entry for the row, and the following valid
row is never processed). -/
theorem unflatten_dotted_prefix_aborts_batch :
    unflatten [("a", .int 1), ("a.b", .int 2)] = .error .typeError ∧
    processTaskRows (fun _ => .ok ())
      [⟨2, "T1", "P1", [("a", .int 1), ("a.b", .int 2)], [(2, 1)]⟩,
       ⟨3, "T2", "P2", [("Id", .str "T2")], [(3, 1)]⟩] = .error .typeError :=
  ⟨rfl, rfl⟩

/-- Every `TaskRow` the detector emits carries the identifiers resolved
from its own flattened values. -/
lemma collectRows_ids {shadow : Option (List (List PyVal))} {headers : List String} :
    ∀ (dataRows : List (List Cell)) (p : Nat) (tr : TaskRow),
      tr ∈ collectRows shadow headers p dataRows →
      tr.task_id = resolveTaskId tr.flat_values ∧
        tr.project_id = resolveProjectId tr.flat_values := by
  intro dataRows
  induction dataRows with
  | nil => intro p tr h; exact absurd h (List.not_mem_nil tr)
  | cons cells rest ih =>
    intro p tr h
    simp only [collectRows, List.mem_append] at h
    rcases h with h | h
    · split at h
      · rcases List.mem_singleton.mp h with rfl
        exact ⟨rfl, rfl⟩
      · exact absurd h (List.not_mem_nil tr)
    · exact ih (p + 1) tr h

/-- C10: the detector resolves a row's task identifier by trying the
flattened keys `Id`, `ID`, `TaskId` in that order with the first truthy
value winning (project: `ProjectId` then `project_id`); the chosen value
is stringified and stripped; when no candidate is truthy the identifier is
the empty string; and a value that normalizes to null, `0` or `False` is
falsy after normalization, so it counts as missing. -/
theorem id_resolution_spec :
    (∀ rows shadow tr, tr ∈ collect_task_rows rows shadow →
      tr.task_id = resolveTaskId tr.flat_values ∧
        tr.project_id = resolveProjectId tr.flat_values) ∧
    (∀ values, pyTruthy (dGet values "Id") = true →
      resolveTaskId values = pyStrip (pyStr (dGet values "Id"))) ∧
    (∀ values, pyTruthy (dGet values "Id") = false →
      pyTruthy (dGet values "ID") = true →
      resolveTaskId values = pyStrip (pyStr (dGet values "ID"))) ∧
    (∀ values, pyTruthy (dGet values "Id") = false →
      pyTruthy (dGet values "ID") = false →
      pyTruthy (dGet values "TaskId") = true →
      resolveTaskId values = pyStrip (pyStr (dGet values "TaskId"))) ∧
    (∀ values, pyTruthy (dGet values "Id") = false →
      pyTruthy (dGet values "ID") = false →
      pyTruthy (dGet values "TaskId") = false → resolveTaskId values = "") ∧
    (∀ values, pyTruthy (dGet values "ProjectId") = true →
      resolveProjectId values = pyStrip (pyStr (dGet values "ProjectId"))) ∧
    (∀ values, pyTruthy (dGet values "ProjectId") = false →
      pyTruthy (dGet values "project_id") = true →
      resolveProjectId values = pyStrip (pyStr (dGet values "project_id"))) ∧
    (∀ values, pyTruthy (dGet values "ProjectId") = false →
      pyTruthy (dGet values "project_id") = false →
      resolveProjectId values = "") ∧
    (∀ v, normalize_value v = .none ∨ normalize_value v = .int 0 ∨
      normalize_value v = .bool false → pyTruthy (normalize_value v) = false) := by
  refine ⟨?_, ?_, ?_, ?_, ?_, ?_, ?_, ?_, ?_⟩
  · intro rows shadow tr h
    match rows with
    | [] => exact absurd h (List.not_mem_nil tr)
    | headerRow :: dataRows =>
      simp only [collect_task_rows] at h
      split at h
      · exact absurd h (List.not_mem_nil tr)
      · exact collectRows_ids dataRows 0 tr h
  · intro values h; simp [resolveTaskId, pyOrV, h]
  · intro values h1 h2; simp [resolveTaskId, pyOrV, h1, h2]
  · intro values h1 h2 h3; simp [resolveTaskId, pyOrV, h1, h2, h3]
  · intro values h1 h2 h3
    simp only [resolveTaskId, pyOrV, h1, h2, h3]
    rfl
  · intro values h; simp [resolveProjectId, pyOrV, h]
  · intro values h1 h2; simp [resolveProjectId, pyOrV, h1, h2]
  · intro values h1 h2
    simp only [resolveProjectId, pyOrV, h1, h2]
    rfl
  · intro v h
    rcases h with h | h | h <;> rw [h] <;> rfl

/-- C10 witness: the resolution clauses applied at concrete inputs, plus
the membership clause applied to a concrete detector run. -/
theorem id_resolution_spec_witness :
    resolveTaskId [("Id", .int 0), ("ID", .str "x")] = "x" ∧
    resolveTaskId [("Id", .none), ("ID", .bool false), ("TaskId", .str " t7 ")] = "t7" ∧
    resolveTaskId [("Id", .int 0)] = "" ∧
    resolveProjectId [("project_id", .str "p1")] = "p1" ∧
    pyTruthy (normalize_value (.str "  ")) = false ∧
    (⟨2, "1", "", [("Id", .int 1), ("Name", .str "B")], [(2, 2)]⟩ : TaskRow).task_id =
      resolveTaskId [("Id", .int 1), ("Name", .str "B")] := by
  obtain ⟨h1, _, h3, h4, h5, _, h7, _, h9⟩ := id_resolution_spec
  refine ⟨h3 _ rfl rfl, h4 _ rfl rfl rfl, h5 _ rfl rfl rfl, h7 _ rfl rfl,
    h9 _ (Or.inl rfl), ?_⟩
  exact (h1 [[plainCell (.str "Id"), plainCell (.str "Name")],
      [plainCell (.int 1), plainCell (.str "B")]]
    (some [[.str "Id", .str "Name"], [.int 1, .str "A"]])
    ⟨2, "1", "", [("Id", .int 1), ("Name", .str "B")], [(2, 2)]⟩
    (by rw [show collect_task_rows
        [[plainCell (.str "Id"), plainCell (.str "Name")],
         [plainCell (.int 1), plainCell (.str "B")]]
        (some [[.str "Id", .str "Name"], [.int 1, .str "A"]]) =
        [⟨2, "1", "", [("Id", .int 1), ("Name", .str "B")], [(2, 2)]⟩] from rfl]
        exact List.mem_singleton.mpr rfl)).1

/-- Case analysis of one reconciler step that returned a state: earlier
failures and fills survive, any new call carries the row's identifiers,
and the two identifier guards record their failure and red fill. -/
lemma processStep_cases {responses : Nat → Except String Unit} {st : RunState}
    {tr : TaskRow} {st1 : RunState} (h : processStep responses st tr = .ok st1) :
    (∀ x ∈ st.failures, x ∈ st1.failures) ∧
    (∀ x ∈ st.fills, x ∈ st1.fills) ∧
    (∀ c ∈ st1.calls, c ∈ st.calls ∨ (c.1 ≠ "" ∧ c.2.1 ≠ "")) ∧
    (tr.task_id = "" →
      (tr, "Task Id is missing.") ∈ st1.failures ∧
        (tr.yellow_cells, RED_RGB) ∈ st1.fills) ∧
    (tr.task_id ≠ "" → tr.project_id = "" →
      (tr, "Project Id is missing.") ∈ st1.failures ∧
        (tr.yellow_cells, RED_RGB) ∈ st1.fills) := by
  unfold processStep at h
  by_cases hid : tr.task_id = ""
  · rw [if_pos hid] at h
    cases h
    refine ⟨fun x hx => List.mem_append_left _ hx,
      fun x hx => List.mem_append_left _ hx, fun c hc => Or.inl hc,
      fun _ => ⟨List.mem_append_right _ (List.mem_singleton.mpr rfl),
        List.mem_append_right _ (List.mem_singleton.mpr rfl)⟩,
      fun hne => absurd hid hne⟩
  · rw [if_neg hid] at h
    by_cases hpid : tr.project_id = ""
    · rw [if_pos hpid] at h
      cases h
      refine ⟨fun x hx => List.mem_append_left _ hx,
        fun x hx => List.mem_append_left _ hx, fun c hc => Or.inl hc,
        fun he => absurd he hid,
        fun _ _ => ⟨List.mem_append_right _ (List.mem_singleton.mpr rfl),
          List.mem_append_right _ (List.mem_singleton.mpr rfl)⟩⟩
    · rw [if_neg hpid] at h
      match hunf : unflatten tr.flat_values with
      | .error e => rw [hunf] at h; exact Except.noConfusion h
      | .ok payload =>
        rw [hunf] at h
        dsimp only at h
        by_cases hser : (!jsonSerializableD payload) = true
        · rw [if_pos hser] at h
          cases h
          exact ⟨fun x hx => List.mem_append_left _ hx,
            fun x hx => List.mem_append_left _ hx, fun c hc => Or.inl hc,
            fun he => absurd he hid, fun _ he => absurd he hpid⟩
        · rw [if_neg hser] at h
          match hresp : responses st.calls.length with
          | .error msg =>
            rw [hresp] at h
            cases h
            refine ⟨fun x hx => List.mem_append_left _ hx,
              fun x hx => List.mem_append_left _ hx, fun c hc => ?_,
              fun he => absurd he hid, fun _ he => absurd he hpid⟩
            rcases List.mem_append.mp hc with hc | hc
            · exact Or.inl hc
            · rcases List.mem_singleton.mp hc with rfl
              exact Or.inr ⟨hpid, hid⟩
          | .ok _ =>
            rw [hresp] at h
            cases h
            refine ⟨fun x hx => hx, fun x hx => List.mem_append_left _ hx,
              fun c hc => ?_, fun he => absurd he hid, fun _ he => absurd he hpid⟩
            rcases List.mem_append.mp hc with hc | hc
            · exact Or.inl hc
            · rcases List.mem_singleton.mp hc with rfl
              exact Or.inr ⟨hpid, hid⟩

/-- Invariant of the whole loop: accumulated failures and fills persist,
every call has non-empty identifiers, and each row with a missing
identifier has its failure entry and red fill in the final state. -/
lemma processFold_inv {responses : Nat → Except String Unit} :
    ∀ (rows : List TaskRow) (st res : RunState),
      rows.foldlM (processStep responses) st = .ok res →
      (∀ x ∈ st.failures, x ∈ res.failures) ∧
      (∀ x ∈ st.fills, x ∈ res.fills) ∧
      (∀ c ∈ res.calls, c ∈ st.calls ∨ (c.1 ≠ "" ∧ c.2.1 ≠ "")) ∧
      (∀ tr ∈ rows, tr.task_id = "" →
        (tr, "Task Id is missing.") ∈ res.failures ∧
          (tr.yellow_cells, RED_RGB) ∈ res.fills) ∧
      (∀ tr ∈ rows, tr.task_id ≠ "" → tr.project_id = "" →
        (tr, "Project Id is missing.") ∈ res.failures ∧
          (tr.yellow_cells, RED_RGB) ∈ res.fills) := by
  intro rows
  induction rows with
  | nil =>
    intro st res h
    cases h
    exact ⟨fun x hx => hx, fun x hx => hx, fun c hc => Or.inl hc,
      fun tr htr => absurd htr (List.not_mem_nil tr),
      fun tr htr => absurd htr (List.not_mem_nil tr)⟩
  | cons tr rest ih =>
    intro st res h
    rw [List.foldlM_cons] at h
    match hstep : processStep responses st tr with
    | .error e => rw [hstep] at h; exact Except.noConfusion h
    | .ok st1 =>
      rw [hstep] at h
      have h1 : rest.foldlM (processStep responses) st1 = .ok res := h
      obtain ⟨sf, sl, sc, sid, spid⟩ := processStep_cases hstep
      obtain ⟨rf, rl, rc, rid, rpid⟩ := ih st1 res h1
      refine ⟨fun x hx => rf x (sf x hx), fun x hx => rl x (sl x hx),
        fun c hc => ?_, fun tr2 htr2 he => ?_, fun tr2 htr2 hne he => ?_⟩
      · rcases rc c hc with hc2 | hc2
        · exact sc c hc2
        · exact Or.inr hc2
      · rcases List.mem_cons.mp htr2 with rfl | htr2
        · obtain ⟨ha, hb⟩ := sid he
          exact ⟨rf _ ha, rl _ hb⟩
        · exact rid tr2 htr2 he
      · rcases List.mem_cons.mp htr2 with rfl | htr2
        · obtain ⟨ha, hb⟩ := spid hne he
          exact ⟨rf _ ha, rl _ hb⟩
        · exact rpid tr2 htr2 hne he

/-- C6: in any completed run, every `TaskRow` with an empty resolved `Id`
is recorded as the local failure "Task Id is missing." and its changed
cells are filled with the failure color; a row with a non-empty `Id` but
empty `ProjectId` is recorded as "Project Id is missing." with the same
fill; and every network call the run performed carries a non-empty
project and task identifier — so neither kind of row ever reaches the
network. -/
theorem missing_id_local_failure :
    ∀ (responses : Nat → Except String Unit) (rows : List TaskRow)
      (res : RunState), processTaskRows responses rows = .ok res →
      (∀ tr ∈ rows, tr.task_id = "" →
        (tr, "Task Id is missing.") ∈ res.failures ∧
          (tr.yellow_cells, RED_RGB) ∈ res.fills) ∧
      (∀ tr ∈ rows, tr.task_id ≠ "" → tr.project_id = "" →
        (tr, "Project Id is missing.") ∈ res.failures ∧
          (tr.yellow_cells, RED_RGB) ∈ res.fills) ∧
      (∀ c ∈ res.calls, c.1 ≠ "" ∧ c.2.1 ≠ "") := by
  intro responses rows res h
  obtain ⟨_, _, hc, hid, hpid⟩ := processFold_inv rows ⟨0, [], [], []⟩ res h
  refine ⟨hid, hpid, fun c hcall => ?_⟩
  rcases hc c hcall with h2 | h2
  · exact absurd h2 (List.not_mem_nil c)
  · exact h2

/-- C6 witness: a concrete two-row run — one row with no `Id`, one with an
`Id` but no `ProjectId` — recording both local failures, both red fills,
and performing zero network calls. -/
theorem missing_id_local_failure_witness :
    ∃ res, processTaskRows (fun _ => .ok ())
        [⟨2, "", "", [("Name", .str "B")], [(2, 1)]⟩,
         ⟨3, "T", "", [("Id", .str "T")], [(3, 1)]⟩] = .ok res ∧
      ((⟨2, "", "", [("Name", .str "B")], [(2, 1)]⟩ : TaskRow),
        "Task Id is missing.") ∈ res.failures ∧
      (([(2, 1)] : List (Nat × Nat)), RED_RGB) ∈ res.fills ∧
      ((⟨3, "T", "", [("Id", .str "T")], [(3, 1)]⟩ : TaskRow),
        "Project Id is missing.") ∈ res.failures ∧
      (∀ c ∈ res.calls, c.1 ≠ "" ∧ c.2.1 ≠ "") ∧ res.calls = [] := by
  refine ⟨⟨0, [(⟨2, "", "", [("Name", .str "B")], [(2, 1)]⟩, "Task Id is missing."),
      (⟨3, "T", "", [("Id", .str "T")], [(3, 1)]⟩, "Project Id is missing.")],
      [([(2, 1)], RED_RGB), ([(3, 1)], RED_RGB)], []⟩, rfl, ?_⟩
  obtain ⟨hid, hpid, hcalls⟩ := missing_id_local_failure (fun _ => .ok ())
    [⟨2, "", "", [("Name", .str "B")], [(2, 1)]⟩,
     ⟨3, "T", "", [("Id", .str "T")], [(3, 1)]⟩] _ rfl
  obtain ⟨ha, hb⟩ := hid ⟨2, "", "", [("Name", .str "B")], [(2, 1)]⟩
    (List.mem_cons_self _ _) rfl
  obtain ⟨hc, _⟩ := hpid ⟨3, "T", "", [("Id", .str "T")], [(3, 1)]⟩
    (List.mem_cons_of_mem _ (List.mem_cons_self _ _)) (by decide) rfl
  exact ⟨ha, hb, hc, hcalls, rfl⟩

/-- Exact characterization of a run over rows that all pass the local
guards: the run completes, every row makes exactly one call in order, and
the success count, failure entries and fill log are determined by the
response at each row's call number. -/
lemma processFold_valid {responses : Nat → Except String Unit} :
    ∀ (rows : List TaskRow) (st : RunState),
      (∀ tr ∈ rows, tr.task_id ≠ "" ∧ tr.project_id ≠ "" ∧
        ∃ p, unflatten tr.flat_values = .ok p ∧ jsonSerializableD p = true) →
      ∃ res, rows.foldlM (processStep responses) st = .ok res ∧
        res.success = st.success + successCountFrom responses st.calls.length rows ∧
        res.failures = st.failures ++ rowFailuresFrom responses st.calls.length rows ∧
        res.fills = st.fills ++ rowOutcomeFill responses st.calls.length rows ∧
        res.calls.length = st.calls.length + rows.length := by
  intro rows
  induction rows with
  | nil =>
    intro st _
    exact ⟨st, rfl, by simp [successCountFrom], by simp [rowFailuresFrom],
      by simp [rowOutcomeFill], by simp⟩
  | cons tr rest ih =>
    intro st hvalid
    obtain ⟨hid, hpid, p, hunf, hser⟩ := hvalid tr (List.mem_cons_self _ _)
    have hstep : ∀ st1, processStep responses st tr = .ok st1 → True := fun _ _ => trivial
    rw [List.foldlM_cons]
    have hrest : ∀ tr2 ∈ rest, tr2.task_id ≠ "" ∧ tr2.project_id ≠ "" ∧
        ∃ p2, unflatten tr2.flat_values = .ok p2 ∧ jsonSerializableD p2 = true :=
      fun tr2 h2 => hvalid tr2 (List.mem_cons_of_mem _ h2)
    match hresp : responses st.calls.length with
    | .ok u =>
      have hstep2 : processStep responses st tr = .ok
          { st with success := st.success + 1,
                    fills := st.fills ++ [(tr.yellow_cells, BLUE_RGB)],
                    calls := st.calls ++ [(tr.project_id, tr.task_id, p)] } := by
        unfold processStep
        rw [if_neg hid, if_neg hpid, hunf]
        dsimp only
        rw [if_neg (by simp [hser]), hresp]
      rw [hstep2]
      obtain ⟨res, hfold, hsucc, hfail, hfill, hlen⟩ := ih _ hrest
      refine ⟨res, hfold, ?_, ?_, ?_, ?_⟩
      · rw [hsucc]
        simp [successCountFrom, hresp]
        try omega
      · rw [hfail]
        simp [rowFailuresFrom, hresp]
      · rw [hfill]
        simp [rowOutcomeFill, hresp]
      · rw [hlen]
        simp
        try omega
    | .error msg =>
      have hstep2 : processStep responses st tr = .ok
          { st with failures := st.failures ++ [(tr, msg)],
                    fills := st.fills ++ [(tr.yellow_cells, RED_RGB)],
                    calls := st.calls ++ [(tr.project_id, tr.task_id, p)] } := by
        unfold processStep
        rw [if_neg hid, if_neg hpid, hunf]
        dsimp only
        rw [if_neg (by simp [hser]), hresp]
      rw [hstep2]
      obtain ⟨res, hfold, hsucc, hfail, hfill, hlen⟩ := ih _ hrest
      refine ⟨res, hfold, ?_, ?_, ?_, ?_⟩
      · rw [hsucc]
        simp [successCountFrom, hresp]
        try omega
      · rw [hfail]
        simp [rowFailuresFrom, hresp]
      · rw [hfill]
        simp [rowOutcomeFill, hresp]
      · rw [hlen]
        simp
        try omega

/-- With the single-failure oracle, calls numbered past `k` all succeed. -/
lemma singleFail_after (k : Nat) (msg : String) :
    ∀ (rows : List TaskRow) (c0 : Nat), k < c0 →
      successCountFrom (fun i => if i = k then .error msg else .ok ()) c0 rows =
        rows.length ∧
      rowFailuresFrom (fun i => if i = k then .error msg else .ok ()) c0 rows = [] := by
  intro rows
  induction rows with
  | nil => intro c0 _; exact ⟨rfl, rfl⟩
  | cons tr rest ih =>
    intro c0 hc
    have hne : c0 ≠ k := by omega
    obtain ⟨h1, h2⟩ := ih (c0 + 1) (by omega)
    constructor
    · simp [successCountFrom, hne, h1]
      omega
    · simp [rowFailuresFrom, hne, h2]

/-- With the single-failure oracle and `k` within range, exactly one call
fails: the success count is one less than the row count and the failure
list is the single entry for row `k - c0`. -/
lemma singleFail_within (k : Nat) (msg : String) :
    ∀ (rows : List TaskRow) (c0 : Nat), c0 ≤ k → k < c0 + rows.length →
      successCountFrom (fun i => if i = k then .error msg else .ok ()) c0 rows =
        rows.length - 1 ∧
      rowFailuresFrom (fun i => if i = k then .error msg else .ok ()) c0 rows =
        [(rows.getD (k - c0) emptyTaskRow, msg)] := by
  intro rows
  induction rows with
  | nil => intro c0 h1 h2; simp at h2; omega
  | cons tr rest ih =>
    intro c0 h1 h2
    by_cases he : c0 = k
    · subst he
      obtain ⟨ha, hb⟩ := singleFail_after c0 msg rest (c0 + 1) (by omega)
      constructor
      · simp [successCountFrom, ha]
      · simp [rowFailuresFrom, hb]
    · have hlt : c0 < k := by omega
      have hr : k < c0 + 1 + rest.length := by
        simp only [List.length_cons] at h2
        omega
      obtain ⟨ha, hb⟩ := ih (c0 + 1) (by omega) hr
      have hrest1 : 1 ≤ rest.length := by omega
      constructor
      · simp only [successCountFrom, if_neg he]
        rw [ha]
        simp only [List.length_cons]
        omega
      · simp only [rowFailuresFrom, if_neg he]
        rw [hb]
        simp only [List.nil_append]
        rw [show k - c0 = (k - (c0 + 1)) + 1 by omega]
        rfl

/-- Lengths of the expected fill log. -/
lemma rowOutcomeFill_length {responses : Nat → Except String Unit} :
    ∀ (rows : List TaskRow) (c0 : Nat),
      (rowOutcomeFill responses c0 rows).length = rows.length := by
  intro rows
  induction rows with
  | nil => intro c0; rfl
  | cons tr rest ih =>
    intro c0
    simp only [rowOutcomeFill, List.length_cons, ih (c0 + 1)]

/-- Pointwise contents of the expected fill log. -/
lemma rowOutcomeFill_getD {responses : Nat → Except String Unit} :
    ∀ (rows : List TaskRow) (c0 i : Nat), i < rows.length →
      (rowOutcomeFill responses c0 rows).getD i ([], "") =
        ((rows.getD i emptyTaskRow).yellow_cells,
          match responses (c0 + i) with
          | .ok _ => BLUE_RGB
          | .error _ => RED_RGB) := by
  intro rows
  induction rows with
  | nil => intro c0 i h; simp at h
  | cons tr rest ih =>
    intro c0 i h
    match i with
    | 0 => rfl
    | i2 + 1 =>
      have h2 : i2 < rest.length := by
        simp only [List.length_cons] at h
        omega
      have := ih (c0 + 1) i2 h2
      simp only [rowOutcomeFill, List.getD_cons_succ, this]
      rw [show c0 + 1 + i2 = c0 + (i2 + 1) by omega]

/-- C7: a batch of N valid rows (non-empty identifiers, unflattable and
serializable payloads) where exactly call k fails and every other call
succeeds is processed in full: the run completes with N−1 successes, the
single failure entry is row k with the raised message, exactly N fill
operations happen, the changed cells of row k get the failure color
`FFFF0000`, and the changed cells of every other row get the success color
`FF00B0F0`. -/
theorem batch_single_failure :
    ∀ (rows : List TaskRow) (k : Nat) (msg : String), k < rows.length →
      (∀ tr ∈ rows, tr.task_id ≠ "" ∧ tr.project_id ≠ "" ∧
        ∃ p, unflatten tr.flat_values = .ok p ∧ jsonSerializableD p = true) →
      ∃ res, processTaskRows (fun i => if i = k then .error msg else .ok ())
          rows = .ok res ∧
        res.success = rows.length - 1 ∧
        res.failures = [(rows.getD k emptyTaskRow, msg)] ∧
        res.fills.length = rows.length ∧
        (∀ i, i < rows.length → res.fills.getD i ([], "") =
          ((rows.getD i emptyTaskRow).yellow_cells,
            if i = k then RED_RGB else BLUE_RGB)) ∧
        RED_RGB = "FFFF0000" ∧ BLUE_RGB = "FF00B0F0" := by
  intro rows k msg hk hvalid
  obtain ⟨res, hfold, hsucc, hfail, hfill, _⟩ :=
    @processFold_valid (fun i => if i = k then .error msg else .ok ())
      rows ⟨0, [], [], []⟩ hvalid
  have e0 : (⟨0, [], [], []⟩ : RunState).calls.length = 0 := rfl
  have e1 : (⟨0, [], [], []⟩ : RunState).success = 0 := rfl
  have e2 : (⟨0, [], [], []⟩ : RunState).failures = [] := rfl
  have e3 : (⟨0, [], [], []⟩ : RunState).fills = [] := rfl
  rw [e0, e1] at hsucc
  rw [e0, e2] at hfail
  rw [e0, e3] at hfill
  obtain ⟨hs, hf⟩ := singleFail_within k msg rows 0 (by omega) (by omega)
  refine ⟨res, hfold, ?_, ?_, ?_, ?_, rfl, rfl⟩
  · rw [hsucc, hs]
    omega
  · rw [hfail, hf]
    simp
  · rw [hfill]
    simp [rowOutcomeFill_length]
  · intro i hi
    rw [hfill]
    simp only [List.nil_append]
    rw [rowOutcomeFill_getD rows 0 i hi]
    by_cases he : i = k
    · rw [show (0 : Nat) + i = i by omega, if_pos he, if_pos he]
    · rw [show (0 : Nat) + i = i by omega, if_neg he, if_neg he]

/-- C7 witness: a concrete three-row batch whose second call fails —
two successes, the single failure entry for row 2, blue fills on rows 1
and 3, a red fill on row 2. -/
theorem batch_single_failure_witness :
    ∃ res, processTaskRows (fun i => if i = 1 then .error "boom" else .ok ())
        [⟨2, "T1", "P", [("Id", .str "T1")], [(2, 1)]⟩,
         ⟨3, "T2", "P", [("Id", .str "T2")], [(3, 1)]⟩,
         ⟨4, "T3", "P", [("Id", .str "T3")], [(4, 1)]⟩] = .ok res ∧
      res.success = 2 ∧
      res.failures = [(⟨3, "T2", "P", [("Id", .str "T2")], [(3, 1)]⟩, "boom")] ∧
      res.fills.length = 3 ∧
      res.fills.getD 0 ([], "") = ([(2, 1)], "FF00B0F0") ∧
      res.fills.getD 1 ([], "") = ([(3, 1)], "FFFF0000") ∧
      res.fills.getD 2 ([], "") = ([(4, 1)], "FF00B0F0") := by
  obtain ⟨res, hrun, hsucc, hfail, hlen, hgetD, hred, hblue⟩ :=
    batch_single_failure
      [⟨2, "T1", "P", [("Id", .str "T1")], [(2, 1)]⟩,
       ⟨3, "T2", "P", [("Id", .str "T2")], [(3, 1)]⟩,
       ⟨4, "T3", "P", [("Id", .str "T3")], [(4, 1)]⟩] 1 "boom" (by decide)
      (by
        intro tr htr
        rcases List.mem_cons.mp htr with rfl | htr
        · exact ⟨by decide, by decide, .cons "Id" (.str "T1") .nil, rfl, rfl⟩
        rcases List.mem_cons.mp htr with rfl | htr
        · exact ⟨by decide, by decide, .cons "Id" (.str "T2") .nil, rfl, rfl⟩
        rcases List.mem_cons.mp htr with rfl | htr
        · exact ⟨by decide, by decide, .cons "Id" (.str "T3") .nil, rfl, rfl⟩
        · exact absurd htr (List.not_mem_nil tr))
  refine ⟨res, hrun, hsucc, by rw [hfail]; rfl, hlen, ?_, ?_, ?_⟩
  · rw [hgetD 0 (by decide), hblue]; rfl
  · rw [hgetD 1 (by decide), hred]; rfl
  · rw [hgetD 2 (by decide), hblue]; rfl

/-- Zeta-expanded form of one cell scan with no shadow sheet. -/
lemma scanCell_none_eq (headers : List String) (rowIdx idx : Nat) (cell : Cell)
    (st : ScanSt) :
    scanCell Option.none headers rowIdx idx cell st =
      if headers.getD idx "" = "" then st
      else
        ⟨aSet st.values (headers.getD idx "") (normalize_value cell.value),
         if markedYellow (cell_rgb cell) then st.yellow ++ [(rowIdx, idx + 1)]
         else st.yellow,
         st.hasValue || cellNonEmpty cell⟩ := rfl

/-- Zeta-expanded form of one cell scan against a shadow grid. -/
lemma scanCell_some_eq (grid : List (List PyVal)) (headers : List String)
    (rowIdx idx : Nat) (cell : Cell) (st : ScanSt) :
    scanCell (some grid) headers rowIdx idx cell st =
      if headers.getD idx "" = "" then st
      else
        ⟨aSet st.values (headers.getD idx "") (normalize_value cell.value),
         if !pyEq (normalize_value cell.value)
              (normalize_value (gridVal grid rowIdx (idx + 1))) &&
            !(if markedYellow (cell_rgb cell) then st.yellow ++ [(rowIdx, idx + 1)]
              else st.yellow).contains (rowIdx, idx + 1) then
           (if markedYellow (cell_rgb cell) then st.yellow ++ [(rowIdx, idx + 1)]
            else st.yellow) ++ [(rowIdx, idx + 1)]
         else
           (if markedYellow (cell_rgb cell) then st.yellow ++ [(rowIdx, idx + 1)]
            else st.yellow),
         st.hasValue || cellNonEmpty cell⟩ := rfl

/-- A coordinate already in the changed-cell list survives one cell scan. -/
lemma scanCell_yellow_mem {shadow : Option (List (List PyVal))}
    {headers : List String} {rowIdx idx : Nat} {cell : Cell} {st : ScanSt}
    {c0 : Nat × Nat} (h : c0 ∈ st.yellow) :
    c0 ∈ (scanCell shadow headers rowIdx idx cell st).yellow := by
  cases shadow with
  | none =>
    rw [scanCell_none_eq]
    by_cases hh : headers.getD idx "" = ""
    · rw [if_pos hh]; exact h
    · rw [if_neg hh]
      by_cases hm : markedYellow (cell_rgb cell)
      · rw [if_pos hm]; exact List.mem_append_left _ h
      · rw [if_neg hm]; exact h
  | some grid =>
    rw [scanCell_some_eq]
    by_cases hh : headers.getD idx "" = ""
    · rw [if_pos hh]; exact h
    · rw [if_neg hh]
      by_cases hm : markedYellow (cell_rgb cell)
      · rw [if_pos hm]
        split
        · exact List.mem_append_left _ (List.mem_append_left _ h)
        · exact List.mem_append_left _ h
      · rw [if_neg hm]
        split
        · exact List.mem_append_left _ h
        · exact h

/-- The `hasValue` flag never resets during one cell scan. -/
lemma scanCell_hasValue_mem {shadow : Option (List (List PyVal))}
    {headers : List String} {rowIdx idx : Nat} {cell : Cell} {st : ScanSt}
    (h : st.hasValue = true) :
    (scanCell shadow headers rowIdx idx cell st).hasValue = true := by
  cases shadow with
  | none =>
    rw [scanCell_none_eq]
    by_cases hh : headers.getD idx "" = ""
    · rw [if_pos hh]; exact h
    · rw [if_neg hh]
      show (st.hasValue || cellNonEmpty cell) = true
      rw [h, Bool.true_or]
  | some grid =>
    rw [scanCell_some_eq]
    by_cases hh : headers.getD idx "" = ""
    · rw [if_pos hh]; exact h
    · rw [if_neg hh]
      show (st.hasValue || cellNonEmpty cell) = true
      rw [h, Bool.true_or]

/-- A scanned cell under a non-empty header whose normalized value differs
from the shadow value at its coordinate puts its coordinate into the
changed-cell list. -/
lemma scanCell_yellow_diff {grid : List (List PyVal)} {headers : List String}
    {rowIdx idx : Nat} {cell : Cell} {st : ScanSt}
    (hh : headers.getD idx "" ≠ "")
    (hd : pyEq (normalize_value cell.value)
      (normalize_value (gridVal grid rowIdx (idx + 1))) = false) :
    (rowIdx, idx + 1) ∈ (scanCell (some grid) headers rowIdx idx cell st).yellow := by
  rw [scanCell_some_eq, if_neg hh]
  by_cases hm : markedYellow (cell_rgb cell)
  · rw [if_pos hm]
    split
    · exact List.mem_append_right _ (List.mem_singleton.mpr rfl)
    · exact List.mem_append_right _ (List.mem_singleton.mpr rfl)
  · rw [if_neg hm]
    split
    · exact List.mem_append_right _ (List.mem_singleton.mpr rfl)
    · rename_i hcond
      rw [hd] at hcond
      simp only [Bool.not_false, Bool.true_and, Bool.not_eq_true',
        Bool.not_eq_false] at hcond
      simpa using hcond

/-- A scanned cell under a non-empty header carrying a recognized color
puts its coordinate into the changed-cell list (with or without a shadow
sheet). -/
lemma scanCell_yellow_marked {shadow : Option (List (List PyVal))}
    {headers : List String} {rowIdx idx : Nat} {cell : Cell} {st : ScanSt}
    (hh : headers.getD idx "" ≠ "")
    (hm : markedYellow (cell_rgb cell) = true) :
    (rowIdx, idx + 1) ∈ (scanCell shadow headers rowIdx idx cell st).yellow := by
  cases shadow with
  | none =>
    rw [scanCell_none_eq, if_neg hh, if_pos hm]
    exact List.mem_append_right _ (List.mem_singleton.mpr rfl)
  | some grid =>
    rw [scanCell_some_eq, if_neg hh, if_pos hm]
    split
    · exact List.mem_append_left _
        (List.mem_append_right _ (List.mem_singleton.mpr rfl))
    · exact List.mem_append_right _ (List.mem_singleton.mpr rfl)

/-- With no shadow sheet, one cell scan only ever adds the coordinate of a
cell that carries a recognized color. -/
lemma scanCell_yellow_src {headers : List String} {rowIdx idx : Nat}
    {cell : Cell} {st : ScanSt} {c0 : Nat × Nat}
    (h : c0 ∈ (scanCell Option.none headers rowIdx idx cell st).yellow) :
    c0 ∈ st.yellow ∨
      (markedYellow (cell_rgb cell) = true ∧ c0 = (rowIdx, idx + 1)) := by
  rw [scanCell_none_eq] at h
  by_cases hh : headers.getD idx "" = ""
  · rw [if_pos hh] at h
    exact Or.inl h
  · rw [if_neg hh] at h
    by_cases hm : markedYellow (cell_rgb cell)
    · rw [if_pos hm] at h
      rcases List.mem_append.mp h with h2 | h2
      · exact Or.inl h2
      · exact Or.inr ⟨hm, List.mem_singleton.mp h2⟩
    · rw [if_neg hm] at h
      exact Or.inl h

/-- Lifting `scanCell_yellow_mem` over a whole row. -/
lemma scanRow_yellow_mem {shadow : Option (List (List PyVal))}
    {headers : List String} {rowIdx : Nat} :
    ∀ (cells : List Cell) (i0 : Nat) (st : ScanSt) (c0 : Nat × Nat),
      c0 ∈ st.yellow → c0 ∈ (scanRow shadow headers rowIdx i0 cells st).yellow := by
  intro cells
  induction cells with
  | nil => intro i0 st c0 h; exact h
  | cons cell rest ih =>
    intro i0 st c0 h
    exact ih (i0 + 1) _ c0 (scanCell_yellow_mem h)

/-- Lifting `scanCell_hasValue_mem` over a whole row. -/
lemma scanRow_hasValue_mem {shadow : Option (List (List PyVal))}
    {headers : List String} {rowIdx : Nat} :
    ∀ (cells : List Cell) (i0 : Nat) (st : ScanSt),
      st.hasValue = true →
      (scanRow shadow headers rowIdx i0 cells st).hasValue = true := by
  intro cells
  induction cells with
  | nil => intro i0 st h; exact h
  | cons cell rest ih =>
    intro i0 st h
    exact ih (i0 + 1) _ (scanCell_hasValue_mem h)

/-- A differing headered cell anywhere in the row lands in the final
changed-cell list. -/
lemma scanRow_yellow_diff {grid : List (List PyVal)} {headers : List String}
    {rowIdx : Nat} :
    ∀ (cells : List Cell) (i0 : Nat) (st : ScanSt) (idx : Nat) (cell : Cell),
      cells[idx]? = some cell →
      headers.getD (i0 + idx) "" ≠ "" →
      pyEq (normalize_value cell.value)
        (normalize_value (gridVal grid rowIdx (i0 + idx + 1))) = false →
      (rowIdx, i0 + idx + 1) ∈
        (scanRow (some grid) headers rowIdx i0 cells st).yellow := by
  intro cells
  induction cells with
  | nil => intro i0 st idx cell h; simp at h
  | cons c2 rest ih =>
    intro i0 st idx cell h hh hd
    match idx with
    | 0 =>
      rw [List.getElem?_cons_zero] at h
      rcases Option.some.inj h with rfl
      rw [Nat.add_zero] at hh hd ⊢
      exact scanRow_yellow_mem rest (i0 + 1) _ _ (scanCell_yellow_diff hh hd)
    | idx2 + 1 =>
      rw [List.getElem?_cons_succ] at h
      have := ih (i0 + 1) (scanCell (some grid) headers rowIdx i0 c2 st) idx2 cell h
        (by rw [show i0 + 1 + idx2 = i0 + (idx2 + 1) by omega]; exact hh)
        (by rw [show i0 + 1 + idx2 = i0 + (idx2 + 1) by omega]; exact hd)
      rw [show i0 + 1 + idx2 = i0 + (idx2 + 1) by omega] at this
      exact this

/-- A recognized-colored headered cell anywhere in the row lands in the
final changed-cell list. -/
lemma scanRow_yellow_marked {shadow : Option (List (List PyVal))}
    {headers : List String} {rowIdx : Nat} :
    ∀ (cells : List Cell) (i0 : Nat) (st : ScanSt) (idx : Nat) (cell : Cell),
      cells[idx]? = some cell →
      headers.getD (i0 + idx) "" ≠ "" →
      markedYellow (cell_rgb cell) = true →
      (rowIdx, i0 + idx + 1) ∈
        (scanRow shadow headers rowIdx i0 cells st).yellow := by
  intro cells
  induction cells with
  | nil => intro i0 st idx cell h; simp at h
  | cons c2 rest ih =>
    intro i0 st idx cell h hh hm
    match idx with
    | 0 =>
      rw [List.getElem?_cons_zero] at h
      rcases Option.some.inj h with rfl
      rw [Nat.add_zero] at hh ⊢
      exact scanRow_yellow_mem rest (i0 + 1) _ _ (scanCell_yellow_marked hh hm)
    | idx2 + 1 =>
      rw [List.getElem?_cons_succ] at h
      have := ih (i0 + 1) (scanCell shadow headers rowIdx i0 c2 st) idx2 cell h
        (by rw [show i0 + 1 + idx2 = i0 + (idx2 + 1) by omega]; exact hh) hm
      rw [show i0 + 1 + idx2 = i0 + (idx2 + 1) by omega] at this
      exact this

/-- A non-empty headered cell anywhere in the row sets the final
`hasValue` flag. -/
lemma scanRow_hasValue {shadow : Option (List (List PyVal))}
    {headers : List String} {rowIdx : Nat} :
    ∀ (cells : List Cell) (i0 : Nat) (st : ScanSt) (idx : Nat) (cell : Cell),
      cells[idx]? = some cell →
      headers.getD (i0 + idx) "" ≠ "" →
      cellNonEmpty cell = true →
      (scanRow shadow headers rowIdx i0 cells st).hasValue = true := by
  intro cells
  induction cells with
  | nil => intro i0 st idx cell h; simp at h
  | cons c2 rest ih =>
    intro i0 st idx cell h hh hv
    match idx with
    | 0 =>
      rw [List.getElem?_cons_zero] at h
      rcases Option.some.inj h with rfl
      rw [Nat.add_zero] at hh
      refine scanRow_hasValue_mem rest (i0 + 1) _ ?_
      cases shadow with
      | none =>
        rw [scanCell_none_eq, if_neg hh]
        show (st.hasValue || cellNonEmpty c2) = true
        rw [hv, Bool.or_true]
      | some grid =>
        rw [scanCell_some_eq, if_neg hh]
        show (st.hasValue || cellNonEmpty c2) = true
        rw [hv, Bool.or_true]
    | idx2 + 1 =>
      rw [List.getElem?_cons_succ] at h
      exact ih (i0 + 1) _ idx2 cell h
        (by rw [show i0 + 1 + idx2 = i0 + (idx2 + 1) by omega]; exact hh) hv

/-- With no shadow sheet, every coordinate in the final changed-cell list
comes from the initial list or from a cell carrying a recognized color at
that position. -/
lemma scanRow_yellow_src {headers : List String} {rowIdx : Nat} :
    ∀ (cells : List Cell) (i0 : Nat) (st : ScanSt) (c0 : Nat × Nat),
      c0 ∈ (scanRow Option.none headers rowIdx i0 cells st).yellow →
      c0 ∈ st.yellow ∨ ∃ idx cell, cells[idx]? = some cell ∧
        markedYellow (cell_rgb cell) = true ∧ c0 = (rowIdx, i0 + idx + 1) := by
  intro cells
  induction cells with
  | nil => intro i0 st c0 h; exact Or.inl h
  | cons c2 rest ih =>
    intro i0 st c0 h
    rcases ih (i0 + 1) _ c0 h with h2 | ⟨idx, cell, hg, hm, he⟩
    · rcases scanCell_yellow_src h2 with h3 | ⟨hm, he⟩
      · exact Or.inl h3
      · exact Or.inr ⟨0, c2, by simp, hm, by simpa using he⟩
    · refine Or.inr ⟨idx + 1, cell, by simpa using hg, hm, ?_⟩
      rw [he]
      rw [show i0 + 1 + idx = i0 + (idx + 1) by omega]

/-- Membership characterization for the data-row loop. -/
lemma mem_collectRows_iff {shadow : Option (List (List PyVal))}
    {headers : List String} :
    ∀ (dataRows : List (List Cell)) (p : Nat) (tr : TaskRow),
      tr ∈ collectRows shadow headers p dataRows ↔
        ∃ q cells, dataRows[q]? = some cells ∧
          (scanRow shadow headers (p + q + 2) 0 cells ⟨[], [], false⟩).hasValue
            = true ∧
          (scanRow shadow headers (p + q + 2) 0 cells ⟨[], [], false⟩).yellow
            ≠ [] ∧
          tr = ⟨p + q + 2,
            resolveTaskId (scanRow shadow headers (p + q + 2) 0 cells
              ⟨[], [], false⟩).values,
            resolveProjectId (scanRow shadow headers (p + q + 2) 0 cells
              ⟨[], [], false⟩).values,
            (scanRow shadow headers (p + q + 2) 0 cells ⟨[], [], false⟩).values,
            (scanRow shadow headers (p + q + 2) 0 cells ⟨[], [], false⟩).yellow⟩ := by
  intro dataRows
  induction dataRows with
  | nil =>
    intro p tr
    constructor
    · intro h; exact absurd h (List.not_mem_nil tr)
    · rintro ⟨q, cells, hg, -⟩; simp at hg
  | cons cells0 rest ih =>
    intro p tr
    constructor
    · intro h
      simp only [collectRows, List.mem_append] at h
      rcases h with h | h
      · split at h
        · rename_i hcond
          rcases List.mem_singleton.mp h with rfl
          rw [Bool.and_eq_true] at hcond
          refine ⟨0, cells0, by simp, hcond.1, ?_, by rw [Nat.add_zero]⟩
          rw [Nat.add_zero]
          intro he
          rw [he] at hcond
          exact absurd hcond.2 (by simp)
        · exact absurd h (List.not_mem_nil tr)
      · rcases (ih (p + 1) tr).mp h with ⟨q, cells, hg, hv, hy, he⟩
        refine ⟨q + 1, cells, by simpa using hg, ?_, ?_, ?_⟩ <;>
          rw [show p + (q + 1) + 2 = p + 1 + q + 2 by omega]
        · exact hv
        · exact hy
        · exact he
    · rintro ⟨q, cells, hg, hv, hy, he⟩
      match q with
      | 0 =>
        rw [List.getElem?_cons_zero] at hg
        rcases Option.some.inj hg with rfl
        simp only [collectRows, List.mem_append]
        refine Or.inl ?_
        rw [Nat.add_zero] at hv hy he
        rw [if_pos (by simp [hv, hy])]
        rw [he]
        exact List.mem_singleton.mpr rfl
      | q2 + 1 =>
        rw [List.getElem?_cons_succ] at hg
        simp only [collectRows, List.mem_append]
        refine Or.inr ((ih (p + 1) tr).mpr ⟨q2, cells, hg, ?_, ?_, ?_⟩) <;>
          rw [show p + 1 + q2 + 2 = p + (q2 + 1) + 2 by omega]
        · exact hv
        · exact hy
        · exact he

/-- C3 counterexample: the claim says every data cell whose normalized
value differs from the shadow sheet is reported as changed.  Here the
second column's header is empty, so the detector skips that cell before
ever comparing it to the shadow (import_tasks_cli.py lines 146-147): the
cell value "x" differs from the shadow value "y" and the cell is
non-empty, yet no `TaskRow` is produced at all and the difference goes
unreported. -/
theorem shadow_diff_unheadered_cell_dropped :
    pyEq (normalize_value (plainCell (.str "x")).value)
      (normalize_value
        (gridVal [[.str "A", .str ""], [.none, .str "y"]] 2 2)) = false ∧
    cellNonEmpty (plainCell (.str "x")) = true ∧
    collect_task_rows
      [[plainCell (.str "A"), plainCell (.str "")],
       [plainCell .none, plainCell (.str "x")]]
      (some [[.str "A", .str ""], [.none, .str "y"]]) = [] :=
  ⟨rfl, rfl, rfl⟩

/-- C3 (amended): restricted to cells in columns with a non-empty header
(both the shadow-differing cell and the non-empty cell witnessing the
row is not blank — cells under an empty header are skipped before the
shadow compare, see the counterexample): with a shadow worksheet, every
such data cell whose normalized value differs from the shadow value at
its coordinate is included in its row's changed-cell list — no color
marker needed.  Without a shadow worksheet, every coordinate of every
emitted `TaskRow` traces back to a cell carrying a recognized color, so a
row whose cells changed but are uncolored produces no `TaskRow`. -/
theorem shadow_diff_detection :
    (∀ (headerRow : List Cell) (dataRows : List (List Cell))
        (grid : List (List PyVal)) (q idx : Nat) (cells : List Cell)
        (cell : Cell),
      dataRows[q]? = some cells → cells[idx]? = some cell →
      (headerRow.map headerOf).getD idx "" ≠ "" →
      pyEq (normalize_value cell.value)
        (normalize_value (gridVal grid (q + 2) (idx + 1))) = false →
      (∃ j cj, cells[j]? = some cj ∧ (headerRow.map headerOf).getD j "" ≠ "" ∧
        cellNonEmpty cj = true) →
      ∃ tr ∈ collect_task_rows (headerRow :: dataRows) (some grid),
        tr.row_index = q + 2 ∧ (q + 2, idx + 1) ∈ tr.yellow_cells) ∧
    (∀ (headerRow : List Cell) (dataRows : List (List Cell)) (tr : TaskRow),
      tr ∈ collect_task_rows (headerRow :: dataRows) Option.none →
      ∀ c0 ∈ tr.yellow_cells, ∃ q cells idx cell,
        dataRows[q]? = some cells ∧ cells[idx]? = some cell ∧
        markedYellow (cell_rgb cell) = true ∧ tr.row_index = q + 2 ∧
        c0 = (q + 2, idx + 1)) ∧
    (∀ (headerRow : List Cell) (dataRows : List (List Cell)) (q : Nat)
        (cells : List Cell),
      dataRows[q]? = some cells →
      (∀ cell ∈ cells, markedYellow (cell_rgb cell) = false) →
      ∀ tr ∈ collect_task_rows (headerRow :: dataRows) Option.none,
        tr.row_index ≠ q + 2) := by
  refine ⟨?_, ?_, ?_⟩
  · intro headerRow dataRows grid q idx cells cell hq hc hh hd hval
    obtain ⟨j, cj, hj, hjh, hjv⟩ := hval
    have hne : ¬ (headerRow.map headerOf).isEmpty = true := by
      intro he
      rw [List.isEmpty_iff] at he
      rw [he] at hh
      exact hh rfl
    have hv : (scanRow (some grid) (headerRow.map headerOf) (q + 2) 0 cells
        ⟨[], [], false⟩).hasValue = true := by
      refine scanRow_hasValue cells 0 _ j cj hj ?_ hjv
      simpa only [Nat.zero_add] using hjh
    have hy : (q + 2, idx + 1) ∈
        (scanRow (some grid) (headerRow.map headerOf) (q + 2) 0 cells
          ⟨[], [], false⟩).yellow := by
      have h2 := @scanRow_yellow_diff grid (headerRow.map headerOf) (q + 2)
        cells 0 ⟨[], [], false⟩ idx cell hc
        (by simpa only [Nat.zero_add] using hh)
        (by simpa only [Nat.zero_add] using hd)
      simpa only [Nat.zero_add] using h2
    have hiff := @mem_collectRows_iff (some grid)
      (headerRow.map headerOf) dataRows 0
    simp only [Nat.zero_add] at hiff
    refine ⟨⟨q + 2,
      resolveTaskId (scanRow (some grid) (headerRow.map headerOf) (q + 2)
        0 cells ⟨[], [], false⟩).values,
      resolveProjectId (scanRow (some grid) (headerRow.map headerOf) (q + 2)
        0 cells ⟨[], [], false⟩).values,
      (scanRow (some grid) (headerRow.map headerOf) (q + 2) 0 cells
        ⟨[], [], false⟩).values,
      (scanRow (some grid) (headerRow.map headerOf) (q + 2) 0 cells
        ⟨[], [], false⟩).yellow⟩, ?_, rfl, hy⟩
    simp only [collect_task_rows]
    rw [if_neg hne]
    exact (hiff _).mpr ⟨q, cells, hq, hv, List.ne_nil_of_mem hy, rfl⟩
  · intro headerRow dataRows tr h c0 hc0
    simp only [collect_task_rows] at h
    split at h
    · exact absurd h (List.not_mem_nil tr)
    · have hiff := @mem_collectRows_iff Option.none
        (headerRow.map headerOf) dataRows 0
      simp only [Nat.zero_add] at hiff
      rcases (hiff tr).mp h with ⟨q, cells, hq, hv, hy, he⟩
      have hyc : tr.yellow_cells = (scanRow Option.none
          (headerRow.map headerOf) (q + 2) 0 cells ⟨[], [], false⟩).yellow := by
        rw [he]
      rw [hyc] at hc0
      rcases scanRow_yellow_src cells 0 _ c0 hc0 with h2 | ⟨idx, cell, hgc, hm, hce⟩
      · exact absurd h2 (List.not_mem_nil c0)
      · refine ⟨q, cells, idx, cell, hq, hgc, hm, by rw [he], ?_⟩
        rw [hce]
        simp
  · intro headerRow dataRows q cells hq hall tr htr he
    simp only [collect_task_rows] at htr
    split at htr
    · exact absurd htr (List.not_mem_nil tr)
    · have hiff := @mem_collectRows_iff Option.none
        (headerRow.map headerOf) dataRows 0
      simp only [Nat.zero_add] at hiff
      rcases (hiff tr).mp htr with ⟨q2, cells2, hq2, hv2, hy2, he2⟩
      have hqq : q2 = q := by
        have h3 : tr.row_index = q2 + 2 := by rw [he2]
        rw [he] at h3
        omega
      subst hqq
      rw [hq] at hq2
      rcases Option.some.inj hq2 with rfl
      rcases List.exists_mem_of_ne_nil _ hy2 with ⟨c0, hc0⟩
      rcases scanRow_yellow_src cells 0 _ c0 hc0 with h2 | ⟨idx, cell, hgc, hm, -⟩
      · exact absurd h2 (List.not_mem_nil c0)
      · have hmem : cell ∈ cells := by
          have hlt : idx < cells.length := by
            by_contra hge
            rw [List.getElem?_eq_none (by omega)] at hgc
            exact Option.noConfusion hgc
          rw [List.getElem?_eq_getElem hlt] at hgc
          rcases Option.some.inj hgc with rfl
          exact List.getElem_mem hlt
        rw [hall cell hmem] at hm
        exact Bool.noConfusion hm

/-- C3 witness: a one-row worksheet against a shadow grid where the
`Name` cell was edited without any color — the detector still reports it;
the hypotheses of `shadow_diff_detection` are discharged at the concrete
input. -/
theorem shadow_diff_detection_witness :
    ∃ tr ∈ collect_task_rows
        [[plainCell (.str "Id"), plainCell (.str "Name")],
         [plainCell (.int 1), plainCell (.str "B")]]
        (some [[.str "Id", .str "Name"], [.int 1, .str "A"]]),
      tr.row_index = 2 ∧ (2, 2) ∈ tr.yellow_cells := by
  have := shadow_diff_detection.1
    [plainCell (.str "Id"), plainCell (.str "Name")]
    [[plainCell (.int 1), plainCell (.str "B")]]
    [[.str "Id", .str "Name"], [.int 1, .str "A"]]
    0 1 [plainCell (.int 1), plainCell (.str "B")] (plainCell (.str "B"))
    (by simp) (by simp) (by decide) rfl
    ⟨0, plainCell (.int 1), by simp, by decide, rfl⟩
  simpa using this

/-- C4 counterexample: the claim says every cell with a recognized solid
"edited" fill in a row with a non-empty cell lands in its row's TaskRow.
Here the second column's header is empty, so the detector skips that cell
before ever reading its color: the row's only colored (and only
non-empty) cell is ignored and no `TaskRow` is produced at all. -/
theorem colored_unheadered_cell_dropped :
    markedYellow (cell_rgb ⟨.str "x",
      some ⟨some "solid", some ⟨some "rgb", some "FFFF00", Option.none⟩⟩⟩) = true ∧
    cellNonEmpty ⟨.str "x",
      some ⟨some "solid", some ⟨some "rgb", some "FFFF00", Option.none⟩⟩⟩ = true ∧
    collect_task_rows
      [[plainCell (.str "A"), plainCell (.str "")],
       [plainCell .none, ⟨.str "x",
         some ⟨some "solid", some ⟨some "rgb", some "FFFF00", Option.none⟩⟩⟩]]
      Option.none = [] :=
  ⟨rfl, rfl, rfl⟩

/-- C4 (amended): restricted to columns with a non-empty header — both
the colored cell and the witness of row non-emptiness — every cell whose
fill is a recognized "edited" encoding is included in its row's TaskRow
changed-cell list, with or without a shadow sheet;  and the recognized
encodings are exactly the claim's: a solid rgb-typed fill whose
upper-cased value is `FFFFFF00`, `FFFF00` or `00FFFF00`, or a solid
indexed-typed fill with palette value 5, 6 or 44. -/
theorem colored_cell_included :
    (∀ (headerRow : List Cell) (dataRows : List (List Cell))
        (shadow : Option (List (List PyVal))) (q idx : Nat)
        (cells : List Cell) (cell : Cell),
      dataRows[q]? = some cells → cells[idx]? = some cell →
      (headerRow.map headerOf).getD idx "" ≠ "" →
      markedYellow (cell_rgb cell) = true →
      (∃ j cj, cells[j]? = some cj ∧ (headerRow.map headerOf).getD j "" ≠ "" ∧
        cellNonEmpty cj = true) →
      ∃ tr ∈ collect_task_rows (headerRow :: dataRows) shadow,
        tr.row_index = q + 2 ∧ (q + 2, idx + 1) ∈ tr.yellow_cells) ∧
    (∀ (v : PyVal) (r : String) (iopt : Option Nat),
      pyUpper r ∈ YELLOW_RGBS →
      markedYellow (cell_rgb ⟨v, some ⟨some "solid",
        some ⟨some "rgb", some r, iopt⟩⟩⟩) = true) ∧
    (∀ (v : PyVal) (i : Nat) (ropt : Option String),
      i ∈ YELLOW_INDEXED →
      markedYellow (cell_rgb ⟨v, some ⟨some "solid",
        some ⟨some "indexed", ropt, some i⟩⟩⟩) = true) := by
  refine ⟨?_, ?_, ?_⟩
  · intro headerRow dataRows shadow q idx cells cell hq hc hh hm hval
    obtain ⟨j, cj, hj, hjh, hjv⟩ := hval
    have hne : ¬ (headerRow.map headerOf).isEmpty = true := by
      intro he
      rw [List.isEmpty_iff] at he
      rw [he] at hh
      exact hh rfl
    have hv : (scanRow shadow (headerRow.map headerOf) (q + 2) 0 cells
        ⟨[], [], false⟩).hasValue = true := by
      refine scanRow_hasValue cells 0 _ j cj hj ?_ hjv
      simpa only [Nat.zero_add] using hjh
    have hy : (q + 2, idx + 1) ∈
        (scanRow shadow (headerRow.map headerOf) (q + 2) 0 cells
          ⟨[], [], false⟩).yellow := by
      have h2 := @scanRow_yellow_marked shadow (headerRow.map headerOf) (q + 2)
        cells 0 ⟨[], [], false⟩ idx cell hc
        (by simpa only [Nat.zero_add] using hh) hm
      simpa only [Nat.zero_add] using h2
    have hiff := @mem_collectRows_iff shadow
      (headerRow.map headerOf) dataRows 0
    simp only [Nat.zero_add] at hiff
    refine ⟨⟨q + 2,
      resolveTaskId (scanRow shadow (headerRow.map headerOf) (q + 2)
        0 cells ⟨[], [], false⟩).values,
      resolveProjectId (scanRow shadow (headerRow.map headerOf) (q + 2)
        0 cells ⟨[], [], false⟩).values,
      (scanRow shadow (headerRow.map headerOf) (q + 2) 0 cells
        ⟨[], [], false⟩).values,
      (scanRow shadow (headerRow.map headerOf) (q + 2) 0 cells
        ⟨[], [], false⟩).yellow⟩, ?_, rfl, hy⟩
    simp only [collect_task_rows]
    rw [if_neg hne]
    exact (hiff _).mpr ⟨q, cells, hq, hv, List.ne_nil_of_mem hy, rfl⟩
  · intro v r iopt hr
    have hcr : cell_rgb ⟨v, some ⟨some "solid",
        some ⟨some "rgb", some r, iopt⟩⟩⟩ = some (pyUpper r) := by
      simp [cell_rgb]
    rw [hcr]
    simp only [YELLOW_RGBS, List.mem_cons, List.not_mem_nil, or_false] at hr
    rcases hr with h | h | h <;> rw [markedYellow, h] <;> decide
  · intro v i ropt hi
    simp only [YELLOW_INDEXED, List.mem_cons, List.not_mem_nil, or_false] at hi
    rcases hi with h | h | h <;> subst h <;> rfl

/-- C4 witness: the amended inclusion applied to a concrete worksheet
whose second (headered) column carries the yellow fill. -/
theorem colored_cell_included_witness :
    ∃ tr ∈ collect_task_rows
        [[plainCell (.str "A"), plainCell (.str "B")],
         [plainCell .none, ⟨.str "x",
           some ⟨some "solid", some ⟨some "rgb", some "FFFF00", Option.none⟩⟩⟩]]
        Option.none,
      tr.row_index = 2 ∧ (2, 2) ∈ tr.yellow_cells := by
  have := colored_cell_included.1
    [plainCell (.str "A"), plainCell (.str "B")]
    [[plainCell .none, ⟨.str "x",
      some ⟨some "solid", some ⟨some "rgb", some "FFFF00", Option.none⟩⟩⟩]]
    Option.none 0 1
    [plainCell .none, ⟨.str "x",
      some ⟨some "solid", some ⟨some "rgb", some "FFFF00", Option.none⟩⟩⟩]
    ⟨.str "x", some ⟨some "solid", some ⟨some "rgb", some "FFFF00", Option.none⟩⟩⟩
    (by simp) (by simp) (by decide) rfl
    ⟨1, ⟨.str "x", some ⟨some "solid",
      some ⟨some "rgb", some "FFFF00", Option.none⟩⟩⟩, by simp, by decide, rfl⟩
  simpa using this

/-- `splitPos` in closed form: the reversed drop/take of the reversed
input at the last slash. -/
lemma splitPos_eq (cs : List Char) :
    splitPos cs = ((cs.reverse.dropWhile (· ≠ '/')).reverse,
      (cs.reverse.takeWhile (· ≠ '/')).reverse) := by
  show (cs.take (cs.length - (cs.reverse.takeWhile (· ≠ '/')).length),
      (cs.reverse.takeWhile (· ≠ '/')).reverse) = _
  have h2 : cs = (cs.reverse.dropWhile (· ≠ '/')).reverse ++
      (cs.reverse.takeWhile (· ≠ '/')).reverse := by
    have h3 := congrArg List.reverse
      (List.takeWhile_append_dropWhile (fun c : Char => decide (c ≠ '/')) cs.reverse)
    rw [List.reverse_append, List.reverse_reverse] at h3
    exact h3.symm
  rw [show (cs.reverse.takeWhile (· ≠ '/')).length =
      ((cs.reverse.takeWhile (· ≠ '/')).reverse).length from
      (List.length_reverse _).symm]
  generalize hD : (cs.reverse.dropWhile (· ≠ '/')).reverse = D at h2 ⊢
  generalize hT : (cs.reverse.takeWhile (· ≠ '/')).reverse = T at h2 ⊢
  subst h2
  rw [show (D ++ T).length - T.length = D.length by
    simp only [List.length_append]; omega]
  rw [List.take_left]

/-- `splitPos` decomposes its input. -/
lemma splitPos_append (cs : List Char) :
    (splitPos cs).1 ++ (splitPos cs).2 = cs := by
  rw [splitPos_eq]
  have h3 := congrArg List.reverse
    (List.takeWhile_append_dropWhile (fun c : Char => decide (c ≠ '/')) cs.reverse)
  rw [List.reverse_append, List.reverse_reverse] at h3
  exact h3

/-- The part of `splitPos` after the last slash contains no slash. -/
lemma splitPos_no_slash (cs : List Char) : '/' ∉ (splitPos cs).2 := by
  rw [splitPos_eq]
  intro h
  rw [List.mem_reverse] at h
  have := List.mem_takeWhile_imp h
  simp at this

/-- The head of a `dropWhile` result fails the predicate. -/
lemma head_dropWhile_false (q : Char → Bool) :
    ∀ (l : List Char) (a : Char), (l.dropWhile q).head? = some a → q a = false := by
  intro l
  induction l with
  | nil => intro a h; exact Option.noConfusion h
  | cons x xs ih =>
    intro a h
    by_cases hq : q x = true
    · rw [List.dropWhile_cons_of_pos hq] at h
      exact ih a h
    · rw [List.dropWhile_cons_of_neg hq] at h
      rcases Option.some.inj h with rfl
      exact Bool.eq_false_iff.mpr hq

/-- When the part before the last slash is non-empty, it ends in a slash. -/
lemma splitPos_fst_last (cs : List Char) (h : (splitPos cs).1 ≠ []) :
    (splitPos cs).1.getLast? = some '/' := by
  rw [splitPos_eq] at h ⊢
  rw [List.getLast?_reverse]
  have hne : cs.reverse.dropWhile (· ≠ '/') ≠ [] := by
    intro he
    rw [he] at h
    exact h rfl
  rcases List.exists_cons_of_ne_nil hne with ⟨d, ds, hd⟩
  have hq : (fun c : Char => decide (c ≠ '/')) d = false :=
    head_dropWhile_false _ cs.reverse d (by rw [hd]; rfl)
  have hd2 : d = '/' := by simpa using hq
  rw [hd, hd2]
  rfl

/-- `splitPos` on a slash-free list: empty head, the whole list as tail. -/
lemma splitPos_of_no_slash (cs : List Char) (h : '/' ∉ cs) :
    splitPos cs = ([], cs) := by
  rw [splitPos_eq]
  have ht : cs.reverse.takeWhile (· ≠ '/') = cs.reverse := by
    apply List.takeWhile_eq_self_iff.mpr
    intro x hx
    rw [List.mem_reverse] at hx
    simp only [decide_eq_true_eq]
    intro he
    rw [he] at hx
    exact h hx
  have hd : cs.reverse.dropWhile (· ≠ '/') = [] := by
    have := List.takeWhile_append_dropWhile
      (fun c : Char => decide (c ≠ '/')) cs.reverse
    rw [ht] at this
    have hlen := congrArg List.length this
    simp only [List.length_append, List.length_reverse] at hlen
    rcases List.eq_nil_or_concat (cs.reverse.dropWhile (· ≠ '/')) with he | ⟨_, _, he⟩
    · exact he
    · rw [he] at hlen
      simp at hlen
  rw [ht, hd, List.reverse_reverse]
  rfl

/-- `splitext` on a slash-free basename: the parts concatenate back to the
input and are themselves slash-free. -/
lemma pySplitext_parts (s : String) (h : '/' ∉ s.data) :
    (pySplitext s).1.data ++ (pySplitext s).2.data = s.data ∧
    '/' ∉ (pySplitext s).1.data ∧ '/' ∉ (pySplitext s).2.data := by
  have hsp : (splitPos s.data).2 = s.data := by
    rw [splitPos_of_no_slash s.data h]
  show ((pySplitext s).1.data ++ (pySplitext s).2.data = s.data) ∧ _ ∧ _
  unfold pySplitext
  dsimp only
  rw [hsp]
  by_cases h1 : (s.data.reverse.takeWhile (· ≠ '.')).length = s.data.length
  · rw [if_pos h1]
    exact ⟨by simp, by simpa using h, by simp⟩
  · rw [if_neg h1]
    by_cases h2 : (s.data.take
        (s.data.length - (s.data.reverse.takeWhile (· ≠ '.')).length - 1)).all
        (· = '.')
    · rw [if_pos h2]
      exact ⟨by simp, by simpa using h, by simp⟩
    · rw [if_neg h2]
      refine ⟨?_, fun hx => h (List.mem_of_mem_take hx),
        fun hx => h (List.mem_of_mem_drop hx)⟩
      show (s.data.take (s.data.length -
          ((s.data.reverse.takeWhile (· ≠ '.')).length + 1))) ++
        (s.data.drop (s.data.length -
          (s.data.reverse.takeWhile (· ≠ '.')).length - 1)) = s.data
      rw [show s.data.length - ((s.data.reverse.takeWhile (· ≠ '.')).length + 1) =
        s.data.length - (s.data.reverse.takeWhile (· ≠ '.')).length - 1 by omega]
      exact List.take_append_drop _ _

/-- Any join result ends in the second component. -/
lemma pyJoin_data (a b : String) : ∃ X, (pyJoin a b).data = X ++ b.data := by
  unfold pyJoin
  split_ifs
  · exact ⟨[], rfl⟩
  · exact ⟨a.data, String.data_append a b⟩
  · refine ⟨a.data ++ ['/'], ?_⟩
    rw [String.data_append, String.data_append]

/-- C8 part 1 core: the reconciled-output path differs from the input. -/
lemma save_with_suffix_ne (p : String) : save_with_suffix_path p ≠ p := by
  intro h
  have hsp : save_with_suffix_path p = pyJoin (pyDirname p)
      ((pySplitext (pyBasename p)).1 ++ "_result" ++ (pySplitext (pyBasename p)).2) :=
    rfl
  obtain ⟨X, hX⟩ := pyJoin_data (pyDirname p)
    ((pySplitext (pyBasename p)).1 ++ "_result" ++ (pySplitext (pyBasename p)).2)
  have hb2 : '/' ∉ (pyBasename p).data := splitPos_no_slash p.data
  obtain ⟨hcat, hs1, hs2⟩ := pySplitext_parts (pyBasename p) hb2
  have hnn : ((pySplitext (pyBasename p)).1 ++ "_result" ++
      (pySplitext (pyBasename p)).2).data =
      (pySplitext (pyBasename p)).1.data ++ "_result".data ++
        (pySplitext (pyBasename p)).2.data := by
    rw [String.data_append, String.data_append]
  have hnn_len : ((pySplitext (pyBasename p)).1 ++ "_result" ++
      (pySplitext (pyBasename p)).2).data.length = (pyBasename p).data.length + 7 := by
    rw [hnn]
    simp only [List.length_append]
    rw [← hcat]
    simp only [List.length_append]
    rw [show ("_result").data.length = 7 from rfl]
    omega
  have hnn_ns : '/' ∉ ((pySplitext (pyBasename p)).1 ++ "_result" ++
      (pySplitext (pyBasename p)).2).data := by
    rw [hnn]
    intro hx
    rcases List.mem_append.mp hx with hx | hx
    · rcases List.mem_append.mp hx with hx | hx
      · exact hs1 hx
      · exact absurd hx (by decide)
    · exact hs2 hx
  have hdata : X ++ ((pySplitext (pyBasename p)).1 ++ "_result" ++
      (pySplitext (pyBasename p)).2).data = p.data := by
    rw [← hX, ← hsp, h]
  have hps : (splitPos p.data).1 ++ (splitPos p.data).2 = p.data :=
    splitPos_append p.data
  have hbase_eq : (pyBasename p).data = (splitPos p.data).2 := rfl
  have hlen_head : (splitPos p.data).1.length = X.length + 7 := by
    have l1 := congrArg List.length hdata
    have l2 := congrArg List.length hps
    simp only [List.length_append] at l1 l2
    rw [hnn_len, hbase_eq] at l1
    omega
  have hhead_ne : (splitPos p.data).1 ≠ [] := by
    intro he
    rw [he] at hlen_head
    simp at hlen_head
  have hlast := splitPos_fst_last p.data hhead_ne
  rw [List.getLast?_eq_getElem?] at hlast
  have hp1 : p.data[X.length + 6]? = some '/' := by
    rw [← hps]
    rw [List.getElem?_append_left (by omega)]
    rw [show X.length + 6 = (splitPos p.data).1.length - 1 by omega]
    exact hlast
  have hp2 : p.data[X.length + 6]? =
      ((pySplitext (pyBasename p)).1 ++ "_result" ++
        (pySplitext (pyBasename p)).2).data[6]? := by
    rw [← hdata]
    rw [List.getElem?_append_right (by omega)]
    rw [show X.length + 6 - X.length = 6 by omega]
  rw [hp1] at hp2
  have h6 : ((pySplitext (pyBasename p)).1 ++ "_result" ++
      (pySplitext (pyBasename p)).2).data[6]? = some '/' := hp2.symm
  have hmem : '/' ∈ ((pySplitext (pyBasename p)).1 ++ "_result" ++
      (pySplitext (pyBasename p)).2).data := by
    have hlt : 6 < ((pySplitext (pyBasename p)).1 ++ "_result" ++
        (pySplitext (pyBasename p)).2).data.length := by
      by_contra hge
      rw [List.getElem?_eq_none (by omega)] at h6
      exact Option.noConfusion h6
    rw [List.getElem?_eq_getElem hlt] at h6
    rw [← Option.some.inj h6]
    exact List.getElem_mem hlt
  exact hnn_ns hmem

/-- The collision-avoidance loop returns the first free candidate. -/
lemma navLoop_eq (existing : List String) (mk : Nat → String) :
    ∀ (fuel n0 n : Nat), n0 ≤ n → n - n0 < fuel →
      (∀ i, n0 ≤ i → i < n → existing.contains (mk i) = true) →
      existing.contains (mk n) = false →
      navLoop existing mk fuel n0 = mk n := by
  intro fuel
  induction fuel with
  | zero => intro n0 n h1 h2 h3 h4; omega
  | succ f ih =>
    intro n0 n h1 h2 h3 h4
    by_cases he : n0 = n
    · subst he
      simp only [navLoop, h4]
      rfl
    · have hlt : n0 < n := by omega
      simp only [navLoop]
      rw [if_pos (h3 n0 (Nat.le_refl _) hlt)]
      exact ih (n0 + 1) n (by omega) (by omega)
        (fun i hi1 hi2 => h3 i (by omega) hi2) h4

/-- C8: the Audit Marker persists to `<stem>_result<ext>`, which is never
the input path; and export collision avoidance: with `tasks_Foo.xlsx`
taken and `tasks_Foo (1).xlsx` free, the chosen path is
`tasks_Foo (1).xlsx`; in general the loop returns the ` (n)` candidate
with the smallest free `n` (the bound `n ≤ existing.length + 1` is the
loop-fuel accounting of the model: a filesystem listing of length L can
collide with at most L distinct candidate names, so the least free `n`
never exceeds L + 1). -/
theorem output_paths_spec :
    (∀ p : String, save_with_suffix_path p ≠ p) ∧
    (∀ (existing : List String) (dir : String),
      existing.contains (pyJoin dir "tasks_Foo.xlsx") = true →
      existing.contains (pyJoin dir "tasks_Foo (1).xlsx") = false →
      next_available_path existing dir "tasks_Foo.xlsx" =
        pyJoin dir "tasks_Foo (1).xlsx") ∧
    (∀ (existing : List String) (dir : String) (n : Nat),
      1 ≤ n → n ≤ existing.length + 1 →
      existing.contains (pyJoin dir "tasks_Foo.xlsx") = true →
      (∀ i, 1 ≤ i → i < n → existing.contains
        (pyJoin dir ("tasks_Foo" ++ " (" ++ toString i ++ ")" ++ ".xlsx")) = true) →
      existing.contains
        (pyJoin dir ("tasks_Foo" ++ " (" ++ toString n ++ ")" ++ ".xlsx")) = false →
      next_available_path existing dir "tasks_Foo.xlsx" =
        pyJoin dir ("tasks_Foo" ++ " (" ++ toString n ++ ")" ++ ".xlsx")) := by
  have hgen : ∀ (existing : List String) (dir : String) (n : Nat),
      1 ≤ n → n ≤ existing.length + 1 →
      existing.contains (pyJoin dir "tasks_Foo.xlsx") = true →
      (∀ i, 1 ≤ i → i < n → existing.contains
        (pyJoin dir ("tasks_Foo" ++ " (" ++ toString i ++ ")" ++ ".xlsx")) = true) →
      existing.contains
        (pyJoin dir ("tasks_Foo" ++ " (" ++ toString n ++ ")" ++ ".xlsx")) = false →
      next_available_path existing dir "tasks_Foo.xlsx" =
        pyJoin dir ("tasks_Foo" ++ " (" ++ toString n ++ ")" ++ ".xlsx") := by
    intro existing dir n h1 h2 hbase hall hfree
    have hcand : pyJoin dir ((pySplitext "tasks_Foo.xlsx").1 ++
        (pySplitext "tasks_Foo.xlsx").2) = pyJoin dir "tasks_Foo.xlsx" := rfl
    show (if existing.contains (pyJoin dir ((pySplitext "tasks_Foo.xlsx").1 ++
        (pySplitext "tasks_Foo.xlsx").2)) = true then
        navLoop existing (fun n => pyJoin dir ((pySplitext "tasks_Foo.xlsx").1 ++
          " (" ++ toString n ++ ")" ++ (pySplitext "tasks_Foo.xlsx").2))
          (existing.length + 1) 1
      else pyJoin dir ((pySplitext "tasks_Foo.xlsx").1 ++
        (pySplitext "tasks_Foo.xlsx").2)) = _
    rw [hcand, if_pos hbase]
    exact navLoop_eq existing _ (existing.length + 1) 1 n h1 (by omega) hall hfree
  refine ⟨save_with_suffix_ne, ?_, hgen⟩
  intro existing dir hbase hfree
  have := hgen existing dir 1 (Nat.le_refl 1) (by omega) hbase
    (fun i hi1 hi2 => by omega) hfree
  exact this

/-- C8 witness: the theorem applied at a concrete path and a concrete
one-entry directory listing. -/
theorem output_paths_spec_witness :
    save_with_suffix_path "/a/b/orig.xlsx" ≠ "/a/b/orig.xlsx" ∧
    save_with_suffix_path "/a/b/orig.xlsx" = "/a/b/orig_result.xlsx" ∧
    next_available_path ["/out/tasks_Foo.xlsx"] "/out" "tasks_Foo.xlsx" =
      "/out/tasks_Foo (1).xlsx" := by
  obtain ⟨h1, h2, _⟩ := output_paths_spec
  refine ⟨h1 "/a/b/orig.xlsx", rfl, ?_⟩
  have := h2 ["/out/tasks_Foo.xlsx"] "/out" rfl rfl
  rw [this]
  rfl

/-! ### Dict algebra for the flatten/unflatten round trip -/

lemma PyDict.append_nil (d : PyDict) : d.append .nil = d := by
  induction d using PyDict.tailRec with
  | nil => rfl
  | cons k v rest ih => simp [PyDict.append, ih]

lemma PyDict.append_assoc (a b c : PyDict) :
    (a.append b).append c = a.append (b.append c) := by
  induction a using PyDict.tailRec with
  | nil => rfl
  | cons k v rest ih => simp [PyDict.append, ih]

lemma PyDict.find_append_of_none (a b : PyDict) (key : String)
    (h : a.find key = Option.none) :
    (a.append b).find key = b.find key := by
  induction a using PyDict.tailRec with
  | nil => rfl
  | cons k v rest ih =>
    rw [PyDict.find] at h
    by_cases hk : k = key
    · rw [if_pos hk] at h; exact absurd h (by simp)
    · rw [if_neg hk] at h
      show (PyDict.cons k v (rest.append b)).find key = b.find key
      rw [PyDict.find, if_neg hk]
      exact ih h

lemma PyDict.find_eq_none_of_not_mem (d : PyDict) (key : String)
    (h : key ∉ d.keysOf) : d.find key = Option.none := by
  induction d using PyDict.tailRec with
  | nil => rfl
  | cons k v rest ih =>
    rw [PyDict.keysOf, List.mem_cons] at h
    push_neg at h
    rw [PyDict.find, if_neg (fun hk => h.1 hk.symm)]
    exact ih h.2

lemma PyDict.not_mem_of_find_eq_none (d : PyDict) (key : String)
    (h : d.find key = Option.none) : key ∉ d.keysOf := by
  induction d using PyDict.tailRec with
  | nil => simp [PyDict.keysOf]
  | cons k v rest ih =>
    rw [PyDict.find] at h
    by_cases hk : k = key
    · rw [if_pos hk] at h; exact absurd h (by simp)
    · rw [if_neg hk] at h
      rw [PyDict.keysOf, List.mem_cons]
      push_neg
      exact ⟨fun he => hk he.symm, ih h⟩

lemma PyDict.set_eq_append (d : PyDict) (k : String) (v : PyVal)
    (h : d.find k = Option.none) :
    d.set k v = d.append (.cons k v .nil) := by
  induction d using PyDict.tailRec with
  | nil => rfl
  | cons k2 v2 rest ih =>
    rw [PyDict.find] at h
    by_cases hk : k2 = k
    · rw [if_pos hk] at h; exact absurd h (by simp)
    · rw [if_neg hk] at h
      show (PyDict.cons k2 v2 rest).set k v =
        PyDict.cons k2 v2 (rest.append (.cons k v .nil))
      rw [PyDict.set, if_neg hk, ih h]

lemma PyDict.set_append_single (d : PyDict) (k : String) (w w2 : PyVal)
    (h : d.find k = Option.none) :
    (d.append (.cons k w .nil)).set k w2 = d.append (.cons k w2 .nil) := by
  induction d using PyDict.tailRec with
  | nil => simp [PyDict.append, PyDict.set]
  | cons k2 v2 rest ih =>
    rw [PyDict.find] at h
    by_cases hk : k2 = k
    · rw [if_pos hk] at h; exact absurd h (by simp)
    · rw [if_neg hk] at h
      show (PyDict.cons k2 v2 (rest.append (.cons k w .nil))).set k w2 =
        PyDict.cons k2 v2 (rest.append (.cons k w2 .nil))
      rw [PyDict.set, if_neg hk, ih h]

lemma PyDict.set_find_self (d : PyDict) (k : String) (v : PyVal)
    (h : d.find k = some v) : d.set k v = d := by
  induction d using PyDict.tailRec with
  | nil => exact absurd h (by simp [PyDict.find])
  | cons k2 v2 rest ih =>
    rw [PyDict.find] at h
    by_cases hk : k2 = k
    · rw [if_pos hk] at h
      have hv : v2 = v := Option.some.inj h
      rw [PyDict.set, if_pos hk, hv]
    · rw [if_neg hk] at h
      rw [PyDict.set, if_neg hk, ih h]

lemma PyDict.find_append_single_self (d : PyDict) (k : String) (v : PyVal)
    (h : d.find k = Option.none) :
    (d.append (.cons k v .nil)).find k = some v := by
  rw [PyDict.find_append_of_none d _ k h, PyDict.find, if_pos rfl]

lemma PyDict.keysOf_append (a b : PyDict) :
    (a.append b).keysOf = a.keysOf ++ b.keysOf := by
  induction a using PyDict.tailRec with
  | nil => rfl
  | cons k v rest ih =>
    show (PyDict.cons k v (rest.append b)).keysOf = _
    rw [PyDict.keysOf, ih]
    rfl

lemma PyDict.toList_ofList (l : List (String × PyVal)) :
    (PyDict.ofList l).toList = l := by
  induction l with
  | nil => rfl
  | cons kv rest ih =>
    obtain ⟨k, v⟩ := kv
    show (PyDict.cons k v (PyDict.ofList rest)).toList = _
    rw [PyDict.toList, ih]

lemma PyDict.ofList_append (l1 l2 : List (String × PyVal)) :
    PyDict.ofList (l1 ++ l2) = (PyDict.ofList l1).append (PyDict.ofList l2) := by
  induction l1 with
  | nil => rfl
  | cons kv rest ih =>
    obtain ⟨k, v⟩ := kv
    show PyDict.ofList ((k, v) :: (rest ++ l2)) = _
    rw [PyDict.ofList, ih]
    rfl

lemma PyDict.keysOf_ofList (l : List (String × PyVal)) :
    (PyDict.ofList l).keysOf = l.map Prod.fst := by
  induction l with
  | nil => rfl
  | cons kv rest ih =>
    obtain ⟨k, v⟩ := kv
    show (PyDict.cons k v (PyDict.ofList rest)).keysOf = _
    rw [PyDict.keysOf, ih]
    rfl

lemma foldl_set_eq_append (items : List (String × PyVal)) :
    ∀ acc : PyDict, (∀ kv ∈ items, acc.find kv.1 = Option.none) →
      (items.map Prod.fst).Nodup →
      items.foldl (fun acc kv => acc.set kv.1 kv.2) acc =
        acc.append (PyDict.ofList items) := by
  induction items with
  | nil => intro acc _ _; exact (PyDict.append_nil acc).symm
  | cons kv rest ih =>
    intro acc hdisj hnd
    obtain ⟨k, v⟩ := kv
    rw [List.foldl_cons]
    have hk : acc.find k = Option.none := hdisj (k, v) (List.mem_cons_self _ _)
    have hset : acc.set k v = acc.append (.cons k v .nil) :=
      PyDict.set_eq_append acc k v hk
    rw [List.map_cons, List.nodup_cons] at hnd
    have hrest : ∀ kv2 ∈ rest, (acc.append (.cons k v .nil)).find kv2.1 =
        Option.none := by
      intro kv2 hm
      have h1 : acc.find kv2.1 = Option.none := hdisj kv2 (List.mem_cons_of_mem _ hm)
      rw [PyDict.find_append_of_none acc _ kv2.1 h1, PyDict.find]
      rw [if_neg]
      · rfl
      · intro he
        apply hnd.1
        rw [he]
        exact List.mem_map.mpr ⟨kv2, hm, rfl⟩
    rw [hset, ih _ hrest hnd.2, PyDict.append_assoc]
    rfl

lemma dictOfItems_eq_ofList (items : List (String × PyVal))
    (h : (items.map Prod.fst).Nodup) :
    dictOfItems items = PyDict.ofList items := by
  rw [dictOfItems, foldl_set_eq_append items .nil (fun _ _ => rfl) h]
  rfl

/-! ### Keys, paths and their dotted joins -/

lemma goodEntry_dict (gs : PyDict) : goodEntry (.dict gs) = goodRecord gs := rfl

lemma goodEntry_list (xs : PyList) : goodEntry (.list xs) = false := rfl

lemma goodEntry_dt (d : PyDateTime) : goodEntry (.dt d) = false := rfl

lemma goodRecord_parts (k : String) (v : PyVal) (rest : PyDict)
    (h : goodRecord (.cons k v rest) = true) :
    k ≠ "" ∧ '.' ∉ k.data ∧ k ∉ rest.keysOf ∧ goodRecord rest = true := by
  rw [goodRecord] at h
  simp only [Bool.and_eq_true, Bool.not_eq_true'] at h
  obtain ⟨⟨⟨⟨h1, h2⟩, h3⟩, _⟩, h5⟩ := h
  refine ⟨of_decide_eq_true h1, by simpa using h2, by simpa using h3, h5⟩

lemma goodRecord_entry (k : String) (v : PyVal) (rest : PyDict)
    (h : goodRecord (.cons k v rest) = true) : goodEntry v = true := by
  rw [goodRecord] at h
  simp only [Bool.and_eq_true] at h
  exact h.1.2

lemma goodRecord_dict (k : String) (gs : PyDict) (rest : PyDict)
    (h : goodRecord (.cons k (.dict gs) rest) = true) :
    goodRecord gs = true := by
  have := goodRecord_entry k _ rest h
  rwa [goodEntry_dict] at this

lemma goodRecord_not_list (k : String) (xs : PyList) (rest : PyDict)
    (h : goodRecord (.cons k (.list xs) rest) = true) : False := by
  have := goodRecord_entry k _ rest h
  rw [goodEntry_list] at this
  exact Bool.false_ne_true this

lemma goodRecord_not_dt (k : String) (d : PyDateTime) (rest : PyDict)
    (h : goodRecord (.cons k (.dt d) rest) = true) : False := by
  have := goodRecord_entry k _ rest h
  rw [goodEntry_dt] at this
  exact Bool.false_ne_true this

lemma splitD_no_dot (a : List Char) (h : '.' ∉ a) : splitD a = [a] := by
  induction a with
  | nil => rfl
  | cons c rest ih =>
    rw [List.mem_cons] at h
    push_neg at h
    have hr := ih h.2
    show (if c = '.' then [] :: splitD rest
      else (c :: (splitD rest).headI) :: (splitD rest).tail) = [c :: rest]
    rw [if_neg (fun he => h.1 he.symm), hr]
    rfl

lemma splitD_append_dot (a b : List Char) (h : '.' ∉ a) :
    splitD (a ++ '.' :: b) = a :: splitD b := by
  induction a with
  | nil =>
    show (if '.' = '.' then [] :: splitD b
      else (('.' :: (splitD b).headI) :: (splitD b).tail)) = [] :: splitD b
    rw [if_pos rfl]
  | cons c rest ih =>
    rw [List.mem_cons] at h
    push_neg at h
    have hr := ih h.2
    show (if c = '.' then [] :: splitD (rest ++ '.' :: b)
      else (c :: (splitD (rest ++ '.' :: b)).headI) ::
        (splitD (rest ++ '.' :: b)).tail) = (c :: rest) :: splitD b
    rw [if_neg (fun he => h.1 he.symm), hr]
    rfl

lemma partsOf_no_dot (k : String) (h1 : k ≠ "") (h2 : '.' ∉ k.data) :
    partsOf k = [k] := by
  rw [partsOf, pySplitDot, splitD_no_dot k.data h2]
  show List.filter _ [k] = [k]
  simp [h1]

lemma partsOf_pre (k key0 : String) (h1 : k ≠ "") (h2 : '.' ∉ k.data) :
    partsOf (k ++ "." ++ key0) = k :: partsOf key0 := by
  rw [partsOf, pySplitDot]
  have hd : (k ++ "." ++ key0).data = k.data ++ '.' :: key0.data := by
    simp [String.data_append]
  rw [hd, splitD_append_dot k.data key0.data h2, List.map_cons]
  show List.filter _ (k :: (splitD key0.data).map String.mk) = _
  rw [List.filter_cons, if_pos (by simp [h1])]
  rfl

lemma joinDot_cons (k : String) (p : List String) (h : p ≠ []) :
    joinDot (k :: p) = k ++ "." ++ joinDot p := by
  cases p with
  | nil => exact absurd rfl h
  | cons q r => rfl

lemma partsOf_joinDot (p : List String) (hne : p ≠ [])
    (h : ∀ k ∈ p, k ≠ "" ∧ '.' ∉ k.data) :
    partsOf (joinDot p) = p := by
  induction p with
  | nil => exact absurd rfl hne
  | cons k r ih =>
    have hk := h k (List.mem_cons_self _ _)
    cases r with
    | nil =>
      show partsOf k = [k]
      exact partsOf_no_dot k hk.1 hk.2
    | cons q s =>
      rw [joinDot_cons k (q :: s) (by simp),
        partsOf_pre _ _ hk.1 hk.2,
        ih (by simp) (fun x hx => h x (List.mem_cons_of_mem _ hx))]

/-! ### Structure of the flattened item list -/

lemma flattenItems_cons_dict (k : String) (gs rest : PyDict) (parent : String) :
    flattenItems "." (.cons k (.dict gs) rest) parent =
      flattenItems "." gs (if parent = "" then k else parent ++ "." ++ k) ++
        flattenItems "." rest parent := rfl

lemma flattenItems_cons_scalar (k : String) (v : PyVal) (rest : PyDict)
    (parent : String) (hd : ∀ gs, v ≠ .dict gs) (hl : ∀ xs, v ≠ .list xs) :
    flattenItems "." (.cons k v rest) parent =
      ((if parent = "" then k else parent ++ "." ++ k), v) ::
        flattenItems "." rest parent := by
  cases v with
  | dict gs => exact absurd rfl (hd gs)
  | list xs => exact absurd rfl (hl xs)
  | none => rfl
  | bool b => rfl
  | int i => rfl
  | float f => rfl
  | str s => rfl
  | dt d => rfl

lemma extend_ne_empty (parent k : String) : parent ++ "." ++ k ≠ "" := by
  intro he
  have : (parent ++ "." ++ k).data = [] := by rw [he]
  simp [String.data_append] at this

lemma flattenItems_parent : ∀ n fs parent, pySizeD fs ≤ n →
    goodRecord fs = true → parent ≠ "" →
    flattenItems "." fs parent =
      (flattenItems "." fs "").map (fun it => (parent ++ "." ++ it.1, it.2)) := by
  intro n
  induction n with
  | zero =>
    intro fs parent hsize _ _
    cases fs with
    | nil => rfl
    | cons k v rest => simp [pySizeD] at hsize
  | succ n ih =>
    intro fs parent hsize hgood hpar
    cases fs with
    | nil => rfl
    | cons k v rest =>
      obtain ⟨hk1, hk2, _, hrest⟩ := goodRecord_parts k v rest hgood
      simp only [pySizeD] at hsize
      have hrest2 : flattenItems "." rest parent =
          (flattenItems "." rest "").map (fun it => (parent ++ "." ++ it.1, it.2)) :=
        ih rest parent (by omega) hrest hpar
      cases v with
      | dict gs =>
        have hgs : pySizeD gs ≤ n := by simp [pySizeV] at hsize; omega
        have hgood2 := goodRecord_dict k gs rest hgood
        rw [flattenItems_cons_dict, flattenItems_cons_dict,
          if_neg hpar, if_pos rfl, List.map_append]
        have h1 : flattenItems "." gs (parent ++ "." ++ k) =
            (flattenItems "." gs "").map
              (fun it => ((parent ++ "." ++ k) ++ "." ++ it.1, it.2)) :=
          ih gs (parent ++ "." ++ k) hgs hgood2 (extend_ne_empty parent k)
        have h2 : flattenItems "." gs k =
            (flattenItems "." gs "").map (fun it => (k ++ "." ++ it.1, it.2)) :=
          ih gs k hgs hgood2 hk1
        have hfg : (fun it : String × PyVal =>
              ((parent ++ "." ++ k) ++ "." ++ it.1, it.2)) =
            ((fun it : String × PyVal => (parent ++ "." ++ it.1, it.2)) ∘
              fun it : String × PyVal => (k ++ "." ++ it.1, it.2)) := by
          funext it
          show ((parent ++ "." ++ k) ++ "." ++ it.1, it.2) =
            (parent ++ "." ++ (k ++ "." ++ it.1), it.2)
          simp only [String.append_assoc]
        rw [h1, h2, List.map_map, hrest2, hfg]
      | list xs => exact (goodRecord_not_list k xs rest hgood).elim
      | none =>
        rw [flattenItems_cons_scalar _ _ _ _ (by intro gs h; cases h)
            (by intro xs h; cases h),
          flattenItems_cons_scalar _ _ _ _ (by intro gs h; cases h)
            (by intro xs h; cases h),
          if_neg hpar, if_pos rfl, List.map_cons, hrest2]
      | bool b =>
        rw [flattenItems_cons_scalar _ _ _ _ (by intro gs h; cases h)
            (by intro xs h; cases h),
          flattenItems_cons_scalar _ _ _ _ (by intro gs h; cases h)
            (by intro xs h; cases h),
          if_neg hpar, if_pos rfl, List.map_cons, hrest2]
      | int i =>
        rw [flattenItems_cons_scalar _ _ _ _ (by intro gs h; cases h)
            (by intro xs h; cases h),
          flattenItems_cons_scalar _ _ _ _ (by intro gs h; cases h)
            (by intro xs h; cases h),
          if_neg hpar, if_pos rfl, List.map_cons, hrest2]
      | float f =>
        rw [flattenItems_cons_scalar _ _ _ _ (by intro gs h; cases h)
            (by intro xs h; cases h),
          flattenItems_cons_scalar _ _ _ _ (by intro gs h; cases h)
            (by intro xs h; cases h),
          if_neg hpar, if_pos rfl, List.map_cons, hrest2]
      | str s =>
        rw [flattenItems_cons_scalar _ _ _ _ (by intro gs h; cases h)
            (by intro xs h; cases h),
          flattenItems_cons_scalar _ _ _ _ (by intro gs h; cases h)
            (by intro xs h; cases h),
          if_neg hpar, if_pos rfl, List.map_cons, hrest2]
      | dt d => exact (goodRecord_not_dt k d rest hgood).elim

lemma leavesOf_cons_dict (k : String) (gs rest : PyDict) :
    leavesOf (.cons k (.dict gs) rest) =
      (leavesOf gs).map (fun pv => (k :: pv.1, pv.2)) ++ leavesOf rest := rfl

lemma leavesOf_cons_scalar (k : String) (v : PyVal) (rest : PyDict)
    (hd : ∀ gs, v ≠ .dict gs) :
    leavesOf (.cons k v rest) = ([k], v) :: leavesOf rest := by
  cases v with
  | dict gs => exact absurd rfl (hd gs)
  | none => rfl
  | bool b => rfl
  | int i => rfl
  | float f => rfl
  | str s => rfl
  | dt d => rfl
  | list xs => rfl

lemma leavesOf_path_ne_nil (fs : PyDict) :
    ∀ pv ∈ leavesOf fs, pv.1 ≠ [] := by
  induction fs using PyDict.tailRec with
  | nil => intro pv h; exact absurd h (by simp [leavesOf])
  | cons k v rest ih =>
    intro pv h
    cases v with
    | dict gs =>
      rw [leavesOf_cons_dict, List.mem_append] at h
      rcases h with h | h
      · obtain ⟨pv0, _, rfl⟩ := List.mem_map.mp h
        simp
      · exact ih pv h
    | none =>
      rw [leavesOf_cons_scalar _ _ _ (by intro gs hg; cases hg),
        List.mem_cons] at h
      rcases h with rfl | h
      · simp
      · exact ih pv h
    | bool b =>
      rw [leavesOf_cons_scalar _ _ _ (by intro gs hg; cases hg),
        List.mem_cons] at h
      rcases h with rfl | h
      · simp
      · exact ih pv h
    | int i =>
      rw [leavesOf_cons_scalar _ _ _ (by intro gs hg; cases hg),
        List.mem_cons] at h
      rcases h with rfl | h
      · simp
      · exact ih pv h
    | float f =>
      rw [leavesOf_cons_scalar _ _ _ (by intro gs hg; cases hg),
        List.mem_cons] at h
      rcases h with rfl | h
      · simp
      · exact ih pv h
    | str s =>
      rw [leavesOf_cons_scalar _ _ _ (by intro gs hg; cases hg),
        List.mem_cons] at h
      rcases h with rfl | h
      · simp
      · exact ih pv h
    | dt d =>
      rw [leavesOf_cons_scalar _ _ _ (by intro gs hg; cases hg),
        List.mem_cons] at h
      rcases h with rfl | h
      · simp
      · exact ih pv h
    | list xs =>
      rw [leavesOf_cons_scalar _ _ _ (by intro gs hg; cases hg),
        List.mem_cons] at h
      rcases h with rfl | h
      · simp
      · exact ih pv h

lemma leavesOf_head_mem (fs : PyDict) :
    ∀ pv ∈ leavesOf fs, pv.1.headI ∈ fs.keysOf := by
  induction fs using PyDict.tailRec with
  | nil => intro pv h; exact absurd h (by simp [leavesOf])
  | cons k v rest ih =>
    intro pv h
    have hmem : ∀ pv2 ∈ leavesOf rest, pv2.1.headI ∈
        (PyDict.cons k v rest).keysOf := by
      intro pv2 h2
      rw [PyDict.keysOf]
      exact List.mem_cons_of_mem _ (ih pv2 h2)
    cases v with
    | dict gs =>
      rw [leavesOf_cons_dict, List.mem_append] at h
      rcases h with h | h
      · obtain ⟨pv0, _, rfl⟩ := List.mem_map.mp h
        rw [PyDict.keysOf]
        exact List.mem_cons_self _ _
      · exact hmem pv h
    | none =>
      rw [leavesOf_cons_scalar _ _ _ (by intro gs hg; cases hg),
        List.mem_cons] at h
      rcases h with rfl | h
      · rw [PyDict.keysOf]; exact List.mem_cons_self _ _
      · exact hmem pv h
    | bool b =>
      rw [leavesOf_cons_scalar _ _ _ (by intro gs hg; cases hg),
        List.mem_cons] at h
      rcases h with rfl | h
      · rw [PyDict.keysOf]; exact List.mem_cons_self _ _
      · exact hmem pv h
    | int i =>
      rw [leavesOf_cons_scalar _ _ _ (by intro gs hg; cases hg),
        List.mem_cons] at h
      rcases h with rfl | h
      · rw [PyDict.keysOf]; exact List.mem_cons_self _ _
      · exact hmem pv h
    | float f =>
      rw [leavesOf_cons_scalar _ _ _ (by intro gs hg; cases hg),
        List.mem_cons] at h
      rcases h with rfl | h
      · rw [PyDict.keysOf]; exact List.mem_cons_self _ _
      · exact hmem pv h
    | str s =>
      rw [leavesOf_cons_scalar _ _ _ (by intro gs hg; cases hg),
        List.mem_cons] at h
      rcases h with rfl | h
      · rw [PyDict.keysOf]; exact List.mem_cons_self _ _
      · exact hmem pv h
    | dt d =>
      rw [leavesOf_cons_scalar _ _ _ (by intro gs hg; cases hg),
        List.mem_cons] at h
      rcases h with rfl | h
      · rw [PyDict.keysOf]; exact List.mem_cons_self _ _
      · exact hmem pv h
    | list xs =>
      rw [leavesOf_cons_scalar _ _ _ (by intro gs hg; cases hg),
        List.mem_cons] at h
      rcases h with rfl | h
      · rw [PyDict.keysOf]; exact List.mem_cons_self _ _
      · exact hmem pv h

lemma leavesOf_good : ∀ n fs, pySizeD fs ≤ n → goodRecord fs = true →
    ∀ pv ∈ leavesOf fs, ∀ k2 ∈ pv.1, k2 ≠ "" ∧ '.' ∉ k2.data := by
  intro n
  induction n with
  | zero =>
    intro fs hsize _
    cases fs with
    | nil => intro pv h; exact absurd h (by simp [leavesOf])
    | cons k v rest => simp [pySizeD] at hsize
  | succ n ih =>
    intro fs hsize hgood
    cases fs with
    | nil => intro pv h; exact absurd h (by simp [leavesOf])
    | cons k v rest =>
      obtain ⟨hk1, hk2, _, hrest⟩ := goodRecord_parts k v rest hgood
      simp only [pySizeD] at hsize
      intro pv h
      have hrest2 := ih rest (by omega) hrest
      cases v with
      | dict gs =>
        rw [leavesOf_cons_dict, List.mem_append] at h
        rcases h with h | h
        · obtain ⟨pv0, hpv0, rfl⟩ := List.mem_map.mp h
          intro k2 hk
          rcases List.mem_cons.mp hk with rfl | hk
          · exact ⟨hk1, hk2⟩
          · have hgs : pySizeD gs ≤ n := by simp [pySizeV] at hsize; omega
            exact ih gs hgs (goodRecord_dict k gs rest hgood) pv0 hpv0 k2 hk
        · exact hrest2 pv h
      | list xs => exact (goodRecord_not_list k xs rest hgood).elim
      | dt d => exact (goodRecord_not_dt k d rest hgood).elim
      | none =>
        rw [leavesOf_cons_scalar _ _ _ (by intro gs hg; cases hg),
          List.mem_cons] at h
        rcases h with rfl | h
        · intro k2 hk
          rcases List.mem_cons.mp hk with rfl | hk
          · exact ⟨hk1, hk2⟩
          · exact absurd hk (by simp)
        · exact hrest2 pv h
      | bool b =>
        rw [leavesOf_cons_scalar _ _ _ (by intro gs hg; cases hg),
          List.mem_cons] at h
        rcases h with rfl | h
        · intro k2 hk
          rcases List.mem_cons.mp hk with rfl | hk
          · exact ⟨hk1, hk2⟩
          · exact absurd hk (by simp)
        · exact hrest2 pv h
      | int i =>
        rw [leavesOf_cons_scalar _ _ _ (by intro gs hg; cases hg),
          List.mem_cons] at h
        rcases h with rfl | h
        · intro k2 hk
          rcases List.mem_cons.mp hk with rfl | hk
          · exact ⟨hk1, hk2⟩
          · exact absurd hk (by simp)
        · exact hrest2 pv h
      | float f =>
        rw [leavesOf_cons_scalar _ _ _ (by intro gs hg; cases hg),
          List.mem_cons] at h
        rcases h with rfl | h
        · intro k2 hk
          rcases List.mem_cons.mp hk with rfl | hk
          · exact ⟨hk1, hk2⟩
          · exact absurd hk (by simp)
        · exact hrest2 pv h
      | str s =>
        rw [leavesOf_cons_scalar _ _ _ (by intro gs hg; cases hg),
          List.mem_cons] at h
        rcases h with rfl | h
        · intro k2 hk
          rcases List.mem_cons.mp hk with rfl | hk
          · exact ⟨hk1, hk2⟩
          · exact absurd hk (by simp)
        · exact hrest2 pv h

lemma flattenItems_eq_leaves : ∀ n fs, pySizeD fs ≤ n →
    goodRecord fs = true →
    flattenItems "." fs "" =
      (leavesOf fs).map (fun pv => (joinDot pv.1, pv.2)) := by
  intro n
  induction n with
  | zero =>
    intro fs hsize _
    cases fs with
    | nil => rfl
    | cons k v rest => simp [pySizeD] at hsize
  | succ n ih =>
    intro fs hsize hgood
    cases fs with
    | nil => rfl
    | cons k v rest =>
      obtain ⟨hk1, hk2, _, hrest⟩ := goodRecord_parts k v rest hgood
      simp only [pySizeD] at hsize
      have hrest2 := ih rest (by omega) hrest
      cases v with
      | dict gs =>
        have hgs : pySizeD gs ≤ n := by simp [pySizeV] at hsize; omega
        have hgood2 := goodRecord_dict k gs rest hgood
        rw [flattenItems_cons_dict, if_pos rfl, leavesOf_cons_dict,
          List.map_append, hrest2,
          flattenItems_parent (pySizeD gs) gs k (Nat.le_refl _) hgood2 hk1,
          ih gs hgs hgood2, List.map_map, List.map_map]
        congr 1
        refine List.map_congr_left ?_
        intro pv hpv
        show (k ++ "." ++ joinDot pv.1, pv.2) = (joinDot (k :: pv.1), pv.2)
        rw [joinDot_cons k pv.1 (leavesOf_path_ne_nil gs pv hpv)]
      | list xs => exact (goodRecord_not_list k xs rest hgood).elim
      | dt d => exact (goodRecord_not_dt k d rest hgood).elim
      | none =>
        rw [flattenItems_cons_scalar _ _ _ _ (by intro gs hg; cases hg)
            (by intro xs hg; cases hg), if_pos rfl,
          leavesOf_cons_scalar _ _ _ (by intro gs hg; cases hg),
          List.map_cons, hrest2]
        rfl
      | bool b =>
        rw [flattenItems_cons_scalar _ _ _ _ (by intro gs hg; cases hg)
            (by intro xs hg; cases hg), if_pos rfl,
          leavesOf_cons_scalar _ _ _ (by intro gs hg; cases hg),
          List.map_cons, hrest2]
        rfl
      | int i =>
        rw [flattenItems_cons_scalar _ _ _ _ (by intro gs hg; cases hg)
            (by intro xs hg; cases hg), if_pos rfl,
          leavesOf_cons_scalar _ _ _ (by intro gs hg; cases hg),
          List.map_cons, hrest2]
        rfl
      | float f =>
        rw [flattenItems_cons_scalar _ _ _ _ (by intro gs hg; cases hg)
            (by intro xs hg; cases hg), if_pos rfl,
          leavesOf_cons_scalar _ _ _ (by intro gs hg; cases hg),
          List.map_cons, hrest2]
        rfl
      | str s =>
        rw [flattenItems_cons_scalar _ _ _ _ (by intro gs hg; cases hg)
            (by intro xs hg; cases hg), if_pos rfl,
          leavesOf_cons_scalar _ _ _ (by intro gs hg; cases hg),
          List.map_cons, hrest2]
        rfl

lemma leavesOf_paths_nodup : ∀ n fs, pySizeD fs ≤ n →
    goodRecord fs = true → ((leavesOf fs).map Prod.fst).Nodup := by
  intro n
  induction n with
  | zero =>
    intro fs hsize _
    cases fs with
    | nil => simp [leavesOf]
    | cons k v rest => simp [pySizeD] at hsize
  | succ n ih =>
    intro fs hsize hgood
    cases fs with
    | nil => simp [leavesOf]
    | cons k v rest =>
      obtain ⟨hk1, hk2, hknotin, hrest⟩ := goodRecord_parts k v rest hgood
      simp only [pySizeD] at hsize
      have hrest2 := ih rest (by omega) hrest
      have hheadrest : ∀ p ∈ (leavesOf rest).map Prod.fst,
          p.headI ∈ rest.keysOf := by
        intro p hp
        obtain ⟨pv, hpv, rfl⟩ := List.mem_map.mp hp
        exact leavesOf_head_mem rest pv hpv
      cases v with
      | dict gs =>
        have hgs : pySizeD gs ≤ n := by simp [pySizeV] at hsize; omega
        have hgood2 := goodRecord_dict k gs rest hgood
        rw [leavesOf_cons_dict, List.map_append, List.map_map,
          List.nodup_append]
        refine ⟨?_, hrest2, ?_⟩
        · have heq : (leavesOf gs).map (Prod.fst ∘ fun pv => (k :: pv.1, pv.2)) =
              ((leavesOf gs).map Prod.fst).map (fun p => k :: p) := by
            rw [List.map_map]
            rfl
          rw [heq]
          refine List.Nodup.map ?_ (ih gs hgs hgood2)
          intro a b hab
          simpa using hab
        · intro p hp hp2
          obtain ⟨pv, _, rfl⟩ := List.mem_map.mp hp
          have hh := hheadrest _ hp2
          have he : ((Prod.fst ∘ fun pv => (k :: pv.1, pv.2)) pv).headI = k := rfl
          rw [he] at hh
          exact hknotin hh
      | list xs => exact (goodRecord_not_list k xs rest hgood).elim
      | dt d => exact (goodRecord_not_dt k d rest hgood).elim
      | none =>
        rw [leavesOf_cons_scalar _ _ _ (by intro gs hg; cases hg),
          List.map_cons, List.nodup_cons]
        refine ⟨?_, hrest2⟩
        intro hin
        have := hheadrest _ hin
        simp only [List.headI] at this
        exact hknotin this
      | bool b =>
        rw [leavesOf_cons_scalar _ _ _ (by intro gs hg; cases hg),
          List.map_cons, List.nodup_cons]
        refine ⟨?_, hrest2⟩
        intro hin
        have := hheadrest _ hin
        simp only [List.headI] at this
        exact hknotin this
      | int i =>
        rw [leavesOf_cons_scalar _ _ _ (by intro gs hg; cases hg),
          List.map_cons, List.nodup_cons]
        refine ⟨?_, hrest2⟩
        intro hin
        have := hheadrest _ hin
        simp only [List.headI] at this
        exact hknotin this
      | float f =>
        rw [leavesOf_cons_scalar _ _ _ (by intro gs hg; cases hg),
          List.map_cons, List.nodup_cons]
        refine ⟨?_, hrest2⟩
        intro hin
        have := hheadrest _ hin
        simp only [List.headI] at this
        exact hknotin this
      | str s =>
        rw [leavesOf_cons_scalar _ _ _ (by intro gs hg; cases hg),
          List.map_cons, List.nodup_cons]
        refine ⟨?_, hrest2⟩
        intro hin
        have := hheadrest _ hin
        simp only [List.headI] at this
        exact hknotin this

lemma flattenItems_keys_nodup (fs : PyDict) (hgood : goodRecord fs = true) :
    ((flattenItems "." fs "").map Prod.fst).Nodup := by
  rw [flattenItems_eq_leaves (pySizeD fs) fs (Nat.le_refl _) hgood,
    List.map_map]
  have hpaths := leavesOf_paths_nodup (pySizeD fs) fs (Nat.le_refl _) hgood
  have : (leavesOf fs).map (Prod.fst ∘ fun pv => (joinDot pv.1, pv.2)) =
      ((leavesOf fs).map Prod.fst).map joinDot := by
    rw [List.map_map]
    rfl
  rw [this]
  refine hpaths.map_on ?_
  intro p1 hp1 p2 hp2 hj
  obtain ⟨pv1, hpv1, rfl⟩ := List.mem_map.mp hp1
  obtain ⟨pv2, hpv2, rfl⟩ := List.mem_map.mp hp2
  have h1 := partsOf_joinDot pv1.1 (leavesOf_path_ne_nil fs pv1 hpv1)
    (leavesOf_good (pySizeD fs) fs (Nat.le_refl _) hgood pv1 hpv1)
  have h2 := partsOf_joinDot pv2.1 (leavesOf_path_ne_nil fs pv2 hpv2)
    (leavesOf_good (pySizeD fs) fs (Nat.le_refl _) hgood pv2 hpv2)
  rw [← h1, ← h2, hj]

lemma flatten_dict_eq_items (fs : PyDict) (hgood : goodRecord fs = true) :
    flatten_dict fs = flattenItems "." fs "" := by
  rw [flatten_dict,
    dictOfItems_eq_ofList _ (flattenItems_keys_nodup fs hgood),
    PyDict.toList_ofList]

/-! ### The unflatten fold on structured item lists -/

lemma PyDict.find_set_self (d : PyDict) (k : String) (v : PyVal) :
    (d.set k v).find k = some v := by
  induction d using PyDict.tailRec with
  | nil => show (PyDict.cons k v .nil).find k = some v; rw [PyDict.find, if_pos rfl]
  | cons k2 v2 rest ih =>
    by_cases hk : k2 = k
    · rw [PyDict.set, if_pos hk, PyDict.find, if_pos hk]
    · rw [PyDict.set, if_neg hk, PyDict.find, if_neg hk]
      exact ih

lemma PyDict.set_set (d : PyDict) (k : String) (w w2 : PyVal) :
    (d.set k w).set k w2 = d.set k w2 := by
  induction d using PyDict.tailRec with
  | nil =>
    show (PyDict.cons k w .nil).set k w2 = PyDict.cons k w2 .nil
    rw [PyDict.set, if_pos rfl]
  | cons k2 v2 rest ih =>
    by_cases hk : k2 = k
    · rw [PyDict.set, if_pos hk]
      show (PyDict.cons k2 w rest).set k w2 = _
      rw [PyDict.set, if_pos hk, PyDict.set, if_pos hk]
    · rw [PyDict.set, if_neg hk]
      show (PyDict.cons k2 v2 (rest.set k w)).set k w2 = _
      rw [PyDict.set, if_neg hk, ih, PyDict.set, if_neg hk]

lemma PyDict.set_ne_nil (d : PyDict) (k : String) (v : PyVal) :
    d.set k v ≠ .nil := by
  cases d with
  | nil => intro h; cases h
  | cons k2 v2 rest =>
    rw [PyDict.set]
    by_cases hk : k2 = k
    · rw [if_pos hk]; intro h; cases h
    · rw [if_neg hk]; intro h; cases h

lemma PyDict.append_single_ne_nil (d : PyDict) (k : String) (v : PyVal) :
    d.append (.cons k v .nil) ≠ .nil := by
  cases d with
  | nil => intro h; cases h
  | cons k2 v2 rest => intro h; cases h

lemma setPath_single (fields : PyDict) (last : String) (v : PyVal) :
    setPath fields [last] v = .ok (fields.set last v) := rfl

lemma setPath_cons2 (fields : PyDict) (p r1 : String) (rs : List String)
    (v : PyVal) :
    setPath fields (p :: r1 :: rs) v =
      (match fields.find p with
       | some (.dict gs) =>
         match setPath gs (r1 :: rs) v with
         | .ok gs2 => .ok (fields.set p (.dict gs2))
         | .error e => .error e
       | some _ =>
         match rs with
         | [] => .error .typeError
         | _ => .error .attributeError
       | Option.none =>
         match setPath .nil (r1 :: rs) v with
         | .ok gs2 => .ok (fields.append (.cons p (.dict gs2) .nil))
         | .error e => .error e) := rfl

lemma unflattenStep_none (acc : PyDict) (k : String) :
    unflattenStep acc (k, .none) = .ok acc := rfl

lemma unflattenStep_val_nilparts (acc : PyDict) (k : String) (v : PyVal)
    (hv : v ≠ .none) (hp : partsOf k = []) :
    unflattenStep acc (k, v) = .ok acc := by
  cases v with
  | none => exact absurd rfl hv
  | bool b =>
    show (match partsOf k with
      | [] => Except.ok acc
      | parts => setPath acc parts (.bool b)) = .ok acc
    rw [hp]
  | int i =>
    show (match partsOf k with
      | [] => Except.ok acc
      | parts => setPath acc parts (.int i)) = .ok acc
    rw [hp]
  | float f =>
    show (match partsOf k with
      | [] => Except.ok acc
      | parts => setPath acc parts (.float f)) = .ok acc
    rw [hp]
  | str s =>
    show (match partsOf k with
      | [] => Except.ok acc
      | parts => setPath acc parts (.str s)) = .ok acc
    rw [hp]
  | dt d =>
    show (match partsOf k with
      | [] => Except.ok acc
      | parts => setPath acc parts (.dt d)) = .ok acc
    rw [hp]
  | list xs =>
    show (match partsOf k with
      | [] => Except.ok acc
      | parts => setPath acc parts (.list xs)) = .ok acc
    rw [hp]
  | dict gs =>
    show (match partsOf k with
      | [] => Except.ok acc
      | parts => setPath acc parts (.dict gs)) = .ok acc
    rw [hp]

lemma unflattenStep_val_parts (acc : PyDict) (k : String) (v : PyVal)
    (hv : v ≠ .none) (p : String) (ps : List String)
    (hp : partsOf k = p :: ps) :
    unflattenStep acc (k, v) = setPath acc (p :: ps) v := by
  cases v with
  | none => exact absurd rfl hv
  | bool b =>
    show (match partsOf k with
      | [] => Except.ok acc
      | parts => setPath acc parts (.bool b)) = _
    rw [hp]
  | int i =>
    show (match partsOf k with
      | [] => Except.ok acc
      | parts => setPath acc parts (.int i)) = _
    rw [hp]
  | float f =>
    show (match partsOf k with
      | [] => Except.ok acc
      | parts => setPath acc parts (.float f)) = _
    rw [hp]
  | str s =>
    show (match partsOf k with
      | [] => Except.ok acc
      | parts => setPath acc parts (.str s)) = _
    rw [hp]
  | dt d =>
    show (match partsOf k with
      | [] => Except.ok acc
      | parts => setPath acc parts (.dt d)) = _
    rw [hp]
  | list xs =>
    show (match partsOf k with
      | [] => Except.ok acc
      | parts => setPath acc parts (.list xs)) = _
    rw [hp]
  | dict gs =>
    show (match partsOf k with
      | [] => Except.ok acc
      | parts => setPath acc parts (.dict gs)) = _
    rw [hp]

lemma setPath_nil_ok : ∀ (parts : List String) (v : PyVal), parts ≠ [] →
    ∃ g, setPath .nil parts v = .ok g ∧ g ≠ .nil := by
  intro parts
  induction parts with
  | nil => intro v h; exact absurd rfl h
  | cons p rest ih =>
    intro v _
    cases rest with
    | nil =>
      refine ⟨PyDict.nil.set p v, setPath_single _ _ _, PyDict.set_ne_nil _ _ _⟩
    | cons r1 rs =>
      obtain ⟨g, hg, _⟩ := ih v (by simp)
      refine ⟨.cons p (.dict g) .nil, ?_, by intro h; cases h⟩
      rw [setPath_cons2]
      show (match (PyDict.nil : PyDict).find p with
        | some (.dict gs) =>
          match setPath gs (r1 :: rs) v with
          | .ok gs2 => Except.ok ((PyDict.nil : PyDict).set p (.dict gs2))
          | .error e => Except.error e
        | some _ =>
          match rs with
          | [] => Except.error .typeError
          | _ => Except.error .attributeError
        | Option.none =>
          match setPath .nil (r1 :: rs) v with
          | .ok gs2 =>
            Except.ok ((PyDict.nil : PyDict).append (.cons p (.dict gs2) .nil))
          | .error e => Except.error e) = Except.ok (.cons p (.dict g) .nil)
      rw [show (PyDict.nil : PyDict).find p = Option.none from rfl]
      rw [hg]
      rfl

lemma setPath_result_ne_nil : ∀ (parts : List String) (fields : PyDict)
    (v : PyVal) (g : PyDict), parts ≠ [] → setPath fields parts v = .ok g →
    g ≠ .nil := by
  intro parts
  cases parts with
  | nil => intro _ _ _ h; exact absurd rfl h
  | cons p rest =>
    cases rest with
    | nil =>
      intro fields v g _ h
      rw [setPath_single] at h
      have := Except.ok.inj h
      rw [← this]
      exact PyDict.set_ne_nil _ _ _
    | cons r1 rs =>
      intro fields v g _ h
      rw [setPath_cons2] at h
      rcases hf : fields.find p with _ | w
      · rw [hf] at h
        dsimp only at h
        rcases hs : setPath .nil (r1 :: rs) v with e | gs2
        · rw [hs] at h; exact Except.noConfusion h
        · rw [hs] at h
          dsimp only at h
          have := Except.ok.inj h
          rw [← this]
          exact PyDict.append_single_ne_nil _ _ _
      · rw [hf] at h
        cases w with
        | dict gs =>
          dsimp only at h
          rcases hs : setPath gs (r1 :: rs) v with e | gs2
          · rw [hs] at h; exact Except.noConfusion h
          · rw [hs] at h
            dsimp only at h
            have := Except.ok.inj h
            rw [← this]
            exact PyDict.set_ne_nil _ _ _
        | none => dsimp only at h; cases rs <;> exact Except.noConfusion h
        | bool b => dsimp only at h; cases rs <;> exact Except.noConfusion h
        | int i => dsimp only at h; cases rs <;> exact Except.noConfusion h
        | float f => dsimp only at h; cases rs <;> exact Except.noConfusion h
        | str s => dsimp only at h; cases rs <;> exact Except.noConfusion h
        | dt d => dsimp only at h; cases rs <;> exact Except.noConfusion h
        | list xs => dsimp only at h; cases rs <;> exact Except.noConfusion h

lemma unflattenStep_ne_nil (acc : PyDict) (kv : String × PyVal)
    (acc2 : PyDict) (h1 : acc ≠ .nil)
    (h : unflattenStep acc kv = .ok acc2) : acc2 ≠ .nil := by
  obtain ⟨k, v⟩ := kv
  by_cases hv : v = PyVal.none
  · subst hv
    rw [unflattenStep_none] at h
    have := Except.ok.inj h
    rw [← this]
    exact h1
  · rcases hp : partsOf k with _ | ⟨p, ps⟩
    · rw [unflattenStep_val_nilparts acc k v hv hp] at h
      have := Except.ok.inj h
      rw [← this]
      exact h1
    · rw [unflattenStep_val_parts acc k v hv p ps hp] at h
      exact setPath_result_ne_nil (p :: ps) acc v acc2 (by simp) h

lemma unflattenF_ne_nil : ∀ (items : List (String × PyVal)) (acc g : PyDict),
    acc ≠ .nil → items.foldlM unflattenStep acc = .ok g → g ≠ .nil := by
  intro items
  induction items with
  | nil =>
    intro acc g h1 h
    have : (Except.ok acc : Except PyErr PyDict) = .ok g := h
    have := Except.ok.inj this
    rw [← this]
    exact h1
  | cons kv rest ih =>
    intro acc g h1 h
    rw [List.foldlM_cons] at h
    rcases hs : unflattenStep acc kv with e | acc2
    · rw [hs] at h; exact Except.noConfusion h
    · rw [hs] at h
      have h2 : rest.foldlM unflattenStep acc2 = .ok g := h
      exact ih acc2 g (unflattenStep_ne_nil acc kv acc2 h1 hs) h2

lemma unflattenF_under (k : String) (hk1 : k ≠ "") (hk2 : '.' ∉ k.data) :
    ∀ (items0 : List (String × PyVal)) (acc g : PyDict),
      (∀ it ∈ items0, partsOf it.1 ≠ []) →
      acc.find k = some (.dict g) →
      (items0.map (fun it => (k ++ "." ++ it.1, it.2))).foldlM
          unflattenStep acc =
        (match items0.foldlM unflattenStep g with
         | .ok g2 => .ok (acc.set k (.dict g2))
         | .error e => .error e) := by
  intro items0
  induction items0 with
  | nil =>
    intro acc g _ hfind
    show (Except.ok acc : Except PyErr PyDict) =
      Except.ok (acc.set k (.dict g))
    rw [PyDict.set_find_self acc k (.dict g) hfind]
  | cons it rest ih =>
    intro acc g hparts hfind
    obtain ⟨key0, v⟩ := it
    have hsub : ∀ it2 ∈ rest, partsOf it2.1 ≠ [] :=
      fun it2 hit => hparts it2 (List.mem_cons_of_mem _ hit)
    rw [List.map_cons, List.foldlM_cons, List.foldlM_cons]
    by_cases hv : v = PyVal.none
    · subst hv
      rw [unflattenStep_none, unflattenStep_none]
      exact ih acc g hsub hfind
    · rcases hp : partsOf key0 with _ | ⟨p0, ps0⟩
      · exact absurd hp (hparts (key0, v) (List.mem_cons_self _ _))
      · have hkey : partsOf (k ++ "." ++ key0) = k :: p0 :: ps0 := by
          rw [partsOf_pre k key0 hk1 hk2, hp]
        rw [unflattenStep_val_parts acc _ v hv k (p0 :: ps0) hkey,
          unflattenStep_val_parts g key0 v hv p0 ps0 hp,
          setPath_cons2, hfind]
        dsimp only
        rcases hsp : setPath g (p0 :: ps0) v with e | g2
        · rfl
        · have hih := ih (acc.set k (.dict g2)) g2 hsub
            (PyDict.find_set_self acc k (.dict g2))
          refine hih.trans ?_
          show (match rest.foldlM unflattenStep g2 with
            | .ok g3 => Except.ok ((acc.set k (.dict g2)).set k (.dict g3))
            | .error e => (Except.error e : Except PyErr PyDict)) =
            (match rest.foldlM unflattenStep g2 with
            | .ok g3 => Except.ok (acc.set k (.dict g3))
            | .error e => Except.error e)
          rcases hr : rest.foldlM unflattenStep g2 with e | g3
          · rfl
          · show Except.ok ((acc.set k (.dict g2)).set k (.dict g3)) =
              Except.ok (acc.set k (.dict g3))
            rw [PyDict.set_set]

lemma unflattenF_fresh (k : String) (hk1 : k ≠ "") (hk2 : '.' ∉ k.data) :
    ∀ (items0 : List (String × PyVal)) (acc : PyDict),
      (∀ it ∈ items0, partsOf it.1 ≠ []) →
      acc.find k = Option.none →
      (items0.map (fun it => (k ++ "." ++ it.1, it.2))).foldlM
          unflattenStep acc =
        (match items0.foldlM unflattenStep (.nil : PyDict) with
         | .ok .nil => .ok acc
         | .ok g2 => .ok (acc.append (.cons k (.dict g2) .nil))
         | .error e => .error e) := by
  intro items0
  induction items0 with
  | nil =>
    intro acc _ _
    rfl
  | cons it rest ih =>
    intro acc hparts hfind
    obtain ⟨key0, v⟩ := it
    have hsub : ∀ it2 ∈ rest, partsOf it2.1 ≠ [] :=
      fun it2 hit => hparts it2 (List.mem_cons_of_mem _ hit)
    rw [List.map_cons, List.foldlM_cons, List.foldlM_cons]
    by_cases hv : v = PyVal.none
    · subst hv
      rw [unflattenStep_none, unflattenStep_none]
      exact ih acc hsub hfind
    · rcases hp : partsOf key0 with _ | ⟨p0, ps0⟩
      · exact absurd hp (hparts (key0, v) (List.mem_cons_self _ _))
      · have hkey : partsOf (k ++ "." ++ key0) = k :: p0 :: ps0 := by
          rw [partsOf_pre k key0 hk1 hk2, hp]
        obtain ⟨g0, hg0, hg0ne⟩ := setPath_nil_ok (p0 :: ps0) v (by simp)
        rw [unflattenStep_val_parts acc _ v hv k (p0 :: ps0) hkey,
          unflattenStep_val_parts .nil key0 v hv p0 ps0 hp,
          setPath_cons2, hfind]
        dsimp only
        rw [hg0]
        dsimp only
        have hfind2 : (acc.append (.cons k (.dict g0) .nil)).find k =
            some (.dict g0) := PyDict.find_append_single_self acc k _ hfind
        have hih := unflattenF_under k hk1 hk2 rest
          (acc.append (.cons k (.dict g0) .nil)) g0 hsub hfind2
        refine hih.trans ?_
        show (match rest.foldlM unflattenStep g0 with
          | .ok g3 =>
            Except.ok ((acc.append (.cons k (.dict g0) .nil)).set k (.dict g3))
          | .error e => (Except.error e : Except PyErr PyDict)) =
          (match rest.foldlM unflattenStep g0 with
          | .ok .nil => Except.ok acc
          | .ok g2 => Except.ok (acc.append (.cons k (.dict g2) .nil))
          | .error e => Except.error e)
        rcases hr : rest.foldlM unflattenStep g0 with e | g3
        · rfl
        · have hg3ne : g3 ≠ .nil := unflattenF_ne_nil rest g0 g3 hg0ne hr
          cases g3 with
          | nil => exact absurd rfl hg3ne
          | cons k3 v3 r3 =>
            show Except.ok ((acc.append (.cons k (.dict g0) .nil)).set k
                (.dict (.cons k3 v3 r3))) =
              Except.ok (acc.append (.cons k (.dict (.cons k3 v3 r3)) .nil))
            rw [PyDict.set_append_single acc k _ _ hfind]

/-! ### The pruned record and the round trip -/

lemma pruneEntry_none : pruneEntry .none = Option.none := rfl

lemma pruneEntry_dict (gs : PyDict) :
    pruneEntry (.dict gs) =
      (match pruneD gs with
       | .nil => Option.none
       | gs2 => some (.dict gs2)) := rfl

lemma pruneEntry_scalar (v : PyVal) (hn : v ≠ .none)
    (hd : ∀ gs, v ≠ .dict gs) : pruneEntry v = some v := by
  cases v with
  | none => exact absurd rfl hn
  | dict gs => exact absurd rfl (hd gs)
  | bool b => rfl
  | int i => rfl
  | float f => rfl
  | str s => rfl
  | dt d => rfl
  | list xs => rfl

lemma pruneD_cons (k : String) (v : PyVal) (rest : PyDict) :
    pruneD (.cons k v rest) =
      (match pruneEntry v with
       | Option.none => pruneD rest
       | some w => .cons k w (pruneD rest)) := rfl

lemma flattenItems_parts_ne_nil (gs : PyDict) (hgood : goodRecord gs = true) :
    ∀ it ∈ flattenItems "." gs "", partsOf it.1 ≠ [] := by
  rw [flattenItems_eq_leaves (pySizeD gs) gs (Nat.le_refl _) hgood]
  intro it hit
  obtain ⟨pv, hpv, rfl⟩ := List.mem_map.mp hit
  show partsOf (joinDot pv.1) ≠ []
  rw [partsOf_joinDot pv.1 (leavesOf_path_ne_nil gs pv hpv)
    (leavesOf_good (pySizeD gs) gs (Nat.le_refl _) hgood pv hpv)]
  exact leavesOf_path_ne_nil gs pv hpv

lemma disj_after_single (acc : PyDict) (k : String) (v : PyVal)
    (rest : PyDict) (hknotin : k ∉ rest.keysOf)
    (hdisjrest : ∀ key ∈ rest.keysOf, acc.find key = Option.none) :
    ∀ key ∈ rest.keysOf,
      (acc.append (.cons k v .nil)).find key = Option.none := by
  intro key hkey
  rw [PyDict.find_append_of_none _ _ _ (hdisjrest key hkey), PyDict.find,
    if_neg (fun he => hknotin (by rw [he]; exact hkey))]
  rfl

lemma main_scalar_case (k : String) (v : PyVal) (rest : PyDict)
    (acc : PyDict) (hk1 : k ≠ "") (hk2 : '.' ∉ k.data)
    (hvn : v ≠ .none) (hvd : ∀ gs, v ≠ .dict gs) (hvl : ∀ xs, v ≠ .list xs)
    (hk' : acc.find k = Option.none)
    (hrest : (flattenItems "." rest "").foldlM unflattenStep
        (acc.append (.cons k v .nil)) =
      .ok ((acc.append (.cons k v .nil)).append (pruneD rest))) :
    (flattenItems "." (.cons k v rest) "").foldlM unflattenStep acc =
      .ok (acc.append (pruneD (.cons k v rest))) := by
  rw [flattenItems_cons_scalar k v rest "" hvd hvl, if_pos rfl,
    List.foldlM_cons,
    unflattenStep_val_parts acc k v hvn k [] (partsOf_no_dot k hk1 hk2),
    setPath_single, PyDict.set_eq_append acc k v hk']
  refine hrest.trans ?_
  rw [PyDict.append_assoc]
  have h2 : pruneD (.cons k v rest) = .cons k v (pruneD rest) := by
    rw [pruneD_cons, pruneEntry_scalar v hvn hvd]
  rw [h2]
  rfl

lemma unflatten_flatten_main : ∀ n fs, pySizeD fs ≤ n →
    goodRecord fs = true →
    ∀ acc : PyDict, (∀ key ∈ fs.keysOf, acc.find key = Option.none) →
      (flattenItems "." fs "").foldlM unflattenStep acc =
        .ok (acc.append (pruneD fs)) := by
  intro n
  induction n with
  | zero =>
    intro fs hsize _
    cases fs with
    | nil =>
      intro acc _
      show (Except.ok acc : Except PyErr PyDict) = .ok (acc.append .nil)
      rw [PyDict.append_nil]
    | cons k v rest => simp [pySizeD] at hsize
  | succ n ih =>
    intro fs hsize hgood acc hdisj
    cases fs with
    | nil =>
      show (Except.ok acc : Except PyErr PyDict) = .ok (acc.append .nil)
      rw [PyDict.append_nil]
    | cons k v rest =>
      obtain ⟨hk1, hk2, hknotin, hrest⟩ := goodRecord_parts k v rest hgood
      simp only [pySizeD] at hsize
      have hk' : acc.find k = Option.none :=
        hdisj k (by rw [PyDict.keysOf]; exact List.mem_cons_self _ _)
      have hdisjrest : ∀ key ∈ rest.keysOf, acc.find key = Option.none :=
        fun key hkey =>
          hdisj key (by rw [PyDict.keysOf]; exact List.mem_cons_of_mem _ hkey)
      cases v with
      | none =>
        rw [flattenItems_cons_scalar k PyVal.none rest ""
            (by intro gs h; cases h) (by intro xs h; cases h),
          if_pos rfl, List.foldlM_cons, unflattenStep_none]
        refine (ih rest (by omega) hrest acc hdisjrest).trans ?_
        have h1 : pruneD (.cons k PyVal.none rest) = pruneD rest := rfl
        rw [h1]
      | bool b =>
        exact main_scalar_case k (.bool b) rest acc hk1 hk2
          (by intro h; cases h) (by intro gs h; cases h)
          (by intro xs h; cases h) hk'
          (ih rest (by omega) hrest _
            (disj_after_single acc k (.bool b) rest hknotin hdisjrest))
      | int i =>
        exact main_scalar_case k (.int i) rest acc hk1 hk2
          (by intro h; cases h) (by intro gs h; cases h)
          (by intro xs h; cases h) hk'
          (ih rest (by omega) hrest _
            (disj_after_single acc k (.int i) rest hknotin hdisjrest))
      | float f =>
        exact main_scalar_case k (.float f) rest acc hk1 hk2
          (by intro h; cases h) (by intro gs h; cases h)
          (by intro xs h; cases h) hk'
          (ih rest (by omega) hrest _
            (disj_after_single acc k (.float f) rest hknotin hdisjrest))
      | str s =>
        exact main_scalar_case k (.str s) rest acc hk1 hk2
          (by intro h; cases h) (by intro gs h; cases h)
          (by intro xs h; cases h) hk'
          (ih rest (by omega) hrest _
            (disj_after_single acc k (.str s) rest hknotin hdisjrest))
      | list xs => exact (goodRecord_not_list k xs rest hgood).elim
      | dt d => exact (goodRecord_not_dt k d rest hgood).elim
      | dict gs =>
        have hgs : pySizeD gs ≤ n := by simp [pySizeV] at hsize; omega
        have hgood2 := goodRecord_dict k gs rest hgood
        rw [flattenItems_cons_dict, if_pos rfl,
          flattenItems_parent (pySizeD gs) gs k (Nat.le_refl _) hgood2 hk1,
          List.foldlM_append,
          unflattenF_fresh k hk1 hk2 (flattenItems "." gs "") acc
            (flattenItems_parts_ne_nil gs hgood2) hk']
        have hinner : (flattenItems "." gs "").foldlM unflattenStep
            (.nil : PyDict) = .ok (pruneD gs) :=
          ih gs hgs hgood2 .nil (fun key _ => rfl)
        rw [hinner]
        rcases hpr : pruneD gs with _ | ⟨k2, v2, g2⟩
        · refine (ih rest (by omega) hrest acc hdisjrest).trans ?_
          have h2 : pruneD (.cons k (.dict gs) rest) = pruneD rest := by
            rw [pruneD_cons, pruneEntry_dict, hpr]
          rw [h2]
        · refine (ih rest (by omega) hrest _
            (disj_after_single acc k (.dict (.cons k2 v2 g2)) rest hknotin
              hdisjrest)).trans ?_
          rw [PyDict.append_assoc]
          have h2 : pruneD (.cons k (.dict gs) rest) =
              .cons k (.dict (.cons k2 v2 g2)) (pruneD rest) := by
            rw [pruneD_cons, pruneEntry_dict, hpr]
          rw [h2]
          rfl

lemma leavesOf_pruneD : ∀ n fs, pySizeD fs ≤ n →
    leavesOf (pruneD fs) = nonNullLeaves fs := by
  intro n
  induction n with
  | zero =>
    intro fs hsize
    cases fs with
    | nil => rfl
    | cons k v rest => simp [pySizeD] at hsize
  | succ n ih =>
    intro fs hsize
    cases fs with
    | nil => rfl
    | cons k v rest =>
      simp only [pySizeD] at hsize
      have hrest := ih rest (by omega)
      cases v with
      | none =>
        have h1 : pruneD (.cons k PyVal.none rest) = pruneD rest := rfl
        rw [h1, hrest]
        show nonNullLeaves rest = nonNullLeaves (.cons k PyVal.none rest)
        rw [nonNullLeaves, nonNullLeaves,
          leavesOf_cons_scalar k PyVal.none rest (by intro gs h; cases h),
          List.filter_cons, if_neg (by exact Bool.false_ne_true)]
      | dict gs =>
        have hgs := ih gs (by simp [pySizeV] at hsize; omega)
        rcases hpr : pruneD gs with _ | ⟨k2, v2, g2⟩
        · have h1 : pruneD (.cons k (.dict gs) rest) = pruneD rest := by
            rw [pruneD_cons, pruneEntry_dict, hpr]
          rw [h1, hrest]
          show nonNullLeaves rest = nonNullLeaves (.cons k (.dict gs) rest)
          have hz : (leavesOf gs).filter
              ((fun pv : List String × PyVal => !pv.2.isNone) ∘
                fun pv => (k :: pv.1, pv.2)) = [] := by
            have h3 : nonNullLeaves gs = [] := by
              rw [← hgs, hpr]
              rfl
            exact h3
          rw [nonNullLeaves, nonNullLeaves, leavesOf_cons_dict,
            List.filter_append, List.filter_map, hz, List.map_nil,
            List.nil_append]
        · have h1 : pruneD (.cons k (.dict gs) rest) =
              .cons k (.dict (.cons k2 v2 g2)) (pruneD rest) := by
            rw [pruneD_cons, pruneEntry_dict, hpr]
          rw [h1, leavesOf_cons_dict, hrest, ← hpr, hgs]
          show (nonNullLeaves gs).map (fun pv => (k :: pv.1, pv.2)) ++
              nonNullLeaves rest = nonNullLeaves (.cons k (.dict gs) rest)
          rw [show nonNullLeaves (.cons k (.dict gs) rest) =
              ((leavesOf gs).filter
                ((fun pv : List String × PyVal => !pv.2.isNone) ∘
                  fun pv => (k :: pv.1, pv.2))).map
                (fun pv => (k :: pv.1, pv.2)) ++ nonNullLeaves rest from by
            rw [nonNullLeaves, leavesOf_cons_dict, List.filter_append,
              List.filter_map]
            rfl]
          rfl
      | bool b =>
        have h1 : pruneD (.cons k (.bool b) rest) =
            .cons k (.bool b) (pruneD rest) := rfl
        rw [h1, leavesOf_cons_scalar k (.bool b) (pruneD rest)
            (by intro gs h; cases h), hrest]
        show ([k], PyVal.bool b) :: nonNullLeaves rest =
          nonNullLeaves (.cons k (.bool b) rest)
        rw [nonNullLeaves, nonNullLeaves,
          leavesOf_cons_scalar k (.bool b) rest (by intro gs h; cases h),
          List.filter_cons, if_pos (by rfl)]
      | int i =>
        have h1 : pruneD (.cons k (.int i) rest) =
            .cons k (.int i) (pruneD rest) := rfl
        rw [h1, leavesOf_cons_scalar k (.int i) (pruneD rest)
            (by intro gs h; cases h), hrest]
        show ([k], PyVal.int i) :: nonNullLeaves rest =
          nonNullLeaves (.cons k (.int i) rest)
        rw [nonNullLeaves, nonNullLeaves,
          leavesOf_cons_scalar k (.int i) rest (by intro gs h; cases h),
          List.filter_cons, if_pos (by rfl)]
      | float f =>
        have h1 : pruneD (.cons k (.float f) rest) =
            .cons k (.float f) (pruneD rest) := rfl
        rw [h1, leavesOf_cons_scalar k (.float f) (pruneD rest)
            (by intro gs h; cases h), hrest]
        show ([k], PyVal.float f) :: nonNullLeaves rest =
          nonNullLeaves (.cons k (.float f) rest)
        rw [nonNullLeaves, nonNullLeaves,
          leavesOf_cons_scalar k (.float f) rest (by intro gs h; cases h),
          List.filter_cons, if_pos (by rfl)]
      | str s =>
        have h1 : pruneD (.cons k (.str s) rest) =
            .cons k (.str s) (pruneD rest) := rfl
        rw [h1, leavesOf_cons_scalar k (.str s) (pruneD rest)
            (by intro gs h; cases h), hrest]
        show ([k], PyVal.str s) :: nonNullLeaves rest =
          nonNullLeaves (.cons k (.str s) rest)
        rw [nonNullLeaves, nonNullLeaves,
          leavesOf_cons_scalar k (.str s) rest (by intro gs h; cases h),
          List.filter_cons, if_pos (by rfl)]
      | dt d =>
        have h1 : pruneD (.cons k (.dt d) rest) =
            .cons k (.dt d) (pruneD rest) := rfl
        rw [h1, leavesOf_cons_scalar k (.dt d) (pruneD rest)
            (by intro gs h; cases h), hrest]
        show ([k], PyVal.dt d) :: nonNullLeaves rest =
          nonNullLeaves (.cons k (.dt d) rest)
        rw [nonNullLeaves, nonNullLeaves,
          leavesOf_cons_scalar k (.dt d) rest (by intro gs h; cases h),
          List.filter_cons, if_pos (by rfl)]
      | list xs =>
        have h1 : pruneD (.cons k (.list xs) rest) =
            .cons k (.list xs) (pruneD rest) := rfl
        rw [h1, leavesOf_cons_scalar k (.list xs) (pruneD rest)
            (by intro gs h; cases h), hrest]
        show ([k], PyVal.list xs) :: nonNullLeaves rest =
          nonNullLeaves (.cons k (.list xs) rest)
        rw [nonNullLeaves, nonNullLeaves,
          leavesOf_cons_scalar k (.list xs) rest (by intro gs h; cases h),
          List.filter_cons, if_pos (by rfl)]

/-- C2 counterexample: the record \x7b"a.b": 1\x7d has the single
non-null leaf path ["a.b"], but flattening and unflattening it produces
\x7b"a": \x7b"b": 1\x7d\x7d, whose single leaf path is ["a", "b"] — the
round trip does not reproduce the record's leaves when a key contains
the separator. -/
theorem flatten_unflatten_dotted_key_counterexample :
    flatten_dict (PyDict.ofList [("a.b", .int 1)]) = [("a.b", .int 1)] ∧
    unflatten [("a.b", .int 1)] =
      .ok (PyDict.ofList [("a", .dict (PyDict.ofList [("b", .int 1)]))]) ∧
    nonNullLeaves (PyDict.ofList [("a.b", .int 1)]) = [(["a.b"], .int 1)] ∧
    leavesOf (PyDict.ofList [("a", .dict (PyDict.ofList [("b", .int 1)]))]) =
      [(["a", "b"], .int 1)] ∧
    (["a.b"] : List String) ≠ ["a", "b"] :=
  ⟨rfl, rfl, rfl, rfl, by decide⟩

/-- C2 (amended): for a record whose keys at every level are non-empty,
dot-free and unique and whose leaves are all scalars (null, boolean,
number or string — no list-valued leaves), `unflatten(flatten_dict(R))`
succeeds and produces a record whose leaves are exactly the non-null
leaf paths of R with their values, in order; every null leaf of R is absent
from the result.  (The dot-free key restriction is necessary: see the
counterexample.) -/
theorem flatten_unflatten_roundtrip (fs : PyDict)
    (h : goodRecord fs = true) :
    ∃ res, unflatten (flatten_dict fs) = .ok res ∧
      leavesOf res = nonNullLeaves fs := by
  refine ⟨pruneD fs, ?_, leavesOf_pruneD (pySizeD fs) fs (Nat.le_refl _)⟩
  rw [flatten_dict_eq_items fs h, unflatten]
  exact unflatten_flatten_main (pySizeD fs) fs (Nat.le_refl _) h .nil
    (fun key _ => rfl)

/-- C2 witness: the round trip applied to the concrete record
{"a": {"b": 1, "c": null}, "d": "x"}. -/
theorem flatten_unflatten_roundtrip_witness :
    goodRecord (PyDict.ofList
      [("a", .dict (PyDict.ofList [("b", .int 1), ("c", .none)])),
       ("d", .str "x")]) = true ∧
    ∃ res,
      unflatten (flatten_dict (PyDict.ofList
        [("a", .dict (PyDict.ofList [("b", .int 1), ("c", .none)])),
         ("d", .str "x")])) = .ok res ∧
      leavesOf res = nonNullLeaves (PyDict.ofList
        [("a", .dict (PyDict.ofList [("b", .int 1), ("c", .none)])),
         ("d", .str "x")]) :=
  ⟨rfl, flatten_unflatten_roundtrip _ rfl⟩

end Iq












